import Mathlib

/-!
# jsoncons `json_structures.hpp`: member tables and the string comparator

A shallow embedding of the key comparators and of the two `json_object` member tables
(key-sorted and insertion-order) of `src/jsoncons/json_structures.hpp`.

* A key (`string_type`) is the list of its code units, a code unit being a natural number.
* A raw buffer `const CharT* b` is the list of the code units stored at `b`; the length that
  travels with it stays a separate argument, as in the source.
* `std::vector<value_type>` is a `List`; an iterator is an index into it and the end iterator
  is the length of the list.
-/

namespace jsoncons

/-! ## Member entries and the comparators -/

/-- Member entry `name_value_pair<StringT, ValueT>`: the fields `name_` and `value_`, read through
the accessors `name()` and `value()`. -/
structure name_value_pair (V : Type) where
  name : List Nat
  value : V
deriving DecidableEq, Repr

/-- Three-way comparison `std::char_traits<CharT>::compare(s1, s2, n)` of the first `n` code units
of two buffers: negative, zero or positive as the first differing unit of `s1` is smaller than,
absent, or larger than that of `s2`. Every caller passes an `n` that both buffers hold; the last
equation (a buffer shorter than `n`) is never reached by them. -/
def char_traits_compare : List Nat → List Nat → Nat → Int
  | _, _, 0 => 0
  | x :: xs, y :: ys, n + 1 =>
    if x < y then -1 else if y < x then 1 else char_traits_compare xs ys n
  | _, _, _ + 1 => 0

/-- Comparator `member_lt_string<ValueT,CharT>(length_)(a, b)`: entry against raw buffer. -/
def member_lt_string {V : Type} (length_ : Nat) (a : name_value_pair V) (b : List Nat) : Bool :=
  let len := min a.name.length length_
  let result := char_traits_compare a.name b len
  if result ≠ 0 then decide (result < 0)
  else decide (a.name.length < length_)

/-- Function `name_le_string(a, b, length)`: key against raw buffer, less-or-equal. -/
def name_le_string (a : List Nat) (b : List Nat) (length : Nat) : Bool :=
  let min_len := min a.length length
  let result := char_traits_compare a b min_len
  if result ≠ 0 then decide (result < 0)
  else decide (a.length ≤ length)

/-- Function `name_eq_string(a, b, length)`: key against raw buffer, equality. The comparison is
only made when the lengths agree (`&&` short-circuits). -/
def name_eq_string (a : List Nat) (b : List Nat) (length : Nat) : Bool :=
  decide (a.length = length) && decide (char_traits_compare a b length = 0)

/-- Comparator `member_lt_member<ValueT>()(a, b)`: entry against entry. -/
def member_lt_member {V : Type} (a b : name_value_pair V) : Bool :=
  if a.name.length = b.name.length then
    decide (char_traits_compare a.name b.name a.name.length < 0)
  else
    let len := min a.name.length b.name.length
    let result := char_traits_compare a.name b.name len
    if result ≠ 0 then decide (result < 0)
    else decide (a.name.length < b.name.length)

/-- Predicate `equals_pred<ValueT,CharT>(b_, length_)(a)`: exact key match against a buffer. -/
def equals_pred {V : Type} (b_ : List Nat) (length_ : Nat) (a : name_value_pair V) : Bool :=
  let len := min a.name.length length_
  let result := char_traits_compare a.name b_ len
  decide (result = 0) && decide (a.name.length = length_)

/-! ## Standard-library primitives used by the tables -/

/-- Insertion `std::vector::insert(pos, x)`: `x` is placed before the element at index `pos`. -/
def vector_insert {α : Type} (v : List α) (pos : Nat) (x : α) : List α :=
  v.take pos ++ x :: v.drop pos

/-- Range removal `std::vector::erase(first, last)` of the half-open index range. -/
def vector_erase {α : Type} (v : List α) (first last : Nat) : List α :=
  v.take first ++ v.drop last

/-- Loop of `std::lower_bound`: bisection over the `count` elements that start at index `first`.
The first argument bounds the number of iterations; `count` at least halves on every iteration,
so `count` iterations always suffice (`lower_bound_loop_spec`). -/
def lower_bound_loop {α : Type} (v : List α) (comp : α → Bool) : Nat → Nat → Nat → Nat
  | 0, first, _ => first
  | fuel + 1, first, count =>
    if count = 0 then first
    else
      let step := count / 2
      match v[first + step]? with
      | none => first
      | some x =>
        if comp x then lower_bound_loop v comp fuel (first + step + 1) (count - (step + 1))
        else lower_bound_loop v comp fuel first step

/-- Algorithm `std::lower_bound(first, last, value, comp)` on the index range `[first, last)`;
`comp` is the comparator already applied to the searched value. -/
def lower_bound {α : Type} (v : List α) (first last : Nat) (comp : α → Bool) : Nat :=
  lower_bound_loop v comp (last - first) first (last - first)

/-- Algorithm `std::find_if(begin, end, pred)`: the index of the first element satisfying `pred`,
or the length (the end iterator) when there is none. -/
def find_if {α : Type} (pred : α → Bool) : List α → Nat
  | [] => 0
  | x :: xs => if pred x then 0 else find_if pred xs + 1

/-- Assignment `it->value(value)` through an iterator: the value of the entry at index `it` is
replaced and its key kept. -/
def assign_value {V : Type} (members_ : List (name_value_pair V)) (it : Nat) (value : V) :
    List (name_value_pair V) :=
  match members_[it]? with
  | some e => members_.set it ⟨e.name, value⟩
  | none => members_

/-! ## Sorted member table: `json_object<StringT,Json,true,Allocator>` -/

namespace json_object_sorted

/-- Method `find(const char_type* name, size_t length)`. -/
def find {V : Type} (members_ : List (name_value_pair V)) (name : List Nat) (length : Nat) : Nat :=
  let it := lower_bound members_ 0 members_.length (fun a => member_lt_string length a name)
  match members_[it]? with
  | some e => if it ≠ members_.length ∧ name_eq_string e.name name length then it
              else members_.length
  | none => members_.length

/-- Method `set(const char_type* s, size_t length, const Json& value)`. -/
def set {V : Type} (members_ : List (name_value_pair V)) (s : List Nat) (length : Nat)
    (value : V) : List (name_value_pair V) :=
  let it := lower_bound members_ 0 members_.length (fun a => member_lt_string length a s)
  if it = members_.length then
    members_ ++ [⟨s.take length, value⟩]
  else
    match members_[it]? with
    | some e =>
      if name_eq_string e.name s length then assign_value members_ it value
      else vector_insert members_ it ⟨s.take length, value⟩
    | none => members_

/-- Method `set(const string_type& name, const Json& value)`. -/
def set_string {V : Type} (members_ : List (name_value_pair V)) (name : List Nat) (value : V) :
    List (name_value_pair V) :=
  set members_ name name.length value

/-- Method `find` called with a whole key as the buffer. -/
def find_string {V : Type} (members_ : List (name_value_pair V)) (name : List Nat) : Nat :=
  find members_ name name.length

/-- Method `set(iterator hint, const char_type* s, size_t length, const Json& value)`: the new
member list and the returned iterator. -/
def set_hint {V : Type} (members_ : List (name_value_pair V)) (hint : Nat) (s : List Nat)
    (length : Nat) (value : V) : List (name_value_pair V) × Nat :=
  let it :=
    match members_[hint]? with
    | some h =>
      if hint ≠ members_.length ∧ name_le_string h.name s length then
        lower_bound members_ hint members_.length (fun a => member_lt_string length a s)
      else
        lower_bound members_ 0 members_.length (fun a => member_lt_string length a s)
    | none => lower_bound members_ 0 members_.length (fun a => member_lt_string length a s)
  if it = members_.length then
    let members1 := members_ ++ [⟨s.take length, value⟩]
    (members1, members1.length - 1)
  else
    match members_[it]? with
    | some e =>
      if name_eq_string e.name s length then (assign_value members_ it value, it)
      else (vector_insert members_ it ⟨s.take length, value⟩, it)
    | none => (members_, it)

/-- Method `set(iterator hint, const string_type& name, const Json& value)`. -/
def set_hint_string {V : Type} (members_ : List (name_value_pair V)) (hint : Nat)
    (name : List Nat) (value : V) : List (name_value_pair V) × Nat :=
  set_hint members_ hint name name.length value

end json_object_sorted

/-! ## Insertion-order member table: `json_object<StringT,Json,false,Allocator>` -/

namespace json_object_insertion

/-- Method `find(const char_type* name, size_t length)`. -/
def find {V : Type} (members_ : List (name_value_pair V)) (name : List Nat) (length : Nat) : Nat :=
  find_if (equals_pred name length) members_

/-- Method `set(const char_type* name, size_t length, const Json& value)`. -/
def set {V : Type} (members_ : List (name_value_pair V)) (name : List Nat) (length : Nat)
    (value : V) : List (name_value_pair V) :=
  let it := find_if (equals_pred name length) members_
  if it = members_.length then
    members_ ++ [⟨name.take length, value⟩]
  else
    assign_value members_ it value

/-- Method `set(const string_type& name, const Json& value)`. -/
def set_string {V : Type} (members_ : List (name_value_pair V)) (name : List Nat) (value : V) :
    List (name_value_pair V) :=
  set members_ name name.length value

/-- Method `find` called with a whole key as the buffer. -/
def find_string {V : Type} (members_ : List (name_value_pair V)) (name : List Nat) : Nat :=
  find members_ name name.length

end json_object_insertion

/-- Ordering invariant of the sorted table: every entry is strictly less than its successor under
the entry comparator `member_lt_member`. -/
def strictly_ascending {V : Type} (members_ : List (name_value_pair V)) : Prop :=
  List.Chain' (fun a b => member_lt_member a b = true) members_

/-- Boolean check of the ordering invariant, entry by entry. -/
def ascending_check {V : Type} : List (name_value_pair V) → Bool
  | [] => true
  | [_] => true
  | a :: b :: rest => member_lt_member a b && ascending_check (b :: rest)

instance {V : Type} (members_ : List (name_value_pair V)) :
    Decidable (strictly_ascending members_) :=
  decidable_of_iff (ascending_check members_ = true) (by
    unfold strictly_ascending
    induction members_ with
    | nil => simp [ascending_check]
    | cons a rest ih =>
      cases rest with
      | nil => simp [ascending_check]
      | cons b rest =>
        rw [List.chain'_cons, ← ih]
        simp [ascending_check])

/-- A finite sequence of `set(k, v)` calls on the sorted table, made in list order on the
member list `members_`. -/
def json_object_sorted.set_calls {V : Type} (members_ : List (name_value_pair V))
    (calls : List (List Nat × V)) : List (name_value_pair V) :=
  calls.foldl (fun t c => json_object_sorted.set_string t c.1 c.2) members_

/-- A finite sequence of `set(k, v)` calls on the insertion-order table, made in list order on
the member list `members_`. -/
def json_object_insertion.set_calls {V : Type} (members_ : List (name_value_pair V))
    (calls : List (List Nat × V)) : List (name_value_pair V) :=
  calls.foldl (fun t c => json_object_insertion.set_string t c.1 c.2) members_

/-- Value passed by the last call of `calls` made with key `k`, when there is such a call. -/
def last_value {V : Type} (calls : List (List Nat × V)) (k : List Nat) : Option V :=
  (calls.reverse.find? (fun c => decide (c.1 = k))).map Prod.snd

/-- Position in `calls` of the first call made with key `k`; the length of `calls` when no call
has that key. -/
def first_call {V : Type} (calls : List (List Nat × V)) (k : List Nat) : Nat :=
  find_if (fun c => decide (c.1 = k)) calls

/-! ## Further operations of the two tables -/

/-- Resizing `std::vector::resize(n)`: the vector is cut to `n` elements or padded to `n` elements
with default-constructed ones (`dflt`). -/
def vector_resize {α : Type} (v : List α) (n : Nat) (dflt : α) : List α :=
  v.take n ++ List.replicate (n - v.length) dflt

/-- Kinds of the standard exceptions the tables raise. -/
inductive exception_kind where
  | runtime_error
  | out_of_range
deriving DecidableEq, Repr

/-- Modelled from the spec: the macro `JSONCONS_THROW_EXCEPTION(Base, what)` is not defined in the
source files at hand. By the error handling design of the spec the call never returns and fails
with a condition of the kind `Base` that carries the message `what`. -/
def JSONCONS_THROW_EXCEPTION {α : Type} (base : exception_kind) (what : String) :
    Except (exception_kind × String) α :=
  Except.error (base, what)

/-- Loop of the bulk `insert` of both tables, `for (s = first; s != last; ++s, ++d) *d = pred(*s)`:
the source elements are written through `pred` to the slots from index `d` on. -/
def insert_loop {S α : Type} (pred : S → α) : List S → Nat → List α → List α
  | [], _, members_ => members_
  | s :: rest, d, members_ => insert_loop pred rest (d + 1) (members_.set d (pred s))

/-- Contract of `std::sort(begin, end, member_lt_member())`, the only thing the C++ standard fixes
about it: the result is a rearrangement of the range in which no entry is followed by one that
the comparator puts before it. The order among entries with equal keys is unspecified. -/
def std_sort_contract {V : Type} (sort : List (name_value_pair V) → List (name_value_pair V)) :
    Prop :=
  ∀ xs, List.Perm (sort xs) xs ∧
    List.Pairwise (fun a b => member_lt_member b a = false) (sort xs)

/-- Order `a ≤ b` of two entries by key: the comparator does not put `b` before `a`. -/
def member_le {V : Type} (a b : name_value_pair V) : Prop :=
  member_lt_member b a = false

instance {V : Type} : DecidableRel (member_le : name_value_pair V → name_value_pair V → Prop) :=
  fun a b => inferInstanceAs (Decidable (member_lt_member b a = false))

/-- Stable sort by key: insertion sort under `member_le`, in which an entry is never moved past an
entry with an equal key. -/
def stable_sort {V : Type} (xs : List (name_value_pair V)) : List (name_value_pair V) :=
  List.insertionSort member_le xs

namespace json_object_sorted

/-- Method `at(size_t)`: the member list after the call and the outcome of the call. -/
def at_ {V : Type} (members_ : List (name_value_pair V)) (_i : Nat) :
    List (name_value_pair V) × Except (exception_kind × String) V :=
  (members_, JSONCONS_THROW_EXCEPTION exception_kind.runtime_error
    "Index on non-array value not supported")

/-- Method `clear()`. -/
def clear {V : Type} (_members : List (name_value_pair V)) : List (name_value_pair V) :=
  []

/-- Method `erase(iterator first, iterator last)`. -/
def erase_range {V : Type} (members_ : List (name_value_pair V)) (first last : Nat) :
    List (name_value_pair V) :=
  vector_erase members_ first last

/-- Method `erase(const char_type* name, size_t length)`. -/
def erase {V : Type} (members_ : List (name_value_pair V)) (name : List Nat) (length : Nat) :
    List (name_value_pair V) :=
  let it := lower_bound members_ 0 members_.length (fun a => member_lt_string length a name)
  match members_[it]? with
  | some e =>
    if it ≠ members_.length ∧ name_eq_string e.name name length then
      vector_erase members_ it (it + 1)
    else members_
  | none => members_

/-- Method `erase` called with a whole key as the buffer. -/
def erase_string {V : Type} (members_ : List (name_value_pair V)) (name : List Nat) :
    List (name_value_pair V) :=
  erase members_ name name.length

/-- Method `insert(InputIt first, InputIt last, UnaryPredicate pred)`; `sort` stands for the call
`std::sort(members_.begin(), members_.end(), member_lt_member<value_type>())` and `dflt` for the
default-constructed entry that `resize` pads with. -/
def insert {S V : Type} (sort : List (name_value_pair V) → List (name_value_pair V))
    (dflt : name_value_pair V) (members_ : List (name_value_pair V)) (source : List S)
    (pred : S → name_value_pair V) : List (name_value_pair V) :=
  let count := source.length
  let pos := members_.length
  let members1 := vector_resize members_ (pos + count) dflt
  let members2 := insert_loop pred source pos members1
  sort members2

/-- Loop of `operator==`: every entry of the left table is looked up in `rhs` by binary search
and its value compared; `value_eq` is `Json::operator==`, of which `!=` is the negation. -/
def operator_eq_loop {V : Type} (value_eq : V → V → Bool) (rhs : List (name_value_pair V)) :
    List (name_value_pair V) → Bool
  | [] => true
  | it :: rest =>
    let rhs_it := lower_bound rhs 0 rhs.length (fun a => member_lt_member a it)
    match rhs[rhs_it]? with
    | some r =>
      if rhs_it = rhs.length ∨ r.name ≠ it.name ∨ value_eq r.value it.value = false then false
      else operator_eq_loop value_eq rhs rest
    | none => false

/-- Method `operator==(const json_object& rhs)`. -/
def operator_eq {V : Type} (value_eq : V → V → Bool) (members_ rhs : List (name_value_pair V)) :
    Bool :=
  if members_.length ≠ rhs.length then false
  else operator_eq_loop value_eq rhs members_

end json_object_sorted

namespace json_object_insertion

/-- Method `at(size_t i)`: the member list after the call and the outcome of the call. -/
def at_ {V : Type} (members_ : List (name_value_pair V)) (i : Nat) :
    List (name_value_pair V) × Except (exception_kind × String) V :=
  if i ≥ members_.length then
    (members_, JSONCONS_THROW_EXCEPTION exception_kind.out_of_range "Invalid array subscript")
  else
    match members_[i]? with
    | some e => (members_, Except.ok e.value)
    | none => (members_, JSONCONS_THROW_EXCEPTION exception_kind.out_of_range
        "Invalid array subscript")

/-- Method `set(iterator hint, const char_type* name, size_t length, const Json& value)`: the new
member list and the returned iterator. -/
def set_hint {V : Type} (members_ : List (name_value_pair V)) (hint : Nat) (name : List Nat)
    (length : Nat) (value : V) : List (name_value_pair V) × Nat :=
  let it := hint
  if it = members_.length then
    let members1 := members_ ++ [⟨name.take length, value⟩]
    (members1, members1.length - 1)
  else
    match members_[it]? with
    | some e =>
      if name_eq_string e.name name length then (assign_value members_ it value, it)
      else (vector_insert members_ it ⟨name.take length, value⟩, it)
    | none => (members_, it)

/-- Method `set(iterator hint, const string_type& name, const Json& value)`. -/
def set_hint_string {V : Type} (members_ : List (name_value_pair V)) (hint : Nat)
    (name : List Nat) (value : V) : List (name_value_pair V) × Nat :=
  set_hint members_ hint name name.length value

/-- Loop of `operator==`: every entry of the left table is looked up in `rhs` by linear scan and
its value compared; `value_eq` is `Json::operator==`, of which `!=` is the negation. -/
def operator_eq_loop {V : Type} (value_eq : V → V → Bool) (rhs : List (name_value_pair V)) :
    List (name_value_pair V) → Bool
  | [] => true
  | it :: rest =>
    let rhs_it := find_if (equals_pred it.name it.name.length) rhs
    match rhs[rhs_it]? with
    | some r =>
      if rhs_it = rhs.length ∨ r.name ≠ it.name ∨ value_eq r.value it.value = false then false
      else operator_eq_loop value_eq rhs rest
    | none => false

/-- Method `operator==(const json_object& rhs)`. -/
def operator_eq {V : Type} (value_eq : V → V → Bool) (members_ rhs : List (name_value_pair V)) :
    Bool :=
  if members_.length ≠ rhs.length then false
  else operator_eq_loop value_eq rhs members_

end json_object_insertion

/-- Code units of a string literal, for writing the keys of the test suite. -/
def code_units (s : String) : List Nat :=
  s.toList.map Char.toNat

/-- Object of `test_index` in `ojson_tests.cpp`: its four members, set in document order on an
empty insertion-order table. -/
def test_index_object : List (name_value_pair String) :=
  json_object_insertion.set_calls []
    [(code_units "street_number", "100"), (code_units "street_name", "Queen St W"),
      (code_units "city", "Toronto"), (code_units "country", "Canada")]

/-! ## Ordered sequence `json_array`, and the remaining table operations -/

/-- Modelled from the spec: the macro `JSONCONS_ASSERT(x)` is not defined in the source files at
hand. By the contract of `remove_range` in the spec a violated requirement makes the operation
fail with a condition, and the statements after the macro are not run; the message is the text
of the asserted expression. -/
def JSONCONS_ASSERT (x : Bool) (what : String) : Except String Unit :=
  if x then Except.ok () else Except.error what

namespace json_array

/-- Method `remove_range(size_t from_index, size_t to_index)`: the element list after the call
and the outcome of the call. -/
def remove_range {J : Type} (elements_ : List J) (from_index to_index : Nat) :
    List J × Except String Unit :=
  match JSONCONS_ASSERT (decide (from_index ≤ to_index)) "from_index <= to_index" with
  | Except.error e => (elements_, Except.error e)
  | Except.ok _ =>
    match JSONCONS_ASSERT (decide (to_index ≤ elements_.length))
        "to_index <= elements_.size()" with
    | Except.error e => (elements_, Except.error e)
    | Except.ok _ => (vector_erase elements_ from_index to_index, Except.ok ())

/-- Method `push_back(const Json& value)`. -/
def push_back {J : Type} (elements_ : List J) (value : J) : List J :=
  elements_ ++ [value]

/-- Method `add(size_t index, const Json& value)`. -/
def add {J : Type} (elements_ : List J) (index : Nat) (value : J) : List J :=
  let position := if index < elements_.length then index else elements_.length
  vector_insert elements_ position value

/-- Loop of `operator==`, `for (size_t i = 0; i < size(); ++i)`: the first argument counts the
iterations left, `size() - i`; `value_eq` is `Json::operator==`, of which `!=` is the negation. -/
def operator_eq_loop {J : Type} (value_eq : J → J → Bool) (elements_ rhs : List J) :
    Nat → Nat → Bool
  | 0, _ => true
  | left + 1, i =>
    match elements_[i]?, rhs[i]? with
    | some a, some b =>
      if value_eq a b = false then false
      else operator_eq_loop value_eq elements_ rhs left (i + 1)
    | _, _ => false

/-- Method `operator==(const json_array& rhs)`. -/
def operator_eq {J : Type} (value_eq : J → J → Bool) (elements_ rhs : List J) : Bool :=
  if elements_.length ≠ rhs.length then false
  else operator_eq_loop value_eq elements_ rhs elements_.length 0

end json_array

namespace json_object_insertion

/-- Method `erase(const char_type* name, size_t length)`. -/
def erase {V : Type} (members_ : List (name_value_pair V)) (name : List Nat) (length : Nat) :
    List (name_value_pair V) :=
  let it := find_if (equals_pred name length) members_
  if it ≠ members_.length then vector_erase members_ it (it + 1)
  else members_

/-- Method `erase` called with a whole key as the buffer. -/
def erase_string {V : Type} (members_ : List (name_value_pair V)) (name : List Nat) :
    List (name_value_pair V) :=
  erase members_ name name.length

/-- Method `insert(InputIt first, InputIt last, UnaryPredicate pred)`; `dflt` is the
default-constructed entry that `resize` pads with. -/
def insert {S V : Type} (dflt : name_value_pair V) (members_ : List (name_value_pair V))
    (source : List S) (pred : S → name_value_pair V) : List (name_value_pair V) :=
  let count := source.length
  let pos := members_.length
  let members1 := vector_resize members_ (pos + count) dflt
  insert_loop pred source pos members1

end json_object_insertion

namespace json_object_sorted

/-- First loop of the constructor `json_object(std::initializer_list<typename Json::array> init)`:
every element has to be an array of two values of which the first is a string; `is_string` is
`Json::is_string`. An element without a first value has a size other than 2. -/
def init_check {J : Type} (is_string : J → Bool) :
    List (List J) → Except (exception_kind × String) Unit
  | [] => Except.ok ()
  | element :: rest =>
    match element[0]? with
    | some first =>
      if element.length ≠ 2 ∨ is_string first = false then
        JSONCONS_THROW_EXCEPTION exception_kind.runtime_error
          "Cannot create object from initializer list"
      else init_check is_string rest
    | none =>
      JSONCONS_THROW_EXCEPTION exception_kind.runtime_error
        "Cannot create object from initializer list"

/-- Methods `set(string_type&& name, const Json& value)` and `set(string_type&& name,
Json&& value)`: the overloads that take the key as a temporary string and compare it with
`it->name() == name`. -/
def set_temporary {V : Type} (members_ : List (name_value_pair V)) (name : List Nat)
    (value : V) : List (name_value_pair V) :=
  let it := lower_bound members_ 0 members_.length
    (fun a => member_lt_string name.length a name)
  if it = members_.length then
    members_ ++ [⟨name, value⟩]
  else
    match members_[it]? with
    | some e =>
      if e.name = name then assign_value members_ it value
      else vector_insert members_ it ⟨name, value⟩
    | none => members_

/-- Second loop of the constructor: `set(element[0].as_string(), std::move(element[1]))` for
every element in list order; `as_string` is `Json::as_string`, whose result is a temporary
string. -/
def init_set {J : Type} (as_string : J → List Nat) :
    List (List J) → List (name_value_pair J) → List (name_value_pair J)
  | [], members_ => members_
  | element :: rest, members_ =>
    match element[0]?, element[1]? with
    | some first, some second =>
      init_set as_string rest (set_temporary members_ (as_string first) second)
    | _, _ => init_set as_string rest members_

/-- Constructor `json_object(std::initializer_list<typename Json::array> init)`: the member list
at the end of the constructor body and the outcome of the construction. -/
def from_initializer_list {J : Type} (is_string : J → Bool) (as_string : J → List Nat)
    (init : List (List J)) : List (name_value_pair J) × Except (exception_kind × String) Unit :=
  match init_check is_string init with
  | Except.error e => ([], Except.error e)
  | Except.ok _ => (init_set as_string init [], Except.ok ())

end json_object_sorted

/-- Comparison of two entry lists position by position: the same size, and at every index equal
keys and equal values. -/
def positionwise_eq {V : Type} (value_eq : V → V → Bool) :
    List (name_value_pair V) → List (name_value_pair V) → Bool
  | [], [] => true
  | a :: as, b :: bs =>
    (decide (b.name = a.name) && value_eq b.value a.value) && positionwise_eq value_eq as bs
  | _, _ => false

/-- Object `o` of `test_object` in `ojson_tests.cpp` after `o.set("postal_code", "M5H 2N2")`. -/
def test_object_o : List (name_value_pair String) :=
  json_object_insertion.set_string test_index_object (code_units "postal_code") "M5H 2N2"

/-- Object `o` of `test_object` after `o.set(o.find("country"), "province", "Ontario")`. -/
def test_object_province : List (name_value_pair String) :=
  (json_object_insertion.set_hint_string test_object_o
    (json_object_insertion.find_string test_object_o (code_units "country"))
    (code_units "province") "Ontario").1

/-! ## `std::sort` as GNU libstdc++ implements it

The functions of `bits/stl_algo.h` (GCC 12) behind `std::sort(first, last, comp)`, on a list
with iterators as indices. They are one implementation that meets `std_sort_contract`; they serve to
run the bulk `insert` of the sorted table on a concrete input. -/

/-- Swap `std::iter_swap(a, b)` of the elements at two positions. -/
def iter_swap {α : Type} (v : List α) (a b : Nat) : List α :=
  match v[a]?, v[b]? with
  | some x, some y => (v.set a y).set b x
  | _, _ => v

/-- Function `std::__lg(n)`, the position of the highest set bit of `n`; the first argument
bounds the number of halvings. -/
def std_lg_loop : Nat → Nat → Nat
  | 0, _ => 0
  | fuel + 1, n => if n ≥ 2 then std_lg_loop fuel (n / 2) + 1 else 0

/-- Function `std::__lg(n)`. -/
def std_lg (n : Nat) : Nat :=
  std_lg_loop n n

/-- Function `std::__move_median_to_first(result, a, b, c, comp)`. -/
def move_median_to_first {α : Type} (comp : α → α → Bool) (v : List α)
    (result a b c : Nat) : List α :=
  match v[a]?, v[b]?, v[c]? with
  | some xa, some xb, some xc =>
    if comp xa xb then
      if comp xb xc then iter_swap v result b
      else if comp xa xc then iter_swap v result c
      else iter_swap v result a
    else if comp xa xc then iter_swap v result a
    else if comp xb xc then iter_swap v result c
    else iter_swap v result b
  | _, _, _ => v

/-- Inner loop `while (comp(first, pivot)) ++first` of `std::__unguarded_partition`; the first
argument bounds the number of steps. -/
def partition_scan_up {α : Type} (comp : α → α → Bool) (v : List α) (pivot : α) :
    Nat → Nat → Nat
  | 0, first => first
  | fuel + 1, first =>
    match v[first]? with
    | some x => if comp x pivot then partition_scan_up comp v pivot fuel (first + 1) else first
    | none => first

/-- Inner loop `while (comp(pivot, last)) --last` of `std::__unguarded_partition`; the first
argument bounds the number of steps. -/
def partition_scan_down {α : Type} (comp : α → α → Bool) (v : List α) (pivot : α) :
    Nat → Nat → Nat
  | 0, last => last
  | fuel + 1, last =>
    match v[last]? with
    | some x => if comp pivot x then partition_scan_down comp v pivot fuel (last - 1) else last
    | none => last

/-- Function `std::__unguarded_partition(first, last, pivot, comp)`: the rearranged list and the
returned cut position; the first argument bounds the number of swaps. -/
def unguarded_partition {α : Type} (comp : α → α → Bool) :
    Nat → List α → Nat → Nat → Nat → List α × Nat
  | 0, v, first, _, _ => (v, first)
  | fuel + 1, v, first, last, pivot =>
    match v[pivot]? with
    | none => (v, first)
    | some p =>
      let first1 := partition_scan_up comp v p v.length first
      let last1 := partition_scan_down comp v p v.length (last - 1)
      if ¬ (first1 < last1) then (v, first1)
      else unguarded_partition comp fuel (iter_swap v first1 last1) (first1 + 1) last1 pivot

/-- Function `std::__unguarded_partition_pivot(first, last, comp)`. -/
def unguarded_partition_pivot {α : Type} (comp : α → α → Bool) (v : List α)
    (first last : Nat) : List α × Nat :=
  let mid := first + (last - first) / 2
  let v1 := move_median_to_first comp v first (first + 1) mid (last - 1)
  unguarded_partition comp v1.length v1 (first + 1) last first

/-- Function `std::__unguarded_linear_insert(last, comp)` with `val` the element taken out of
position `last`; the first argument bounds the number of shifts. -/
def unguarded_linear_insert {α : Type} (comp : α → α → Bool) (val : α) :
    Nat → List α → Nat → List α
  | 0, v, last => v.set last val
  | fuel + 1, v, last =>
    match (if last = 0 then none else v[last - 1]?) with
    | some x =>
      if comp val x then unguarded_linear_insert comp val fuel (v.set last x) (last - 1)
      else v.set last val
    | none => v.set last val

/-- Loop of `std::__insertion_sort(first, last, comp)` from position `i` on; the first argument
counts the positions left. -/
def insertion_sort_loop {α : Type} (comp : α → α → Bool) (first : Nat) :
    Nat → Nat → List α → List α
  | 0, _, v => v
  | left + 1, i, v =>
    match v[i]?, v[first]? with
    | some x, some f =>
      if comp x f then
        insertion_sort_loop comp first left (i + 1)
          (v.take first ++ x :: (v.drop first).take (i - first) ++ v.drop (i + 1))
      else
        insertion_sort_loop comp first left (i + 1)
          (unguarded_linear_insert comp x v.length v i)
    | _, _ => v

/-- Function `std::__insertion_sort(first, last, comp)`. -/
def insertion_sort {α : Type} (comp : α → α → Bool) (v : List α) (first last : Nat) : List α :=
  if first = last then v
  else insertion_sort_loop comp first (last - (first + 1)) (first + 1) v

/-- Function `std::__unguarded_insertion_sort(first, last, comp)` from position `i` on; the
first argument counts the positions left. -/
def unguarded_insertion_sort {α : Type} (comp : α → α → Bool) : Nat → Nat → List α → List α
  | 0, _, v => v
  | left + 1, i, v =>
    match v[i]? with
    | some x =>
      unguarded_insertion_sort comp left (i + 1) (unguarded_linear_insert comp x v.length v i)
    | none => v

/-- Function `std::__final_insertion_sort(first, last, comp)`, with `_S_threshold = 16`. -/
def final_insertion_sort {α : Type} (comp : α → α → Bool) (v : List α) (first last : Nat) :
    List α :=
  if last - first > 16 then
    unguarded_insertion_sort comp (last - (first + 16)) (first + 16)
      (insertion_sort comp v first (first + 16))
  else insertion_sort comp v first last

/-- Function `std::__introsort_loop(first, last, depth_limit, comp)`; the first argument is
`depth_limit`. The result is `none` when the depth limit is used up on a range of more than 16
elements: there libstdc++ goes over to heap sort, which is left out here. -/
def introsort_loop {α : Type} (comp : α → α → Bool) : Nat → List α → Nat → Nat → Option (List α)
  | 0, v, first, last => if last - first > 16 then none else some v
  | depth + 1, v, first, last =>
    if last - first > 16 then
      match introsort_loop comp depth (unguarded_partition_pivot comp v first last).1
          (unguarded_partition_pivot comp v first last).2 last with
      | none => none
      | some v2 =>
        introsort_loop comp depth v2 first (unguarded_partition_pivot comp v first last).2
    else some v

/-- Function `std::__sort(first, last, comp)` over a whole list; `none` under the condition named
at `introsort_loop`. -/
def libstdcxx_sort {α : Type} (comp : α → α → Bool) (v : List α) : Option (List α) :=
  if v.length = 0 then some v
  else
    match introsort_loop comp (std_lg v.length * 2) v 0 v.length with
    | none => none
    | some v1 => some (final_insertion_sort comp v1 0 v1.length)

/-- The call `std::sort(members_.begin(), members_.end(), member_lt_member<value_type>())` with the
libstdc++ functions above; where they give no result the list is handed back as it is. -/
def gnu_std_sort {V : Type} (xs : List (name_value_pair V)) : List (name_value_pair V) :=
  (libstdcxx_sort member_lt_member xs).getD xs

/-- Seventeen entries with the key `"a"` and the values `0` to `16`, as a source range for the
bulk `insert`. -/
def seventeen_with_key_a : List (List Nat × Nat) :=
  (List.range 17).map (fun i => ([97], i))

/-- Standard lexicographic order on code-unit sequences, written out as a decision procedure:
the first differing unit decides, and a proper prefix is less than the longer sequence. -/
def lex_lt : List Nat → List Nat → Bool
  | [], [] => false
  | [], _ :: _ => true
  | _ :: _, [] => false
  | x :: xs, y :: ys => if x < y then true else if y < x then false else lex_lt xs ys

/-! ## Facts about the comparators -/

theorem lex_lt_iff_Lex (a b : List Nat) : lex_lt a b = true ↔ List.Lex (· < ·) a b := by
  induction a generalizing b with
  | nil =>
    cases b with
    | nil => simp [lex_lt, List.Lex.not_nil_right]
    | cons y ys => simp [lex_lt, List.Lex.nil]
  | cons x xs ih =>
    cases b with
    | nil => simp [lex_lt, List.Lex.not_nil_right]
    | cons y ys =>
      simp only [lex_lt]
      by_cases h1 : x < y
      · simp [h1, List.Lex.rel h1]
      · by_cases h2 : y < x
        · simp only [h1, h2, if_false, if_true]
          constructor
          · intro h; cases h
          · intro h
            cases h with
            | cons h => omega
            | rel h => omega
        · have hxy : x = y := by omega
          subst hxy
          simp only [h1, if_false, ih]
          exact (List.Lex.cons_iff).symm

theorem lex_lt_irrefl (a : List Nat) : lex_lt a a = false := by
  induction a with
  | nil => rfl
  | cons x xs ih => simp [lex_lt, ih]

theorem lex_lt_trans {a b c : List Nat} (h1 : lex_lt a b = true) (h2 : lex_lt b c = true) :
    lex_lt a c = true := by
  induction a generalizing b c with
  | nil =>
    cases b with
    | nil => simp [lex_lt] at h1
    | cons y ys =>
      cases c with
      | nil => simp [lex_lt] at h2
      | cons z zs => simp [lex_lt]
  | cons x xs ih =>
    cases b with
    | nil => simp [lex_lt] at h1
    | cons y ys =>
      cases c with
      | nil => simp [lex_lt] at h2
      | cons z zs =>
        simp only [lex_lt] at h1 h2 ⊢
        by_cases hxy : x < y
        · by_cases hyz : y < z
          · have : x < z := by omega
            simp [this]
          · by_cases hzy : z < y
            · simp [hyz, hzy] at h2
            · have : y = z := by omega
              subst this
              simp [hxy]
        · by_cases hyx : y < x
          · simp [hxy, hyx] at h1
          · have : x = y := by omega
            subst this
            simp only [hxy, if_false] at h1
            by_cases hxz : x < z
            · simp [hxz]
            · by_cases hzx : z < x
              · simp [hxz, hzx] at h2
              · simp only [hxz, hzx, if_false] at h2 ⊢
                exact ih h1 h2

theorem lex_lt_asymm {a b : List Nat} (h : lex_lt a b = true) : lex_lt b a = false := by
  cases hba : lex_lt b a with
  | false => rfl
  | true =>
    have := lex_lt_trans h hba
    rw [lex_lt_irrefl] at this
    exact absurd this (by decide)

theorem lex_lt_total (a b : List Nat) : lex_lt a b = true ∨ a = b ∨ lex_lt b a = true := by
  induction a generalizing b with
  | nil =>
    cases b with
    | nil => simp
    | cons y ys => simp [lex_lt]
  | cons x xs ih =>
    cases b with
    | nil => simp [lex_lt]
    | cons y ys =>
      simp only [lex_lt]
      by_cases hxy : x < y
      · simp [hxy]
      · by_cases hyx : y < x
        · simp [hxy, hyx]
        · have : x = y := by omega
          subst this
          simp only [hxy, if_false, List.cons.injEq, true_and]
          simpa using ih ys

/-- On two whole keys the raw comparison over the shared prefix, with the length tie-break,
decides the lexicographic order. -/
theorem compare_lt_eq_lex_lt (a b : List Nat) :
    (if char_traits_compare a b (min a.length b.length) ≠ 0
      then decide (char_traits_compare a b (min a.length b.length) < 0)
      else decide (a.length < b.length)) = lex_lt a b := by
  induction a generalizing b with
  | nil =>
    cases b with
    | nil => simp [char_traits_compare, lex_lt]
    | cons y ys => simp [char_traits_compare, lex_lt]
  | cons x xs ih =>
    cases b with
    | nil => simp [char_traits_compare, lex_lt]
    | cons y ys =>
      simp only [List.length_cons, Nat.succ_min_succ, char_traits_compare, lex_lt]
      by_cases hxy : x < y
      · simp [hxy]
      · by_cases hyx : y < x
        · simp [hxy, hyx]
        · simp only [hxy, hyx, if_false]
          rw [← ih ys]
          simp

theorem compare_le_eq_lex_le (a b : List Nat) :
    (if char_traits_compare a b (min a.length b.length) ≠ 0
      then decide (char_traits_compare a b (min a.length b.length) < 0)
      else decide (a.length ≤ b.length)) = (lex_lt a b || decide (a = b)) := by
  induction a generalizing b with
  | nil =>
    cases b with
    | nil => simp [char_traits_compare, lex_lt]
    | cons y ys => simp [char_traits_compare, lex_lt]
  | cons x xs ih =>
    cases b with
    | nil => simp [char_traits_compare, lex_lt]
    | cons y ys =>
      simp only [List.length_cons, Nat.succ_min_succ, char_traits_compare, lex_lt]
      by_cases hxy : x < y
      · simp [hxy]
      · by_cases hyx : y < x
        · have hne : ¬ x = y := by omega
          simp [hxy, hyx, hne]
        · have hxy2 : x = y := by omega
          subst hxy2
          have h := ih ys
          simp only [hxy, if_false, List.cons.injEq, true_and, Nat.add_le_add_iff_right]
          exact h

theorem compare_eq_zero_iff (a b : List Nat) (h : a.length = b.length) :
    char_traits_compare a b a.length = 0 ↔ a = b := by
  induction a generalizing b with
  | nil =>
    cases b with
    | nil => simp [char_traits_compare]
    | cons y ys => simp at h
  | cons x xs ih =>
    cases b with
    | nil => simp at h
    | cons y ys =>
      simp only [List.length_cons, Nat.add_right_cancel_iff] at h
      simp only [List.length_cons, char_traits_compare]
      by_cases hxy : x < y
      · have hne : ¬ x = y := by omega
        simp [hxy, hne]
      · by_cases hyx : y < x
        · have hne : ¬ x = y := by omega
          simp [hxy, hyx, hne]
        · have hxy2 : x = y := by omega
          subst hxy2
          simp [hxy, ih ys h]

theorem member_lt_string_eq {V : Type} (a : name_value_pair V) (b : List Nat) :
    member_lt_string b.length a b = lex_lt a.name b := by
  simp only [member_lt_string]
  exact compare_lt_eq_lex_lt a.name b

theorem member_lt_member_eq {V : Type} (a b : name_value_pair V) :
    member_lt_member a b = lex_lt a.name b.name := by
  have h := compare_lt_eq_lex_lt a.name b.name
  simp only [member_lt_member]
  by_cases hl : a.name.length = b.name.length
  · rw [if_pos hl]
    rw [← hl, Nat.min_self] at h
    rw [← h]
    by_cases hc : char_traits_compare a.name b.name a.name.length = 0
    · simp [hc]
    · simp [hc]
  · rw [if_neg hl]
    exact h

theorem name_eq_string_eq (a b : List Nat) :
    name_eq_string a b b.length = decide (a = b) := by
  simp only [name_eq_string]
  by_cases hl : a.length = b.length
  · have h := compare_eq_zero_iff a b hl
    rw [hl] at h
    simp [hl, h]
  · have hne : ¬ a = b := fun h => hl (by rw [h])
    simp [hl, hne]

theorem equals_pred_eq {V : Type} (b : List Nat) (a : name_value_pair V) :
    equals_pred b b.length a = decide (a.name = b) := by
  simp only [equals_pred]
  by_cases hl : a.name.length = b.length
  · have h := compare_eq_zero_iff a.name b hl
    rw [← hl, Nat.min_self]
    simp [h]
  · have hne : ¬ a.name = b := fun h => hl (by rw [h])
    simp [hl, hne]

theorem name_le_string_eq (a b : List Nat) :
    name_le_string a b b.length = (lex_lt a b || decide (a = b)) := by
  simp only [name_le_string]
  exact compare_le_eq_lex_le a b

theorem lex_lt_ne {a b : List Nat} (h : lex_lt a b = true) : a ≠ b := by
  intro hab
  subst hab
  rw [lex_lt_irrefl] at h
  exact absurd h (by decide)

theorem lex_lt_append (a s : List Nat) (hs : s ≠ []) : lex_lt a (a ++ s) = true := by
  induction a with
  | nil =>
    cases s with
    | nil => exact absurd rfl hs
    | cons y ys => rfl
  | cons x xs ih => simp [lex_lt, ih]

/-! ## Bisection -/

theorem lower_bound_loop_spec {α : Type} (v : List α) (comp : α → Bool) (p : Nat) :
    ∀ (fuel first count : Nat), count ≤ fuel → first + count ≤ v.length →
      first ≤ p → p ≤ first + count →
      (∀ i x, first ≤ i → i < p → v[i]? = some x → comp x = true) →
      (∀ i x, p ≤ i → i < first + count → v[i]? = some x → comp x = false) →
      lower_bound_loop v comp fuel first count = p := by
  intro fuel
  induction fuel with
  | zero =>
    intro first count hc _ h1 h2 _ _
    simp only [lower_bound_loop]
    omega
  | succ fuel ih =>
    intro first count hc hlen h1 h2 hlo hhi
    simp only [lower_bound_loop]
    by_cases hz : count = 0
    · rw [if_pos hz]; omega
    · rw [if_neg hz]
      have hmid : first + count / 2 < v.length := by omega
      have hget : v[first + count / 2]? = some v[first + count / 2] :=
        List.getElem?_eq_getElem hmid
      rw [hget]
      simp only
      by_cases hcx : comp v[first + count / 2] = true
      · rw [if_pos hcx]
        have hp : first + count / 2 < p := by
          by_contra hnot
          have := hhi (first + count / 2) _ (by omega) (by omega) hget
          rw [this] at hcx
          exact absurd hcx (by decide)
        apply ih
        · omega
        · omega
        · omega
        · omega
        · intro i x hi1 hi2 hx
          exact hlo i x (by omega) hi2 hx
        · intro i x hi1 hi2 hx
          exact hhi i x hi1 (by omega) hx
      · rw [if_neg hcx]
        have hp : p ≤ first + count / 2 := by
          by_contra hnot
          exact hcx (hlo (first + count / 2) _ (by omega) (by omega) hget)
        apply ih
        · omega
        · omega
        · omega
        · omega
        · intro i x hi1 hi2 hx
          exact hlo i x hi1 hi2 hx
        · intro i x hi1 hi2 hx
          exact hhi i x hi1 (by omega) hx

/-- On a range whose elements satisfying `comp` all come first, `std::lower_bound` started at any
index inside that first block returns the index where the block ends. -/
theorem lower_bound_split {α : Type} (L R : List α) (comp : α → Bool) (first : Nat)
    (hL : ∀ x ∈ L, comp x = true) (hR : ∀ x ∈ R, comp x = false) (hf : first ≤ L.length) :
    lower_bound (L ++ R) first (L ++ R).length comp = L.length := by
  unfold lower_bound
  apply lower_bound_loop_spec
  · exact Nat.le_refl _
  · simp only [List.length_append]; omega
  · exact hf
  · simp only [List.length_append]; omega
  · intro i x _ hi hx
    rw [List.getElem?_append_left hi] at hx
    exact hL x (List.getElem?_mem hx)
  · intro i x hi _ hx
    rw [List.getElem?_append_right hi] at hx
    exact hR x (List.getElem?_mem hx)

/-! ## The sorted table on a strictly ascending member list -/

theorem strictly_ascending_iff_pairwise {V : Type} (v : List (name_value_pair V)) :
    strictly_ascending v ↔ List.Pairwise (fun a b => lex_lt a.name b.name = true) v := by
  unfold strictly_ascending
  have hrel : (fun a b : name_value_pair V => member_lt_member a b = true)
      = (fun a b => lex_lt a.name b.name = true) := by
    funext a b
    rw [member_lt_member_eq]
  rw [hrel]
  constructor
  · intro h
    induction v with
    | nil => exact List.Pairwise.nil
    | cons e v ih =>
      have htail : List.Chain' (fun a b : name_value_pair V => lex_lt a.name b.name = true) v :=
        List.Chain'.tail h
      have hp := ih htail
      refine List.Pairwise.cons ?_ hp
      intro x hx
      cases v with
      | nil => simp at hx
      | cons y ys =>
        have hey : lex_lt e.name y.name = true := (List.chain'_cons.mp h).1
        rcases List.mem_cons.mp hx with hxy | hxys
        · rw [hxy]; exact hey
        · exact lex_lt_trans hey ((List.pairwise_cons.mp hp).1 x hxys)
  · intro h
    exact List.Pairwise.chain' h

/-- A strictly ascending member list splits into the entries below `k` followed by the rest. -/
theorem sorted_split {V : Type} (v : List (name_value_pair V)) (k : List Nat)
    (hs : List.Pairwise (fun a b => lex_lt a.name b.name = true) v) :
    ∃ L R, v = L ++ R ∧ (∀ x ∈ L, lex_lt x.name k = true) ∧
      (∀ x ∈ R, lex_lt x.name k = false) := by
  induction v with
  | nil => exact ⟨[], [], rfl, by simp, by simp⟩
  | cons e v ih =>
    have hp := List.pairwise_cons.mp hs
    obtain ⟨L, R, hv, hL, hR⟩ := ih hp.2
    by_cases he : lex_lt e.name k = true
    · refine ⟨e :: L, R, by rw [hv]; rfl, ?_, hR⟩
      intro x hx
      rcases List.mem_cons.mp hx with h | h
      · rw [h]; exact he
      · exact hL x h
    · refine ⟨[], e :: v, rfl, by simp, ?_⟩
      intro x hx
      rcases List.mem_cons.mp hx with h | h
      · rw [h]; simpa using he
      · cases hxk : lex_lt x.name k with
        | false => rfl
        | true => exact absurd (lex_lt_trans (hp.1 x h) hxk) he

theorem comp_string_eq {V : Type} (k : List Nat) :
    (fun a : name_value_pair V => member_lt_string k.length a k)
      = (fun a => lex_lt a.name k) := by
  funext a
  exact member_lt_string_eq a k

theorem getElem?_append_length {α : Type} (L R : List α) (e : α) :
    (L ++ e :: R)[L.length]? = some e := by
  rw [List.getElem?_append_right (Nat.le_refl _), Nat.sub_self]
  exact List.getElem?_cons_zero

theorem assign_value_append {V : Type} (L R : List (name_value_pair V)) (e : name_value_pair V)
    (val : V) : assign_value (L ++ e :: R) L.length val = L ++ ⟨e.name, val⟩ :: R := by
  simp only [assign_value, getElem?_append_length]
  simp

theorem vector_insert_append {α : Type} (L R : List α) (x : α) :
    vector_insert (L ++ R) L.length x = L ++ x :: R := by
  simp [vector_insert]

/-- Sorted `set` on a member list split at the lower bound of the key. -/
theorem sorted_set_split {V : Type} (L R : List (name_value_pair V)) (k : List Nat) (val : V)
    (hL : ∀ x ∈ L, lex_lt x.name k = true) (hR : ∀ x ∈ R, lex_lt x.name k = false) :
    json_object_sorted.set_string (L ++ R) k val =
      match R with
      | [] => L ++ [⟨k, val⟩]
      | e :: R1 => if e.name = k then L ++ ⟨e.name, val⟩ :: R1 else L ++ ⟨k, val⟩ :: e :: R1 := by
  unfold json_object_sorted.set_string json_object_sorted.set
  rw [comp_string_eq, lower_bound_split L R _ 0 hL hR (Nat.zero_le _)]
  cases R with
  | nil => simp
  | cons e R1 =>
    have hne : ¬ L.length = (L ++ e :: R1).length := by
      simp only [List.length_append, List.length_cons]; omega
    have hget : (L ++ e :: R1)[L.length]? = some e := getElem?_append_length L R1 e
    simp only [hne, if_false, hget, name_eq_string_eq, List.take_length, decide_eq_true_eq]
    by_cases hk : e.name = k
    · rw [if_pos hk, if_pos hk, assign_value_append]
    · rw [if_neg hk, if_neg hk, vector_insert_append]

/-- Sorted `find` on a member list split at the lower bound of the key. -/
theorem sorted_find_split {V : Type} (L R : List (name_value_pair V)) (k : List Nat)
    (hL : ∀ x ∈ L, lex_lt x.name k = true) (hR : ∀ x ∈ R, lex_lt x.name k = false) :
    json_object_sorted.find_string (L ++ R) k =
      match R with
      | [] => L.length
      | e :: R1 => if e.name = k then L.length else (L ++ e :: R1).length := by
  unfold json_object_sorted.find_string json_object_sorted.find
  rw [comp_string_eq, lower_bound_split L R _ 0 hL hR (Nat.zero_le _)]
  cases R with
  | nil => simp
  | cons e R1 =>
    have hne : L.length ≠ (L ++ e :: R1).length := by
      simp only [List.length_append, List.length_cons]; omega
    have hget : (L ++ e :: R1)[L.length]? = some e := getElem?_append_length L R1 e
    simp only [hget, name_eq_string_eq, decide_eq_true_eq, hne, ne_eq, not_false_eq_true,
      true_and]

theorem lex_lt_of_not_lt_of_ne {a b : List Nat} (h1 : lex_lt a b = false) (h2 : a ≠ b) :
    lex_lt b a = true := by
  rcases lex_lt_total a b with h | h | h
  · rw [h1] at h; exact absurd h (by decide)
  · exact absurd h h2
  · exact h

/-- Shape of the member list after a sorted `set`: the entries below the key, the entry for the
key, the entries above the key; the table before the call held the same outer entries, with or
without an entry for the key between them. -/
theorem sorted_set_canon {V : Type} (t : List (name_value_pair V)) (k : List Nat) (val : V)
    (hs : List.Pairwise (fun a b => lex_lt a.name b.name = true) t) :
    ∃ L G, json_object_sorted.set_string t k val = L ++ ⟨k, val⟩ :: G ∧
      (∀ x ∈ L, lex_lt x.name k = true) ∧ (∀ x ∈ G, lex_lt k x.name = true) ∧
      (t = L ++ G ∨ ∃ old, t = L ++ ⟨k, old⟩ :: G) := by
  obtain ⟨L, R, ht, hL, hR⟩ := sorted_split t k hs
  subst ht
  rw [sorted_set_split L R k val hL hR]
  have hRs : List.Pairwise (fun a b : name_value_pair V => lex_lt a.name b.name = true) R :=
    (List.pairwise_append.mp hs).2.1
  cases R with
  | nil => exact ⟨L, [], rfl, hL, by simp, Or.inl rfl⟩
  | cons e R1 =>
    have he : lex_lt e.name k = false := hR e (List.mem_cons_self _ _)
    have hR1 : ∀ x ∈ R1, lex_lt e.name x.name = true := (List.pairwise_cons.mp hRs).1
    by_cases hk : e.name = k
    · refine ⟨L, R1, by simp only [hk, if_true], hL, ?_, Or.inr ⟨e.value, ?_⟩⟩
      · intro x hx
        rw [← hk]
        exact hR1 x hx
      · rw [← hk]
    · have hke : lex_lt k e.name = true := lex_lt_of_not_lt_of_ne he hk
      refine ⟨L, e :: R1, by simp only [hk, if_false], hL, ?_, Or.inl rfl⟩
      intro x hx
      rcases List.mem_cons.mp hx with h | h
      · rw [h]; exact hke
      · exact lex_lt_trans hke (hR1 x h)

theorem sorted_set_pairwise {V : Type} (t : List (name_value_pair V)) (k : List Nat) (val : V)
    (hs : List.Pairwise (fun a b => lex_lt a.name b.name = true) t) :
    List.Pairwise (fun a b => lex_lt a.name b.name = true)
      (json_object_sorted.set_string t k val) := by
  obtain ⟨L, G, hset, hL, hG, ht⟩ := sorted_set_canon t k val hs
  rw [hset]
  have hLG : List.Pairwise (fun a b : name_value_pair V => lex_lt a.name b.name = true) L ∧
      List.Pairwise (fun a b : name_value_pair V => lex_lt a.name b.name = true) G := by
    rcases ht with h | ⟨old, h⟩
    · rw [h] at hs
      exact ⟨(List.pairwise_append.mp hs).1, (List.pairwise_append.mp hs).2.1⟩
    · rw [h] at hs
      exact ⟨(List.pairwise_append.mp hs).1,
        (List.pairwise_cons.mp (List.pairwise_append.mp hs).2.1).2⟩
  refine List.pairwise_append.mpr ⟨hLG.1, List.pairwise_cons.mpr ⟨hG, hLG.2⟩, ?_⟩
  intro x hx y hy
  rcases List.mem_cons.mp hy with h | h
  · rw [h]; exact hL x hx
  · exact lex_lt_trans (hL x hx) (hG y h)

theorem sorted_set_ascending {V : Type} (t : List (name_value_pair V)) (k : List Nat) (val : V)
    (hs : strictly_ascending t) : strictly_ascending (json_object_sorted.set_string t k val) :=
  (strictly_ascending_iff_pairwise _).mpr
    (sorted_set_pairwise t k val ((strictly_ascending_iff_pairwise t).mp hs))

/-! ## Linear scan -/

theorem find_if_append_of_none {α : Type} (pred : α → Bool) (A B : List α)
    (hA : ∀ x ∈ A, pred x = false) : find_if pred (A ++ B) = A.length + find_if pred B := by
  induction A with
  | nil => simp
  | cons a A ih =>
    have ha : pred a = false := hA a (List.mem_cons_self _ _)
    have hA2 : ∀ x ∈ A, pred x = false := fun x hx => hA x (List.mem_cons_of_mem _ hx)
    have hstep : find_if pred (a :: (A ++ B)) = find_if pred (A ++ B) + 1 := by
      simp [find_if, ha]
    rw [List.cons_append, hstep, ih hA2, List.length_cons]
    omega

theorem find_if_of_none {α : Type} (pred : α → Bool) (A : List α)
    (hA : ∀ x ∈ A, pred x = false) : find_if pred A = A.length := by
  have h := find_if_append_of_none pred A [] hA
  simpa [find_if] using h

theorem find_if_le_length {α : Type} (pred : α → Bool) (A : List α) :
    find_if pred A ≤ A.length := by
  induction A with
  | nil => simp [find_if]
  | cons a A ih =>
    simp only [find_if, List.length_cons]
    split <;> omega

/-- Outcome of a linear scan: no element matches and the scan ends at the end iterator, or the
list splits at the first match. -/
theorem find_if_cases {α : Type} (pred : α → Bool) (t : List α) :
    ((∀ x ∈ t, pred x = false) ∧ find_if pred t = t.length) ∨
    (∃ A e B, t = A ++ e :: B ∧ (∀ x ∈ A, pred x = false) ∧ pred e = true ∧
      find_if pred t = A.length) := by
  induction t with
  | nil => left; simp [find_if]
  | cons a t ih =>
    by_cases ha : pred a = true
    · right
      exact ⟨[], a, t, rfl, by simp, ha, by simp [find_if, ha]⟩
    · have ha2 : pred a = false := by simpa using ha
      rcases ih with ⟨hnone, hlen⟩ | ⟨A, e, B, ht, hA, he, hidx⟩
      · left
        refine ⟨?_, by simp [find_if, ha2, hlen]⟩
        intro x hx
        rcases List.mem_cons.mp hx with h | h
        · rw [h]; exact ha2
        · exact hnone x h
      · right
        refine ⟨a :: A, e, B, by rw [ht]; rfl, ?_, he, by simp [find_if, ha2, hidx]⟩
        intro x hx
        rcases List.mem_cons.mp hx with h | h
        · rw [h]; exact ha2
        · exact hA x h

theorem equals_pred_string_eq {V : Type} (k : List Nat) :
    (equals_pred k k.length : name_value_pair V → Bool) = (fun a => decide (a.name = k)) := by
  funext a
  exact equals_pred_eq k a

/-- Shape of the member list after an insertion-order `set`: appended when no entry has the key,
else the first entry with the key has its value replaced. -/
theorem insertion_set_cases {V : Type} (t : List (name_value_pair V)) (k : List Nat) (val : V) :
    ((∀ x ∈ t, x.name ≠ k) ∧ json_object_insertion.find_string t k = t.length ∧
      json_object_insertion.set_string t k val = t ++ [⟨k, val⟩]) ∨
    (∃ A old B, t = A ++ ⟨k, old⟩ :: B ∧ (∀ x ∈ A, x.name ≠ k) ∧
      json_object_insertion.find_string t k = A.length ∧
      json_object_insertion.set_string t k val = A ++ ⟨k, val⟩ :: B) := by
  unfold json_object_insertion.set_string json_object_insertion.set
    json_object_insertion.find_string json_object_insertion.find
  rw [equals_pred_string_eq]
  rcases find_if_cases (fun a : name_value_pair V => decide (a.name = k)) t with
    ⟨hnone, hlen⟩ | ⟨A, e, B, ht, hA, he, hidx⟩
  · left
    refine ⟨fun x hx => by simpa using hnone x hx, hlen, ?_⟩
    simp [hlen]
  · right
    have hek : e.name = k := by simpa using he
    refine ⟨A, e.value, B, ?_, fun x hx => by simpa using hA x hx, hidx, ?_⟩
    · rw [ht, ← hek]
    · have hne : ¬ A.length = t.length := by
        rw [ht]; simp only [List.length_append, List.length_cons]; omega
      rw [hidx, if_neg hne, ht, assign_value_append, hek]

theorem insertion_split {V : Type} (A B : List (name_value_pair V)) (k : List Nat) (old val : V)
    (hA : ∀ x ∈ A, x.name ≠ k) :
    json_object_insertion.find_string (A ++ ⟨k, old⟩ :: B) k = A.length ∧
      json_object_insertion.set_string (A ++ ⟨k, old⟩ :: B) k val = A ++ ⟨k, val⟩ :: B := by
  unfold json_object_insertion.set_string json_object_insertion.set
    json_object_insertion.find_string json_object_insertion.find
  rw [equals_pred_string_eq]
  have hA2 : ∀ x ∈ A, (fun a : name_value_pair V => decide (a.name = k)) x = false := by
    intro x hx
    simpa using hA x hx
  have hidx : find_if (fun a : name_value_pair V => decide (a.name = k)) (A ++ ⟨k, old⟩ :: B)
      = A.length := by
    rw [find_if_append_of_none _ A _ hA2]
    simp [find_if]
  refine ⟨hidx, ?_⟩
  have hne : ¬ A.length = (A ++ (⟨k, old⟩ : name_value_pair V) :: B).length := by
    simp only [List.length_append, List.length_cons]; omega
  rw [hidx, if_neg hne, assign_value_append]

theorem insertion_set_shape {V : Type} (t : List (name_value_pair V)) (k : List Nat) (val : V) :
    ∃ A B, json_object_insertion.set_string t k val = A ++ ⟨k, val⟩ :: B ∧
      (∀ x ∈ A, x.name ≠ k) := by
  rcases insertion_set_cases t k val with ⟨hnone, _, hset⟩ | ⟨A, old, B, _, hA, _, hset⟩
  · exact ⟨t, [], hset, hnone⟩
  · exact ⟨A, B, hset, hA⟩

theorem sorted_set_calls_pairwise {V : Type} (calls : List (List Nat × V))
    (t : List (name_value_pair V))
    (hs : List.Pairwise (fun a b => lex_lt a.name b.name = true) t) :
    List.Pairwise (fun a b => lex_lt a.name b.name = true)
      (json_object_sorted.set_calls t calls) := by
  induction calls generalizing t with
  | nil => exact hs
  | cons c calls ih =>
    unfold json_object_sorted.set_calls
    rw [List.foldl_cons]
    exact ih _ (sorted_set_pairwise t c.1 c.2 hs)

/-- After a sorted `set` of `k`, the split at the lower bound of `k` has the new entry first in
its upper part. -/
theorem sorted_set_resplit {V : Type} (t : List (name_value_pair V)) (k : List Nat) (val : V)
    (hs : List.Pairwise (fun a b => lex_lt a.name b.name = true) t) :
    ∃ L G, json_object_sorted.set_string t k val = L ++ ⟨k, val⟩ :: G ∧
      (∀ x ∈ L, lex_lt x.name k = true) ∧
      (∀ x ∈ (⟨k, val⟩ : name_value_pair V) :: G, lex_lt x.name k = false) := by
  obtain ⟨L, G, hset, hL, hG, _⟩ := sorted_set_canon t k val hs
  refine ⟨L, G, hset, hL, ?_⟩
  intro x hx
  rcases List.mem_cons.mp hx with h | h
  · rw [h]; exact lex_lt_irrefl k
  · exact lex_lt_asymm (hG x h)

theorem sorted_find_eq_scan {V : Type} (t : List (name_value_pair V)) (k : List Nat)
    (hs : List.Pairwise (fun a b => lex_lt a.name b.name = true) t) :
    json_object_sorted.find_string t k = find_if (fun e => decide (e.name = k)) t := by
  obtain ⟨L, R, ht, hL, hR⟩ := sorted_split t k hs
  subst ht
  rw [sorted_find_split L R k hL hR]
  have hL2 : ∀ x ∈ L, (fun e : name_value_pair V => decide (e.name = k)) x = false := by
    intro x hx
    simpa using lex_lt_ne (hL x hx)
  rw [find_if_append_of_none _ L R hL2]
  have hRs : List.Pairwise (fun a b : name_value_pair V => lex_lt a.name b.name = true) R :=
    (List.pairwise_append.mp hs).2.1
  cases R with
  | nil => simp [find_if]
  | cons e R1 =>
    by_cases hk : e.name = k
    · simp [find_if, hk]
    · have he : lex_lt e.name k = false := hR e (List.mem_cons_self _ _)
      have hke : lex_lt k e.name = true := lex_lt_of_not_lt_of_ne he hk
      have hnone : ∀ x ∈ e :: R1,
          (fun e : name_value_pair V => decide (e.name = k)) x = false := by
        intro x hx
        have hkx : lex_lt k x.name = true := by
          rcases List.mem_cons.mp hx with h | h
          · rw [h]; exact hke
          · exact lex_lt_trans hke ((List.pairwise_cons.mp hRs).1 x h)
        simpa using (lex_lt_ne hkx).symm
      simp only [hk, if_false]
      rw [find_if_of_none _ _ hnone, List.length_append]

theorem find_if_getElem {α : Type} (pred : α → Bool) (t : List α) (x : α) (hx : x ∈ t)
    (hp : pred x = true) : ∃ e, t[find_if pred t]? = some e ∧ pred e = true := by
  rcases find_if_cases pred t with ⟨hnone, _⟩ | ⟨A, e, B, ht, _, he, hidx⟩
  · rw [hnone x hx] at hp
    exact absurd hp (by decide)
  · refine ⟨e, ?_, he⟩
    rw [hidx, ht]
    exact getElem?_append_length A B e

/-- In a strictly ascending member list a key occurs at one index at most. -/
theorem pairwise_key_index_unique {V : Type} (t : List (name_value_pair V))
    (hs : List.Pairwise (fun a b => lex_lt a.name b.name = true) t) (i j : Nat)
    (e1 e2 : name_value_pair V) (h1 : t[i]? = some e1) (h2 : t[j]? = some e2)
    (hn : e1.name = e2.name) : i = j := by
  have hi : i < t.length := (List.getElem?_eq_some_iff.mp h1).1
  have hj : j < t.length := (List.getElem?_eq_some_iff.mp h2).1
  have e1eq : t[i] = e1 := (List.getElem?_eq_some_iff.mp h1).2
  have e2eq : t[j] = e2 := (List.getElem?_eq_some_iff.mp h2).2
  have hpw := List.pairwise_iff_getElem.mp hs
  rcases Nat.lt_trichotomy i j with h | h | h
  · have := hpw i j hi hj h
    rw [e1eq, e2eq, hn, lex_lt_irrefl] at this
    exact absurd this (by decide)
  · exact h
  · have := hpw j i hj hi h
    rw [e1eq, e2eq, hn, lex_lt_irrefl] at this
    exact absurd this (by decide)

theorem sorted_set_hint_split {V : Type} (L R : List (name_value_pair V)) (k : List Nat)
    (val : V) (hint : Nat)
    (hL : ∀ x ∈ L, lex_lt x.name k = true) (hR : ∀ x ∈ R, lex_lt x.name k = false)
    (hRs : List.Pairwise (fun a b => lex_lt a.name b.name = true) R) :
    (json_object_sorted.set_hint_string (L ++ R) hint k val).1 =
      json_object_sorted.set_string (L ++ R) k val := by
  have hwhole := lower_bound_split L R (fun a : name_value_pair V => lex_lt a.name k) 0 hL hR
    (Nat.zero_le _)
  have hit : (match (L ++ R)[hint]? with
      | some h =>
        if hint ≠ (L ++ R).length ∧ name_le_string h.name k k.length = true then
          lower_bound (L ++ R) hint (L ++ R).length
            (fun a : name_value_pair V => member_lt_string k.length a k)
        else
          lower_bound (L ++ R) 0 (L ++ R).length
            (fun a : name_value_pair V => member_lt_string k.length a k)
      | none => lower_bound (L ++ R) 0 (L ++ R).length
            (fun a : name_value_pair V => member_lt_string k.length a k)) = L.length := by
    rw [comp_string_eq]
    cases hget : (L ++ R)[hint]? with
    | none => exact hwhole
    | some h =>
      simp only
      by_cases hc : hint ≠ (L ++ R).length ∧ name_le_string h.name k k.length = true
      · rw [if_pos hc]
        have hle : hint ≤ L.length := by
          by_contra hgt
          have hgt2 : L.length ≤ hint := by omega
          rw [List.getElem?_append_right hgt2] at hget
          have hmem : h ∈ R := List.getElem?_mem hget
          have hk : h.name = k := by
            have h1 := hc.2
            rw [name_le_string_eq, hR h hmem] at h1
            simpa using h1
          cases R with
          | nil => simp at hmem
          | cons e0 R1 =>
            have hpos : hint - L.length = (hint - L.length - 1) + 1 := by omega
            rw [hpos, List.getElem?_cons_succ] at hget
            have hmem1 : h ∈ R1 := List.getElem?_mem hget
            have hlt := (List.pairwise_cons.mp hRs).1 h hmem1
            rw [hk, hR e0 (List.mem_cons_self _ _)] at hlt
            exact absurd hlt (by decide)
        exact lower_bound_split L R _ hint hL hR hle
      · rw [if_neg hc]
        exact hwhole
  unfold json_object_sorted.set_hint_string json_object_sorted.set_hint
    json_object_sorted.set_string json_object_sorted.set
  simp only [hit]
  rw [comp_string_eq, hwhole]
  cases R with
  | nil => simp
  | cons e R1 =>
    have hne : ¬ L.length = (L ++ e :: R1).length := by
      simp only [List.length_append, List.length_cons]; omega
    have hget : (L ++ e :: R1)[L.length]? = some e := getElem?_append_length L R1 e
    simp only [hne, if_false, hget]
    split <;> rfl

theorem sorted_find_after_set {V : Type} (t : List (name_value_pair V)) (k : List Nat) (val : V)
    (hs : List.Pairwise (fun a b => lex_lt a.name b.name = true) t) :
    json_object_sorted.find_string (json_object_sorted.set_string t k val) k ≠
        (json_object_sorted.set_string t k val).length ∧
      (json_object_sorted.set_string t k val)[json_object_sorted.find_string
        (json_object_sorted.set_string t k val) k]? = some ⟨k, val⟩ := by
  obtain ⟨L, G, hset, hL, hR⟩ := sorted_set_resplit t k val hs
  rw [hset, sorted_find_split L _ k hL hR]
  simp only [if_true]
  refine ⟨?_, getElem?_append_length L G _⟩
  simp only [List.length_append, List.length_cons]
  omega

theorem sorted_set_twice {V : Type} (t : List (name_value_pair V)) (k : List Nat) (val : V)
    (hs : List.Pairwise (fun a b => lex_lt a.name b.name = true) t) :
    json_object_sorted.set_string (json_object_sorted.set_string t k val) k val =
      json_object_sorted.set_string t k val := by
  obtain ⟨L, G, hset, hL, hR⟩ := sorted_set_resplit t k val hs
  rw [hset, sorted_set_split L _ k val hL hR]
  simp only [if_true]

theorem insertion_find_after_set {V : Type} (t : List (name_value_pair V)) (k : List Nat)
    (val : V) :
    json_object_insertion.find_string (json_object_insertion.set_string t k val) k ≠
        (json_object_insertion.set_string t k val).length ∧
      (json_object_insertion.set_string t k val)[json_object_insertion.find_string
        (json_object_insertion.set_string t k val) k]? = some ⟨k, val⟩ := by
  obtain ⟨A, B, hset, hA⟩ := insertion_set_shape t k val
  rw [hset, (insertion_split A B k val val hA).1]
  refine ⟨?_, getElem?_append_length A B _⟩
  simp only [List.length_append, List.length_cons]
  omega

theorem insertion_set_twice {V : Type} (t : List (name_value_pair V)) (k : List Nat) (val : V) :
    json_object_insertion.set_string (json_object_insertion.set_string t k val) k val =
      json_object_insertion.set_string t k val := by
  obtain ⟨A, B, hset, hA⟩ := insertion_set_shape t k val
  rw [hset, (insertion_split A B k val val hA).2]

/-! ## Content after a sequence of calls -/

theorem last_value_snoc {V : Type} (calls : List (List Nat × V)) (k : List Nat) (val : V)
    (k2 : List Nat) :
    last_value (calls ++ [(k, val)]) k2 = if k = k2 then some val else last_value calls k2 := by
  unfold last_value
  rw [List.reverse_append, List.reverse_singleton, List.singleton_append]
  by_cases h : k = k2
  · rw [if_pos h, List.find?_cons_of_pos _ (by simpa using h)]
    rfl
  · rw [if_neg h, List.find?_cons_of_neg _ (by simpa using h)]

theorem last_value_key_mem {V : Type} (calls : List (List Nat × V)) (k : List Nat) (v : V)
    (h : last_value calls k = some v) : k ∈ calls.map Prod.fst := by
  unfold last_value at h
  cases hf : calls.reverse.find? (fun c => decide (c.1 = k)) with
  | none => rw [hf] at h; simp at h
  | some c =>
    have hmem : c ∈ calls := List.mem_reverse.mp (List.mem_of_find?_eq_some hf)
    have hk : c.1 = k := by simpa using List.find?_some hf
    rw [← hk]
    exact List.mem_map_of_mem _ hmem

theorem last_value_of_key_mem {V : Type} (calls : List (List Nat × V)) (k : List Nat)
    (h : k ∈ calls.map Prod.fst) : ∃ v, last_value calls k = some v := by
  unfold last_value
  obtain ⟨c, hc, hk⟩ := List.mem_map.mp h
  cases hf : calls.reverse.find? (fun c => decide (c.1 = k)) with
  | none =>
    have := List.find?_eq_none.mp hf c (List.mem_reverse.mpr hc)
    simp [hk] at this
  | some c2 => exact ⟨c2.2, rfl⟩

/-- One more call: when `set` replaces the entries with the key of the call by the single entry of
the call, the table keeps holding, for every key called so far, the value of the last call. -/
theorem content_step {V : Type} (t t2 : List (name_value_pair V)) (calls : List (List Nat × V))
    (k : List Nat) (val : V)
    (hmem : ∀ e, e ∈ t2 ↔ e = ⟨k, val⟩ ∨ (e ∈ t ∧ e.name ≠ k))
    (ih : ∀ e, e ∈ t ↔ last_value calls e.name = some e.value) :
    ∀ e, e ∈ t2 ↔ last_value (calls ++ [(k, val)]) e.name = some e.value := by
  intro e
  rw [hmem, last_value_snoc]
  by_cases hk : k = e.name
  · rw [if_pos hk]
    constructor
    · rintro (h | ⟨_, h⟩)
      · rw [h]
      · exact absurd hk.symm h
    · intro h
      left
      cases e with
      | mk n v =>
        simp only at hk h
        simp only [Option.some.injEq] at h
        rw [hk, h]
  · rw [if_neg hk, ← ih]
    constructor
    · rintro (h | ⟨h, _⟩)
      · rw [h] at hk; exact absurd rfl hk
      · exact h
    · intro h
      exact Or.inr ⟨h, fun h2 => hk h2.symm⟩

theorem sorted_set_mem {V : Type} (t : List (name_value_pair V)) (k : List Nat) (val : V)
    (hs : List.Pairwise (fun a b => lex_lt a.name b.name = true) t) (e : name_value_pair V) :
    e ∈ json_object_sorted.set_string t k val ↔ e = ⟨k, val⟩ ∨ (e ∈ t ∧ e.name ≠ k) := by
  obtain ⟨L, G, hset, hL, hG, ht⟩ := sorted_set_canon t k val hs
  rw [hset]
  have hLne : ∀ x ∈ L, x.name ≠ k := fun x hx => lex_lt_ne (hL x hx)
  have hGne : ∀ x ∈ G, x.name ≠ k := fun x hx => (lex_lt_ne (hG x hx)).symm
  simp only [List.mem_append, List.mem_cons]
  rcases ht with h | ⟨old, h⟩
  · subst h
    simp only [List.mem_append]
    constructor
    · rintro (h | h | h)
      · exact Or.inr ⟨Or.inl h, hLne e h⟩
      · exact Or.inl h
      · exact Or.inr ⟨Or.inr h, hGne e h⟩
    · rintro (h | ⟨h | h, _⟩)
      · exact Or.inr (Or.inl h)
      · exact Or.inl h
      · exact Or.inr (Or.inr h)
  · subst h
    simp only [List.mem_append, List.mem_cons]
    constructor
    · rintro (h | h | h)
      · exact Or.inr ⟨Or.inl h, hLne e h⟩
      · exact Or.inl h
      · exact Or.inr ⟨Or.inr (Or.inr h), hGne e h⟩
    · rintro (h | ⟨h | h | h, hne⟩)
      · exact Or.inr (Or.inl h)
      · exact Or.inl h
      · rw [h] at hne; exact absurd rfl hne
      · exact Or.inr (Or.inr h)

theorem sorted_set_calls_snoc {V : Type} (t : List (name_value_pair V))
    (calls : List (List Nat × V)) (c : List Nat × V) :
    json_object_sorted.set_calls t (calls ++ [c]) =
      json_object_sorted.set_string (json_object_sorted.set_calls t calls) c.1 c.2 := by
  unfold json_object_sorted.set_calls
  rw [List.foldl_append]
  rfl

theorem sorted_set_calls_mem {V : Type} (calls : List (List Nat × V)) :
    ∀ e, e ∈ json_object_sorted.set_calls [] calls ↔
      last_value calls e.name = some e.value := by
  induction calls using List.reverseRecOn with
  | nil =>
    intro e
    simp [json_object_sorted.set_calls, last_value]
  | append_singleton calls c ih =>
    rw [sorted_set_calls_snoc]
    exact content_step _ _ calls c.1 c.2
      (sorted_set_mem _ c.1 c.2 (sorted_set_calls_pairwise calls [] List.Pairwise.nil)) ih

theorem pairwise_names_nodup {V : Type} (t : List (name_value_pair V))
    (hs : List.Pairwise (fun a b => lex_lt a.name b.name = true) t) :
    (t.map name_value_pair.name).Nodup := by
  unfold List.Nodup
  rw [List.pairwise_map]
  exact List.Pairwise.imp (fun h => lex_lt_ne h) hs

/-- From "the entries are exactly the (key, last value) pairs" to the keys of the table. -/
theorem keys_of_content {V : Type} (t : List (name_value_pair V)) (calls : List (List Nat × V))
    (h : ∀ e, e ∈ t ↔ last_value calls e.name = some e.value) (k : List Nat) :
    k ∈ t.map name_value_pair.name ↔ k ∈ calls.map Prod.fst := by
  constructor
  · intro hk
    obtain ⟨e, he, hn⟩ := List.mem_map.mp hk
    rw [← hn]
    exact last_value_key_mem calls e.name e.value ((h e).mp he)
  · intro hk
    obtain ⟨v, hv⟩ := last_value_of_key_mem calls k hk
    exact List.mem_map.mpr ⟨⟨k, v⟩, (h ⟨k, v⟩).mpr hv, rfl⟩

theorem find_if_append_of_some {α : Type} (pred : α → Bool) (A B : List α) (x : α)
    (hx : x ∈ A) (hp : pred x = true) :
    find_if pred (A ++ B) = find_if pred A ∧ find_if pred A < A.length := by
  induction A with
  | nil => simp at hx
  | cons a A ih =>
    by_cases ha : pred a = true
    · simp [find_if, ha]
    · have ha2 : pred a = false := by simpa using ha
      have hxA : x ∈ A := by
        rcases List.mem_cons.mp hx with h | h
        · rw [h] at hp; exact absurd hp ha
        · exact h
      have h := ih hxA
      have h1 : find_if pred (a :: (A ++ B)) = find_if pred (A ++ B) + 1 := by
        simp [find_if, ha2]
      have h2 : find_if pred (a :: A) = find_if pred A + 1 := by
        simp [find_if, ha2]
      rw [List.cons_append, h1, h2, h.1, List.length_cons]
      exact ⟨rfl, by omega⟩

theorem first_call_snoc_of_mem {V : Type} (calls : List (List Nat × V)) (c : List Nat × V)
    (k : List Nat) (hk : k ∈ calls.map Prod.fst) :
    first_call (calls ++ [c]) k = first_call calls k ∧ first_call calls k < calls.length := by
  obtain ⟨c2, hc2, hk2⟩ := List.mem_map.mp hk
  unfold first_call
  exact find_if_append_of_some _ calls [c] c2 hc2 (by simpa using hk2)

theorem first_call_snoc_self {V : Type} (calls : List (List Nat × V)) (k : List Nat) (val : V)
    (hk : k ∉ calls.map Prod.fst) : first_call (calls ++ [(k, val)]) k = calls.length := by
  unfold first_call
  rw [find_if_append_of_none]
  · simp [find_if]
  · intro x hx
    have : x.1 ≠ k := fun h => hk (h ▸ List.mem_map_of_mem _ hx)
    simpa using this

theorem insertion_set_mem {V : Type} (t : List (name_value_pair V)) (k : List Nat) (val : V)
    (hn : (t.map name_value_pair.name).Nodup) (e : name_value_pair V) :
    e ∈ json_object_insertion.set_string t k val ↔ e = ⟨k, val⟩ ∨ (e ∈ t ∧ e.name ≠ k) := by
  rcases insertion_set_cases t k val with ⟨hnone, _, hset⟩ | ⟨A, old, B, ht, hA, _, hset⟩
  · rw [hset]
    simp only [List.mem_append, List.mem_singleton]
    constructor
    · rintro (h | h)
      · exact Or.inr ⟨h, hnone e h⟩
      · exact Or.inl h
    · rintro (h | ⟨h, _⟩)
      · exact Or.inr h
      · exact Or.inl h
  · rw [hset]
    subst ht
    have hB : ∀ x ∈ B, x.name ≠ k := by
      intro x hx hxk
      rw [List.map_append, List.map_cons, List.nodup_append] at hn
      have hnot := (List.nodup_cons.mp hn.2.1).1
      exact hnot (List.mem_map.mpr ⟨x, hx, hxk⟩)
    simp only [List.mem_append, List.mem_cons]
    constructor
    · rintro (h | h | h)
      · exact Or.inr ⟨Or.inl h, hA e h⟩
      · exact Or.inl h
      · exact Or.inr ⟨Or.inr (Or.inr h), hB e h⟩
    · rintro (h | ⟨h | h | h, hne⟩)
      · exact Or.inr (Or.inl h)
      · exact Or.inl h
      · rw [h] at hne; exact absurd rfl hne
      · exact Or.inr (Or.inr h)

/-- Keys of the insertion-order table after `set`: unchanged when the key is present, the key
appended when it is absent. -/
theorem insertion_set_names {V : Type} (t : List (name_value_pair V)) (k : List Nat) (val : V) :
    (k ∈ t.map name_value_pair.name ∧
      (json_object_insertion.set_string t k val).map name_value_pair.name
        = t.map name_value_pair.name) ∨
    (k ∉ t.map name_value_pair.name ∧
      (json_object_insertion.set_string t k val).map name_value_pair.name
        = t.map name_value_pair.name ++ [k]) := by
  rcases insertion_set_cases t k val with ⟨hnone, _, hset⟩ | ⟨A, old, B, ht, hA, _, hset⟩
  · right
    refine ⟨?_, by rw [hset]; simp⟩
    intro hk
    obtain ⟨e, he, hek⟩ := List.mem_map.mp hk
    exact hnone e he hek
  · left
    subst ht
    exact ⟨by simp, by rw [hset]; simp⟩

theorem insertion_set_calls_snoc {V : Type} (t : List (name_value_pair V))
    (calls : List (List Nat × V)) (c : List Nat × V) :
    json_object_insertion.set_calls t (calls ++ [c]) =
      json_object_insertion.set_string (json_object_insertion.set_calls t calls) c.1 c.2 := by
  unfold json_object_insertion.set_calls
  rw [List.foldl_append]
  rfl

/-- Invariants of the insertion-order table built by `set` calls from the empty table: distinct
keys, the (key, last value) content, and the keys in the order of their first calls. -/
theorem insertion_set_calls_inv {V : Type} (calls : List (List Nat × V)) :
    ((json_object_insertion.set_calls [] calls).map name_value_pair.name).Nodup ∧
    (∀ e, e ∈ json_object_insertion.set_calls [] calls ↔
      last_value calls e.name = some e.value) ∧
    List.Pairwise (fun a b => first_call calls a < first_call calls b)
      ((json_object_insertion.set_calls [] calls).map name_value_pair.name) := by
  induction calls using List.reverseRecOn with
  | nil =>
    refine ⟨by simp [json_object_insertion.set_calls], ?_,
      by simp [json_object_insertion.set_calls]⟩
    intro e
    simp [json_object_insertion.set_calls, last_value]
  | append_singleton calls c ih =>
    obtain ⟨hn, hm, ho⟩ := ih
    rw [insertion_set_calls_snoc]
    have hkeys := keys_of_content _ calls hm
    have hm2 := content_step _ _ calls c.1 c.2 (insertion_set_mem _ c.1 c.2 hn) hm
    have hold : List.Pairwise
        (fun a b => first_call (calls ++ [c]) a < first_call (calls ++ [c]) b)
        ((json_object_insertion.set_calls [] calls).map name_value_pair.name) := by
      refine List.Pairwise.imp_of_mem ?_ ho
      intro a b ha hb hab
      rw [(first_call_snoc_of_mem calls c a ((hkeys a).mp ha)).1,
        (first_call_snoc_of_mem calls c b ((hkeys b).mp hb)).1]
      exact hab
    rcases insertion_set_names (json_object_insertion.set_calls [] calls) c.1 c.2 with
      ⟨_, hsame⟩ | ⟨hnot, happ⟩
    · rw [hsame]
      exact ⟨hn, hm2, hold⟩
    · rw [happ]
      refine ⟨?_, hm2, ?_⟩
      · rw [List.nodup_append]
        refine ⟨hn, List.nodup_singleton _, ?_⟩
        intro x hx hx2
        rw [List.mem_singleton] at hx2
        exact hnot (hx2 ▸ hx)
      · rw [List.pairwise_append]
        refine ⟨hold, List.pairwise_singleton _ _, ?_⟩
        intro a ha b hb
        rw [List.mem_singleton] at hb
        subst hb
        have h1 := first_call_snoc_of_mem calls c a ((hkeys a).mp ha)
        have h2 : first_call (calls ++ [c]) c.1 = calls.length :=
          first_call_snoc_self calls c.1 c.2 (fun h => hnot ((hkeys c.1).mpr h))
        rw [h1.1, h2]
        exact h1.2

/-! ## Equality of tables -/

theorem comp_member_eq {V : Type} (it : name_value_pair V) :
    (fun a : name_value_pair V => member_lt_member a it) = (fun a => lex_lt a.name it.name) := by
  funext a
  exact member_lt_member_eq a it

/-- In a strictly ascending member list an entry sits at the lower bound of its key. -/
theorem sorted_lower_bound_entry {V : Type} (rhs : List (name_value_pair V))
    (hs : List.Pairwise (fun a b => lex_lt a.name b.name = true) rhs) (b : name_value_pair V)
    (hb : b ∈ rhs) (k : List Nat) (hk : b.name = k) :
    rhs[lower_bound rhs 0 rhs.length (fun a : name_value_pair V => lex_lt a.name k)]?
      = some b := by
  obtain ⟨L, R, ht, hL, hR⟩ := sorted_split rhs k hs
  subst ht
  rw [lower_bound_split L R _ 0 hL hR (Nat.zero_le _)]
  have hRs : List.Pairwise (fun a b : name_value_pair V => lex_lt a.name b.name = true) R :=
    (List.pairwise_append.mp hs).2.1
  rcases List.mem_append.mp hb with h | h
  · have := hL b h
    rw [hk, lex_lt_irrefl] at this
    exact absurd this (by decide)
  · cases R with
    | nil => simp at h
    | cons e R1 =>
      rw [getElem?_append_length]
      rcases List.mem_cons.mp h with h1 | h1
      · rw [h1]
      · have hlt := (List.pairwise_cons.mp hRs).1 b h1
        rw [hk, hR e (List.mem_cons_self _ _)] at hlt
        exact absurd hlt (by decide)

theorem sorted_eq_loop_iff {V : Type} (value_eq : V → V → Bool) (rhs : List (name_value_pair V))
    (hs : List.Pairwise (fun a b => lex_lt a.name b.name = true) rhs)
    (lhs : List (name_value_pair V)) :
    json_object_sorted.operator_eq_loop value_eq rhs lhs = true ↔
      ∀ a ∈ lhs, ∃ b ∈ rhs, b.name = a.name ∧ value_eq b.value a.value = true := by
  induction lhs with
  | nil => simp [json_object_sorted.operator_eq_loop]
  | cons it rest ih =>
    simp only [json_object_sorted.operator_eq_loop, comp_member_eq, List.forall_mem_cons]
    cases hget : rhs[lower_bound rhs 0 rhs.length
        (fun a : name_value_pair V => lex_lt a.name it.name)]? with
    | none =>
      simp only
      constructor
      · intro h; exact absurd h (by decide)
      · rintro ⟨⟨b, hb, hn, _⟩, _⟩
        rw [sorted_lower_bound_entry rhs hs b hb it.name hn] at hget
        exact absurd hget (by simp)
    | some r =>
      simp only
      have hlt : lower_bound rhs 0 rhs.length
          (fun a : name_value_pair V => lex_lt a.name it.name) < rhs.length :=
        (List.getElem?_eq_some_iff.mp hget).1
      by_cases hc : r.name = it.name ∧ value_eq r.value it.value = true
      · have hcond : ¬ (lower_bound rhs 0 rhs.length
            (fun a : name_value_pair V => lex_lt a.name it.name) = rhs.length ∨
            r.name ≠ it.name ∨ value_eq r.value it.value = false) := by
          rintro (h | h | h)
          · omega
          · exact h hc.1
          · rw [hc.2] at h; exact absurd h (by decide)
        rw [if_neg hcond, ih]
        constructor
        · intro h
          exact ⟨⟨r, List.getElem?_mem hget, hc.1, hc.2⟩, h⟩
        · intro h
          exact h.2
      · have hcond : (lower_bound rhs 0 rhs.length
            (fun a : name_value_pair V => lex_lt a.name it.name) = rhs.length ∨
            r.name ≠ it.name ∨ value_eq r.value it.value = false) := by
          by_cases hn : r.name = it.name
          · right; right
            cases hv : value_eq r.value it.value with
            | false => rfl
            | true => exact absurd ⟨hn, hv⟩ hc
          · right; left; exact hn
        rw [if_pos hcond]
        constructor
        · intro h; exact absurd h (by decide)
        · rintro ⟨⟨b, hb, hn, hv⟩, _⟩
          rw [sorted_lower_bound_entry rhs hs b hb it.name hn] at hget
          have hbr : b = r := Option.some.inj hget
          rw [hbr] at hn hv
          exact absurd ⟨hn, hv⟩ hc

theorem sorted_eq_iff {V : Type} (value_eq : V → V → Bool) (lhs rhs : List (name_value_pair V))
    (hs : List.Pairwise (fun a b => lex_lt a.name b.name = true) rhs) :
    json_object_sorted.operator_eq value_eq lhs rhs = true ↔
      lhs.length = rhs.length ∧
        ∀ a ∈ lhs, ∃ b ∈ rhs, b.name = a.name ∧ value_eq b.value a.value = true := by
  unfold json_object_sorted.operator_eq
  by_cases hl : lhs.length = rhs.length
  · simp only [hl, ne_eq, not_true_eq_false, if_false, true_and]
    exact sorted_eq_loop_iff value_eq rhs hs lhs
  · simp [hl]

theorem insertion_eq_loop_iff {V : Type} (value_eq : V → V → Bool)
    (rhs lhs : List (name_value_pair V)) :
    json_object_insertion.operator_eq_loop value_eq rhs lhs = true ↔
      ∀ a ∈ lhs, ∃ r, rhs[find_if (fun e : name_value_pair V => decide (e.name = a.name)) rhs]?
        = some r ∧ r.name = a.name ∧ value_eq r.value a.value = true := by
  induction lhs with
  | nil => simp [json_object_insertion.operator_eq_loop]
  | cons it rest ih =>
    simp only [json_object_insertion.operator_eq_loop, equals_pred_string_eq,
      List.forall_mem_cons]
    cases hget : rhs[find_if (fun e : name_value_pair V => decide (e.name = it.name)) rhs]? with
    | none =>
      simp only
      constructor
      · intro h; exact absurd h (by decide)
      · rintro ⟨⟨r, hr, _⟩, _⟩
        exact absurd hr (by simp)
    | some r =>
      simp only
      have hlt : find_if (fun e : name_value_pair V => decide (e.name = it.name)) rhs
          < rhs.length := (List.getElem?_eq_some_iff.mp hget).1
      by_cases hc : r.name = it.name ∧ value_eq r.value it.value = true
      · have hcond : ¬ (find_if (fun e : name_value_pair V => decide (e.name = it.name)) rhs
            = rhs.length ∨ r.name ≠ it.name ∨ value_eq r.value it.value = false) := by
          rintro (h | h | h)
          · omega
          · exact h hc.1
          · rw [hc.2] at h; exact absurd h (by decide)
        rw [if_neg hcond, ih]
        constructor
        · intro h
          exact ⟨⟨r, rfl, hc.1, hc.2⟩, h⟩
        · intro h
          exact h.2
      · have hcond : (find_if (fun e : name_value_pair V => decide (e.name = it.name)) rhs
            = rhs.length ∨ r.name ≠ it.name ∨ value_eq r.value it.value = false) := by
          by_cases hn : r.name = it.name
          · right; right
            cases hv : value_eq r.value it.value with
            | false => rfl
            | true => exact absurd ⟨hn, hv⟩ hc
          · right; left; exact hn
        rw [if_pos hcond]
        constructor
        · intro h; exact absurd h (by decide)
        · rintro ⟨⟨r2, hr2, hn, hv⟩, _⟩
          have hrr : r = r2 := Option.some.inj hr2
          rw [← hrr] at hn hv
          exact absurd ⟨hn, hv⟩ hc

theorem nodup_names_inj {V : Type} (t : List (name_value_pair V))
    (hn : (t.map name_value_pair.name).Nodup) (a b : name_value_pair V) (ha : a ∈ t)
    (hb : b ∈ t) (hab : a.name = b.name) : a = b :=
  List.inj_on_of_nodup_map hn ha hb hab

/-- The entry a linear scan for the key `k` stops at, when some entry has that key. -/
theorem scan_entry {V : Type} (t : List (name_value_pair V)) (k : List Nat)
    (b : name_value_pair V) (hb : b ∈ t) (hk : b.name = k) :
    ∃ e, t[find_if (fun e : name_value_pair V => decide (e.name = k)) t]? = some e ∧
      e ∈ t ∧ e.name = k := by
  obtain ⟨e, he, hp⟩ := find_if_getElem (fun e : name_value_pair V => decide (e.name = k)) t b hb
    (by simpa using hk)
  exact ⟨e, he, List.getElem?_mem he, by simpa using hp⟩

theorem insertion_eq_iff_of_nodup {V : Type} (value_eq : V → V → Bool)
    (lhs rhs : List (name_value_pair V)) (hn : (rhs.map name_value_pair.name).Nodup) :
    json_object_insertion.operator_eq value_eq lhs rhs = true ↔
      lhs.length = rhs.length ∧
        ∀ a ∈ lhs, ∃ b ∈ rhs, b.name = a.name ∧ value_eq b.value a.value = true := by
  unfold json_object_insertion.operator_eq
  by_cases hl : lhs.length = rhs.length
  · simp only [hl, ne_eq, not_true_eq_false, if_false, true_and]
    rw [insertion_eq_loop_iff]
    constructor
    · intro h a ha
      obtain ⟨r, hr, hrn, hrv⟩ := h a ha
      exact ⟨r, List.getElem?_mem hr, hrn, hrv⟩
    · intro h a ha
      obtain ⟨b, hb, hbn, hbv⟩ := h a ha
      obtain ⟨e, he, hemem, hen⟩ := scan_entry rhs a.name b hb hbn
      have heb : e = b := nodup_names_inj rhs hn e b hemem hb (by rw [hen, hbn])
      rw [heb] at he
      exact ⟨b, he, hbn, hbv⟩
  · simp [hl]

/-- Insertion-order `operator==` against a rearrangement of the left table, when the entries of
the left table that share a key also share the value. -/
theorem insertion_eq_of_perm {V : Type} (value_eq : V → V → Bool)
    (A B : List (name_value_pair V)) (hrefl : ∀ v, value_eq v v = true)
    (hsame : ∀ a ∈ A, ∀ b ∈ A, a.name = b.name → a.value = b.value) (hp : List.Perm B A) :
    json_object_insertion.operator_eq value_eq A B = true := by
  unfold json_object_insertion.operator_eq
  have hl : A.length = B.length := hp.length_eq.symm
  simp only [hl, ne_eq, not_true_eq_false, if_false]
  rw [insertion_eq_loop_iff]
  intro a ha
  obtain ⟨e, he, hemem, hen⟩ := scan_entry B a.name a (hp.mem_iff.mpr ha) rfl
  refine ⟨e, he, hen, ?_⟩
  rw [hsame e (hp.mem_iff.mp hemem) a ha hen]
  exact hrefl _

theorem nodup_names_same_value {V : Type} (t : List (name_value_pair V))
    (hn : (t.map name_value_pair.name).Nodup) :
    ∀ a ∈ t, ∀ b ∈ t, a.name = b.name → a.value = b.value := by
  intro a ha b hb hab
  rw [nodup_names_inj t hn a b ha hb hab]

theorem insertion_eq_imp_symm {V : Type} (value_eq : V → V → Bool)
    (A B : List (name_value_pair V)) (hsym : ∀ x y, value_eq x y = value_eq y x)
    (hA : (A.map name_value_pair.name).Nodup)
    (h : json_object_insertion.operator_eq value_eq A B = true) :
    json_object_insertion.operator_eq value_eq B A = true := by
  have hAB : A.length = B.length ∧ ∀ a ∈ A, ∃ r ∈ B, r.name = a.name ∧
      value_eq r.value a.value = true := by
    unfold json_object_insertion.operator_eq at h
    by_cases hl : A.length = B.length
    · simp only [hl, ne_eq, not_true_eq_false, if_false] at h
      rw [insertion_eq_loop_iff] at h
      refine ⟨hl, ?_⟩
      intro a ha
      obtain ⟨r, hr, hrn, hrv⟩ := h a ha
      exact ⟨r, List.getElem?_mem hr, hrn, hrv⟩
    · simp [hl] at h
  obtain ⟨hl, hall⟩ := hAB
  have hsub : A.map name_value_pair.name ⊆ B.map name_value_pair.name := by
    intro k hk
    obtain ⟨a, ha, hak⟩ := List.mem_map.mp hk
    obtain ⟨r, hr, hrn, _⟩ := hall a ha
    exact List.mem_map.mpr ⟨r, hr, by rw [hrn, hak]⟩
  have hperm : List.Perm (A.map name_value_pair.name) (B.map name_value_pair.name) :=
    (List.subperm_of_subset hA hsub).perm_of_length_le (by simp [hl])
  have hB : (B.map name_value_pair.name).Nodup := hperm.nodup_iff.mp hA
  rw [insertion_eq_iff_of_nodup value_eq B A hA]
  refine ⟨hl.symm, ?_⟩
  intro b hb
  have hbk : b.name ∈ A.map name_value_pair.name :=
    hperm.mem_iff.mpr (List.mem_map_of_mem _ hb)
  obtain ⟨a, ha, hab⟩ := List.mem_map.mp hbk
  obtain ⟨r, hr, hrn, hrv⟩ := hall a ha
  have hrb : r = b := nodup_names_inj B hB r b hr hb (by rw [hrn, hab])
  rw [hrb] at hrv
  refine ⟨a, ha, hab, ?_⟩
  rw [hsym]
  exact hrv

theorem insert_loop_append {S α : Type} (pred : S → α) (source : List S) (A B : List α)
    (hB : B.length = source.length) :
    insert_loop pred source A.length (A ++ B) = A ++ source.map pred := by
  induction source generalizing A B with
  | nil =>
    cases B with
    | nil => simp [insert_loop]
    | cons b B => simp at hB
  | cons s rest ih =>
    cases B with
    | nil => simp at hB
    | cons b B =>
      simp only [List.length_cons, Nat.add_right_cancel_iff] at hB
      have hset : (A ++ b :: B).set A.length (pred s) = (A ++ [pred s]) ++ B := by
        simp
      have hlen : A.length + 1 = (A ++ [pred s]).length := by simp
      simp only [insert_loop]
      rw [hset, hlen, ih (A ++ [pred s]) B hB]
      simp

theorem vector_resize_grow {α : Type} (v : List α) (count : Nat) (dflt : α) :
    vector_resize v (v.length + count) dflt = v ++ List.replicate count dflt := by
  unfold vector_resize
  rw [List.take_of_length_le (Nat.le_add_right _ _), Nat.add_sub_cancel_left]

/-- Bulk `insert` of the sorted table is `std::sort` applied to the old entries followed by the
transformed source elements. -/
theorem sorted_insert_eq {S V : Type}
    (sort : List (name_value_pair V) → List (name_value_pair V)) (dflt : name_value_pair V)
    (members_ : List (name_value_pair V)) (source : List S) (pred : S → name_value_pair V) :
    json_object_sorted.insert sort dflt members_ source pred
      = sort (members_ ++ source.map pred) := by
  unfold json_object_sorted.insert
  simp only
  rw [vector_resize_grow, insert_loop_append pred source members_ _ (by simp)]

theorem member_le_total {V : Type} (a b : name_value_pair V) : member_le a b ∨ member_le b a := by
  unfold member_le
  rw [member_lt_member_eq, member_lt_member_eq]
  cases h : lex_lt b.name a.name with
  | false => exact Or.inl rfl
  | true => exact Or.inr (lex_lt_asymm h)

theorem member_le_trans {V : Type} (a b c : name_value_pair V) (h1 : member_le a b)
    (h2 : member_le b c) : member_le a c := by
  unfold member_le at *
  rw [member_lt_member_eq] at *
  cases h : lex_lt c.name a.name with
  | false => rfl
  | true =>
    rcases lex_lt_total a.name b.name with hab | hab | hab
    · rw [lex_lt_trans h hab] at h2
      exact absurd h2 (by decide)
    · rw [hab] at h
      rw [h] at h2
      exact absurd h2 (by decide)
    · rw [hab] at h1
      exact absurd h1 (by decide)

/-- The stable sort meets the contract of `std::sort`. -/
theorem stable_sort_contract {V : Type} (xs : List (name_value_pair V)) :
    List.Perm (stable_sort xs) xs ∧
      List.Pairwise (fun a b => member_lt_member b a = false) (stable_sort xs) := by
  haveI : IsTotal (name_value_pair V) member_le := ⟨member_le_total⟩
  haveI : IsTrans (name_value_pair V) member_le := ⟨member_le_trans⟩
  exact ⟨List.perm_insertionSort member_le xs, List.sorted_insertionSort member_le xs⟩

/-- Non-decreasing keys that are pairwise distinct are strictly ascending. -/
theorem sorted_nodup_strict {V : Type} (l : List (name_value_pair V))
    (hs : List.Pairwise (fun a b => member_lt_member b a = false) l)
    (hn : (l.map name_value_pair.name).Nodup) :
    List.Pairwise (fun a b => lex_lt a.name b.name = true) l := by
  have hne : List.Pairwise (fun a b : name_value_pair V => a.name ≠ b.name) l :=
    List.pairwise_map.mp hn
  refine List.Pairwise.imp ?_ (hs.and hne)
  intro a b hab
  have h1 := hab.1
  rw [member_lt_member_eq] at h1
  exact lex_lt_of_not_lt_of_ne h1 (fun h => hab.2 h.symm)

/-- Two strictly ascending rearrangements of the same entries are the same list. -/
theorem strict_sorted_perm_unique {V : Type} (l1 l2 : List (name_value_pair V))
    (hp : List.Perm l1 l2)
    (h1 : List.Pairwise (fun a b => lex_lt a.name b.name = true) l1)
    (h2 : List.Pairwise (fun a b => lex_lt a.name b.name = true) l2) : l1 = l2 := by
  haveI : IsAntisymm (name_value_pair V) (fun a b => lex_lt a.name b.name = true) :=
    ⟨fun a b hab hba => by
      rw [lex_lt_asymm hab] at hba
      exact absurd hba (by decide)⟩
  exact List.eq_of_perm_of_sorted hp h1 h2

theorem sorted_erase_pairwise {V : Type} (t : List (name_value_pair V)) (k : List Nat)
    (hs : List.Pairwise (fun a b => lex_lt a.name b.name = true) t) :
    List.Pairwise (fun a b => lex_lt a.name b.name = true)
      (json_object_sorted.erase_string t k) := by
  unfold json_object_sorted.erase_string json_object_sorted.erase
  simp only
  split
  · split
    · unfold vector_erase
      refine List.Pairwise.sublist ?_ hs
      rw [← List.eraseIdx_eq_take_drop_succ]
      exact List.eraseIdx_sublist _ _
    · exact hs
  · exact hs

theorem vector_erase_sublist {α : Type} (v : List α) (first last : Nat) (h : first ≤ last) :
    List.Sublist (vector_erase v first last) v := by
  unfold vector_erase
  have h1 : List.Sublist (v.take first ++ v.drop last) (v.take first ++ v.drop first) :=
    List.Sublist.append (List.Sublist.refl _) (List.drop_sublist_drop_left v h)
  rw [List.take_append_drop] at h1
  exact h1

/-! ## Hinted set and indexed access on the insertion-order table -/

theorem getElem?_split {α : Type} (t : List α) (i : Nat) (e : α) (h : t[i]? = some e) :
    ∃ A B, t = A ++ e :: B ∧ A.length = i := by
  have hi : i < t.length := (List.getElem?_eq_some_iff.mp h).1
  have he : t[i] = e := (List.getElem?_eq_some_iff.mp h).2
  refine ⟨t.take i, t.drop (i + 1), ?_, by rw [List.length_take]; omega⟩
  rw [← he, ← List.drop_eq_getElem_cons hi, List.take_append_drop]

theorem insertion_set_nodup {V : Type} (t : List (name_value_pair V)) (k : List Nat) (v : V)
    (hn : (t.map name_value_pair.name).Nodup) :
    ((json_object_insertion.set_string t k v).map name_value_pair.name).Nodup := by
  rcases insertion_set_names t k v with ⟨_, hsame⟩ | ⟨hnot, happ⟩
  · rw [hsame]; exact hn
  · rw [happ, List.nodup_append]
    refine ⟨hn, List.nodup_singleton _, ?_⟩
    intro x hx hx2
    rw [List.mem_singleton] at hx2
    exact hnot (hx2 ▸ hx)

/-- Keys after a hinted insertion-order `set` with a valid hint: the key appended when the hint
is the end, the keys unchanged when the entry at the hint has the key, else the key inserted
before the entry at the hint. -/
theorem insertion_set_hint_names {V : Type} (t : List (name_value_pair V)) (hint : Nat)
    (k : List Nat) (v : V) (hh : hint ≤ t.length) :
    (((t[hint]?).map name_value_pair.name = some k) ∧
      (json_object_insertion.set_hint_string t hint k v).1.map name_value_pair.name
        = t.map name_value_pair.name) ∨
    (((t[hint]?).map name_value_pair.name ≠ some k) ∧
      List.Perm ((json_object_insertion.set_hint_string t hint k v).1.map name_value_pair.name)
        (k :: t.map name_value_pair.name)) := by
  unfold json_object_insertion.set_hint_string json_object_insertion.set_hint
  simp only [List.take_length, name_eq_string_eq, decide_eq_true_eq]
  by_cases hend : hint = t.length
  · right
    rw [if_pos hend]
    subst hend
    refine ⟨by simp, ?_⟩
    simp only [List.map_append, List.map_cons, List.map_nil]
    exact List.perm_append_singleton _ _
  · rw [if_neg hend]
    have hlt : hint < t.length := by omega
    have hget : t[hint]? = some t[hint] := List.getElem?_eq_getElem hlt
    obtain ⟨A, B, ht, hA⟩ := getElem?_split t hint _ hget
    rw [hget]
    simp only [Option.map_some']
    by_cases hk : t[hint].name = k
    · left
      rw [if_pos hk]
      refine ⟨by rw [hk], ?_⟩
      simp only
      rw [← hA]
      conv_lhs => rw [ht]
      rw [assign_value_append]
      conv_rhs => rw [ht]
      simp
    · right
      rw [if_neg hk]
      refine ⟨fun h => hk (Option.some.inj h), ?_⟩
      simp only
      rw [← hA]
      conv_lhs => rw [ht]
      rw [vector_insert_append]
      conv_rhs => rw [ht]
      simp only [List.map_append, List.map_cons]
      exact List.perm_middle

theorem insertion_set_calls_of_distinct {V : Type} (calls : List (List Nat × V))
    (t : List (name_value_pair V)) (hn : (calls.map Prod.fst).Nodup)
    (hd : ∀ k ∈ calls.map Prod.fst, k ∉ t.map name_value_pair.name) :
    json_object_insertion.set_calls t calls
      = t ++ calls.map (fun c => (⟨c.1, c.2⟩ : name_value_pair V)) := by
  induction calls generalizing t with
  | nil => simp [json_object_insertion.set_calls]
  | cons c calls ih =>
    have hc : c.1 ∉ t.map name_value_pair.name := hd c.1 (by simp)
    have hstep : json_object_insertion.set_string t c.1 c.2 = t ++ [⟨c.1, c.2⟩] := by
      rcases insertion_set_cases t c.1 c.2 with ⟨_, _, hset⟩ | ⟨A, old, B, ht, _, _, _⟩
      · exact hset
      · exact absurd (by rw [ht]; simp) hc
    rw [List.map_cons, List.nodup_cons] at hn
    unfold json_object_insertion.set_calls
    rw [List.foldl_cons, hstep]
    have := ih (t ++ [⟨c.1, c.2⟩]) hn.2 (by
      intro k hk
      simp only [List.map_append, List.map_cons, List.map_nil, List.mem_append,
        List.mem_singleton, not_or]
      refine ⟨hd k (by simp only [List.map_cons, List.mem_cons]; exact Or.inr hk), ?_⟩
      intro hkc
      exact hn.1 (hkc ▸ hk))
    unfold json_object_insertion.set_calls at this
    rw [this]
    simp

theorem insertion_at_ok {V : Type} (u : List (name_value_pair V)) (j : Nat)
    (e : name_value_pair V) (he : u[j]? = some e) :
    json_object_insertion.at_ u j = (u, Except.ok e.value) := by
  have hj : j < u.length := (List.getElem?_eq_some_iff.mp he).1
  unfold json_object_insertion.at_
  rw [if_neg (by omega), he]

theorem insertion_at_error {V : Type} (u : List (name_value_pair V)) (j : Nat)
    (hj : j ≥ u.length) :
    json_object_insertion.at_ u j
      = (u, Except.error (exception_kind.out_of_range, "Invalid array subscript")) := by
  unfold json_object_insertion.at_
  rw [if_pos hj]
  rfl

/-! ## Ordered sequence -/

theorem remove_range_ok {J : Type} (s : List J) (from_index to_index : Nat)
    (h1 : from_index ≤ to_index) (h2 : to_index ≤ s.length) :
    json_array.remove_range s from_index to_index
      = (vector_erase s from_index to_index, Except.ok ()) := by
  simp [json_array.remove_range, JSONCONS_ASSERT, h1, h2]

theorem remove_range_fail {J : Type} (s : List J) (from_index to_index : Nat)
    (h : ¬ (from_index ≤ to_index ∧ to_index ≤ s.length)) :
    ∃ e, json_array.remove_range s from_index to_index = (s, Except.error e) := by
  by_cases h1 : from_index ≤ to_index
  · have h2 : ¬ to_index ≤ s.length := fun h2 => h ⟨h1, h2⟩
    exact ⟨"to_index <= elements_.size()",
      by simp [json_array.remove_range, JSONCONS_ASSERT, h1, h2]⟩
  · exact ⟨"from_index <= to_index", by simp [json_array.remove_range, JSONCONS_ASSERT, h1]⟩

theorem vector_erase_getElem? {α : Type} (s : List α) (first last : Nat) (h1 : first ≤ last)
    (h2 : last ≤ s.length) (i : Nat) :
    (vector_erase s first last)[i]? = if i < first then s[i]? else s[i + (last - first)]? := by
  unfold vector_erase
  have hlen : (s.take first).length = first := by rw [List.length_take]; omega
  by_cases hi : i < first
  · rw [if_pos hi, List.getElem?_append_left (by omega), List.getElem?_take_of_lt hi]
  · rw [if_neg hi, List.getElem?_append_right (by omega), hlen, List.getElem?_drop]
    congr 1
    omega

theorem vector_insert_getElem? {α : Type} (s : List α) (pos : Nat) (x : α)
    (hp : pos ≤ s.length) (i : Nat) :
    (vector_insert s pos x)[i]? =
      if i < pos then s[i]? else if i = pos then some x else s[i - 1]? := by
  unfold vector_insert
  have hlen : (s.take pos).length = pos := by rw [List.length_take]; omega
  by_cases hi : i < pos
  · rw [if_pos hi, List.getElem?_append_left (by omega), List.getElem?_take_of_lt hi]
  · rw [if_neg hi, List.getElem?_append_right (by omega), hlen]
    by_cases hip : i = pos
    · rw [if_pos hip, hip, Nat.sub_self]
      exact List.getElem?_cons_zero
    · rw [if_neg hip]
      have hpos : i - pos = (i - pos - 1) + 1 := by omega
      rw [hpos, List.getElem?_cons_succ, List.getElem?_drop]
      congr 1
      omega

theorem array_eq_loop_iff {J : Type} (value_eq : J → J → Bool) (a b : List J) :
    ∀ (left i : Nat), i + left ≤ a.length → i + left ≤ b.length →
      (json_array.operator_eq_loop value_eq a b left i = true ↔
        ∀ j, i ≤ j → j < i + left →
          ∃ x y, a[j]? = some x ∧ b[j]? = some y ∧ value_eq x y = true) := by
  intro left
  induction left with
  | zero =>
    intro i _ _
    simp only [json_array.operator_eq_loop, true_iff]
    intro j h1 h2
    omega
  | succ left ih =>
    intro i ha hb
    have hia : i < a.length := by omega
    have hib : i < b.length := by omega
    simp only [json_array.operator_eq_loop, List.getElem?_eq_getElem hia,
      List.getElem?_eq_getElem hib]
    by_cases hv : value_eq a[i] b[i] = true
    · have hv2 : ¬ value_eq a[i] b[i] = false := by rw [hv]; decide
      rw [if_neg hv2, ih (i + 1) (by omega) (by omega)]
      constructor
      · intro h j h1 h2
        by_cases hji : j = i
        · subst hji
          exact ⟨a[j], b[j], List.getElem?_eq_getElem hia, List.getElem?_eq_getElem hib, hv⟩
        · exact h j (by omega) (by omega)
      · intro h j h1 h2
        exact h j (by omega) (by omega)
    · have hv2 : value_eq a[i] b[i] = false := by simpa using hv
      rw [if_pos hv2]
      constructor
      · intro h; exact absurd h (by decide)
      · intro h
        obtain ⟨x, y, hx, hy, hxy⟩ := h i (Nat.le_refl _) (by omega)
        rw [List.getElem?_eq_getElem hia] at hx
        rw [List.getElem?_eq_getElem hib] at hy
        rw [← Option.some.inj hx, ← Option.some.inj hy, hv2] at hxy
        exact absurd hxy (by decide)

/-! ## Hinted set, bulk insert and erase on the insertion-order table -/

/-- The three outcomes of the insertion-order hinted `set` at a valid hint. -/
theorem insertion_set_hint_cases {V : Type} (t : List (name_value_pair V)) (hint : Nat)
    (k : List Nat) (v : V) (hh : hint ≤ t.length) :
    (hint = t.length ∧
      json_object_insertion.set_hint_string t hint k v = (t ++ [⟨k, v⟩], t.length)) ∨
    (∃ A e B, t = A ++ e :: B ∧ A.length = hint ∧ e.name = k ∧
      json_object_insertion.set_hint_string t hint k v = (A ++ ⟨k, v⟩ :: B, hint)) ∨
    (∃ A e B, t = A ++ e :: B ∧ A.length = hint ∧ e.name ≠ k ∧
      json_object_insertion.set_hint_string t hint k v = (A ++ ⟨k, v⟩ :: e :: B, hint)) := by
  unfold json_object_insertion.set_hint_string json_object_insertion.set_hint
  simp only [List.take_length, name_eq_string_eq, decide_eq_true_eq]
  by_cases hend : hint = t.length
  · left
    rw [if_pos hend]
    subst hend
    exact ⟨rfl, by simp⟩
  · right
    rw [if_neg hend]
    have hlt : hint < t.length := by omega
    obtain ⟨e, hget⟩ : ∃ e, t[hint]? = some e := ⟨t[hint], List.getElem?_eq_getElem hlt⟩
    obtain ⟨A, B, ht, hA⟩ := getElem?_split t hint e hget
    rw [hget]
    simp only
    subst hA
    subst ht
    by_cases hk : e.name = k
    · left
      refine ⟨A, e, B, rfl, rfl, hk, ?_⟩
      rw [if_pos hk, assign_value_append, hk]
    · right
      refine ⟨A, e, B, rfl, rfl, hk, ?_⟩
      rw [if_neg hk, vector_insert_append]

theorem take_drop_of_split {α : Type} (A B : List α) (e : α) :
    (A ++ e :: B).take A.length = A ∧ (A ++ e :: B).drop A.length = e :: B ∧
      (A ++ e :: B).drop (A.length + 1) = B := by
  refine ⟨List.take_left' rfl, List.drop_left' rfl, ?_⟩
  rw [← List.drop_drop, List.drop_left' rfl]
  rfl

/-- Bulk `insert` of the insertion-order table appends the transformed source elements. -/
theorem insertion_insert_eq {S V : Type} (dflt : name_value_pair V)
    (members_ : List (name_value_pair V)) (source : List S) (pred : S → name_value_pair V) :
    json_object_insertion.insert dflt members_ source pred = members_ ++ source.map pred := by
  unfold json_object_insertion.insert
  simp only
  rw [vector_resize_grow, insert_loop_append pred source members_ _ (by simp)]

theorem vector_erase_one {α : Type} (t : List α) (i : Nat) :
    vector_erase t i (i + 1) = t.eraseIdx i := by
  unfold vector_erase
  rw [List.eraseIdx_eq_take_drop_succ]

/-- Sorted `erase(k)` removes the entry `find(k)` designates, or nothing when `find(k)` is the end
marker. -/
theorem sorted_erase_eq {V : Type} (t : List (name_value_pair V)) (k : List Nat) :
    json_object_sorted.erase_string t k =
      if json_object_sorted.find_string t k = t.length then t
      else t.eraseIdx (json_object_sorted.find_string t k) := by
  unfold json_object_sorted.erase_string json_object_sorted.erase
    json_object_sorted.find_string json_object_sorted.find
  simp only
  cases hget : t[lower_bound t 0 t.length
      (fun a : name_value_pair V => member_lt_string k.length a k)]? with
  | none => simp
  | some e =>
    simp only
    by_cases hc : lower_bound t 0 t.length
        (fun a : name_value_pair V => member_lt_string k.length a k) ≠ t.length ∧
        name_eq_string e.name k k.length = true
    · rw [if_pos hc, if_pos hc, if_neg hc.1, vector_erase_one]
    · rw [if_neg hc, if_neg hc]
      simp

theorem insertion_erase_eq {V : Type} (t : List (name_value_pair V)) (k : List Nat) :
    json_object_insertion.erase_string t k =
      if json_object_insertion.find_string t k = t.length then t
      else t.eraseIdx (json_object_insertion.find_string t k) := by
  unfold json_object_insertion.erase_string json_object_insertion.erase
    json_object_insertion.find_string json_object_insertion.find
  simp only
  by_cases hc : find_if (equals_pred k k.length) t = t.length
  · rw [if_pos hc, if_neg (by simpa using hc)]
  · rw [if_neg hc, if_pos hc, vector_erase_one]

theorem eraseIdx_append_length {α : Type} (L R : List α) (e : α) :
    (L ++ e :: R).eraseIdx L.length = L ++ R := by
  rw [List.eraseIdx_append_of_length_le (Nat.le_refl _), Nat.sub_self]
  rfl

/-- After a sorted `erase(k)` on a strictly ascending table `find(k)` is the end marker. -/
theorem sorted_find_after_erase {V : Type} (t : List (name_value_pair V)) (k : List Nat)
    (hs : List.Pairwise (fun a b => lex_lt a.name b.name = true) t) :
    json_object_sorted.find_string (json_object_sorted.erase_string t k) k
      = (json_object_sorted.erase_string t k).length := by
  rw [sorted_erase_eq]
  obtain ⟨L, R, ht, hL, hR⟩ := sorted_split t k hs
  subst ht
  have hRs : List.Pairwise (fun a b : name_value_pair V => lex_lt a.name b.name = true) R :=
    (List.pairwise_append.mp hs).2.1
  have hfind := sorted_find_split L R k hL hR
  cases R with
  | nil =>
    simp only at hfind
    rw [hfind]
    simp only [List.append_nil, if_true]
    have h2 := sorted_find_split L [] k hL (by simp)
    simp only [List.append_nil] at h2
    exact h2
  | cons e R1 =>
    simp only at hfind
    by_cases hk : e.name = k
    · rw [if_pos hk] at hfind
      have hne : ¬ L.length = (L ++ e :: R1).length := by
        simp only [List.length_append, List.length_cons]; omega
      rw [hfind, if_neg hne, eraseIdx_append_length]
      have hR1 : ∀ x ∈ R1, lex_lt x.name k = false := fun x hx =>
        hR x (List.mem_cons_of_mem _ hx)
      rw [sorted_find_split L R1 k hL hR1]
      cases R1 with
      | nil => simp
      | cons e1 R2 =>
        have hlt : lex_lt e.name e1.name = true :=
          (List.pairwise_cons.mp hRs).1 e1 (List.mem_cons_self _ _)
        have hne1 : e1.name ≠ k := by
          intro h
          rw [h, hk, lex_lt_irrefl] at hlt
          exact absurd hlt (by decide)
        simp only [hne1, if_false]
    · rw [if_neg hk] at hfind
      rw [hfind]
      simp only [if_true]
      exact hfind

/-! ## Construction from a pair list -/

theorem init_check_cases {J : Type} (is_string : J → Bool) (init : List (List J)) :
    (json_object_sorted.init_check is_string init = Except.ok () ∧
      ∀ element ∈ init, ¬ (element.length ≠ 2 ∨
        ∃ first, element[0]? = some first ∧ is_string first = false)) ∨
    (json_object_sorted.init_check is_string init = Except.error
        (exception_kind.runtime_error, "Cannot create object from initializer list") ∧
      ∃ element ∈ init, (element.length ≠ 2 ∨
        ∃ first, element[0]? = some first ∧ is_string first = false)) := by
  induction init with
  | nil => left; exact ⟨rfl, by simp⟩
  | cons element rest ih =>
    simp only [json_object_sorted.init_check]
    cases hget : element[0]? with
    | none =>
      right
      refine ⟨rfl, element, List.mem_cons_self _ _, Or.inl ?_⟩
      have : element = [] := by
        cases element with
        | nil => rfl
        | cons x xs => simp at hget
      rw [this]
      simp
    | some first =>
      simp only
      by_cases hbad : element.length ≠ 2 ∨ is_string first = false
      · right
        rw [if_pos hbad]
        refine ⟨rfl, element, List.mem_cons_self _ _, ?_⟩
        rcases hbad with h | h
        · exact Or.inl h
        · exact Or.inr ⟨first, hget, h⟩
      · rw [if_neg hbad]
        rcases ih with ⟨hok, hall⟩ | ⟨herr, el, hel, hb⟩
        · left
          refine ⟨hok, ?_⟩
          intro el hel
          rcases List.mem_cons.mp hel with h | h
          · rw [h]
            rintro (h1 | ⟨f, hf, hs⟩)
            · exact hbad (Or.inl h1)
            · rw [hget] at hf
              rw [← Option.some.inj hf] at hs
              exact hbad (Or.inr hs)
          · exact hall el h
        · right
          exact ⟨herr, el, List.mem_cons_of_mem _ hel, hb⟩

/-- The overloads of the sorted `set` that take a temporary key do what `set_string` does. -/
theorem set_temporary_eq {V : Type} (members_ : List (name_value_pair V)) (name : List Nat)
    (value : V) :
    json_object_sorted.set_temporary members_ name value
      = json_object_sorted.set_string members_ name value := by
  unfold json_object_sorted.set_temporary json_object_sorted.set_string json_object_sorted.set
  simp only [name_eq_string_eq, List.take_length, decide_eq_true_eq]

theorem init_set_pairs {J : Type} (as_string : J → List Nat) (pairs : List (J × J))
    (t : List (name_value_pair J)) :
    json_object_sorted.init_set as_string (pairs.map (fun p => [p.1, p.2])) t
      = json_object_sorted.set_calls t (pairs.map (fun p => (as_string p.1, p.2))) := by
  induction pairs generalizing t with
  | nil => rfl
  | cons p pairs ih =>
    simp only [List.map_cons, json_object_sorted.init_set, json_object_sorted.set_calls,
      List.foldl_cons]
    have h0 : ([p.1, p.2] : List J)[0]? = some p.1 := rfl
    have h1 : ([p.1, p.2] : List J)[1]? = some p.2 := rfl
    rw [h0, h1]
    simp only
    rw [ih, set_temporary_eq]
    rfl

theorem valid_elements_are_pairs {J : Type} (is_string : J → Bool) (init : List (List J))
    (h : ∀ element ∈ init, ¬ (element.length ≠ 2 ∨
      ∃ first, element[0]? = some first ∧ is_string first = false)) :
    ∃ pairs : List (J × J), init = pairs.map (fun p => [p.1, p.2]) ∧
      ∀ p ∈ pairs, is_string p.1 = true := by
  induction init with
  | nil => exact ⟨[], rfl, by simp⟩
  | cons element rest ih =>
    obtain ⟨pairs, hp, hs⟩ := ih (fun el hel => h el (List.mem_cons_of_mem _ hel))
    have hel := h element (List.mem_cons_self _ _)
    match element, hel with
    | [a, b], hel =>
      refine ⟨(a, b) :: pairs, by rw [hp]; rfl, ?_⟩
      intro p hpm
      rcases List.mem_cons.mp hpm with h1 | h1
      · rw [h1]
        cases hsa : is_string a with
        | true => rfl
        | false => exact absurd (Or.inr ⟨a, rfl, hsa⟩) hel
      · exact hs p h1
    | [], hel => exact absurd (Or.inl (by simp)) hel
    | [_], hel => exact absurd (Or.inl (by simp)) hel
    | _ :: _ :: _ :: _, hel => exact absurd (Or.inl (by simp)) hel

/-! ## Position-by-position comparison and the frame of `set` -/

theorem positionwise_eq_iff {V : Type} (value_eq : V → V → Bool)
    (A B : List (name_value_pair V)) :
    positionwise_eq value_eq A B = true ↔
      A.length = B.length ∧ ∀ (i : Nat) (a b : name_value_pair V),
        A[i]? = some a → B[i]? = some b →
          b.name = a.name ∧ value_eq b.value a.value = true := by
  induction A generalizing B with
  | nil =>
    cases B with
    | nil => simp [positionwise_eq]
    | cons b bs => simp [positionwise_eq]
  | cons a as ih =>
    cases B with
    | nil => simp [positionwise_eq]
    | cons b bs =>
      simp only [positionwise_eq, Bool.and_eq_true, decide_eq_true_eq, ih bs,
        List.length_cons, Nat.add_right_cancel_iff]
      constructor
      · rintro ⟨⟨hn, hv⟩, hl, hall⟩
        refine ⟨hl, ?_⟩
        intro i x y hx hy
        cases i with
        | zero =>
          rw [List.getElem?_cons_zero] at hx hy
          rw [← Option.some.inj hx, ← Option.some.inj hy]
          exact ⟨hn, hv⟩
        | succ i =>
          rw [List.getElem?_cons_succ] at hx hy
          exact hall i x y hx hy
      · rintro ⟨hl, hall⟩
        refine ⟨hall 0 a b List.getElem?_cons_zero List.getElem?_cons_zero, hl, ?_⟩
        intro i x y hx hy
        exact hall (i + 1) x y (by rw [List.getElem?_cons_succ]; exact hx)
          (by rw [List.getElem?_cons_succ]; exact hy)

/-- Two strictly ascending member lists of the same size hold the same keys at the same
positions as soon as every key of the first is a key of the second. -/
theorem sorted_names_eq {V : Type} (A B : List (name_value_pair V))
    (hA : List.Pairwise (fun a b => lex_lt a.name b.name = true) A)
    (hB : List.Pairwise (fun a b => lex_lt a.name b.name = true) B)
    (hl : A.length = B.length)
    (hsub : A.map name_value_pair.name ⊆ B.map name_value_pair.name) :
    A.map name_value_pair.name = B.map name_value_pair.name := by
  have hperm : List.Perm (A.map name_value_pair.name) (B.map name_value_pair.name) :=
    (List.subperm_of_subset (pairwise_names_nodup A hA) hsub).perm_of_length_le (by simp [hl])
  haveI : IsAntisymm (List Nat) (fun a b => lex_lt a b = true) :=
    ⟨fun a b hab hba => by
      rw [lex_lt_asymm hab] at hba
      exact absurd hba (by decide)⟩
  have hA2 : List.Pairwise (fun a b : List Nat => lex_lt a b = true)
      (A.map name_value_pair.name) := List.pairwise_map.mpr hA
  have hB2 : List.Pairwise (fun a b : List Nat => lex_lt a b = true)
      (B.map name_value_pair.name) := List.pairwise_map.mpr hB
  exact List.eq_of_perm_of_sorted hperm hA2 hB2

theorem sorted_eq_positionwise {V : Type} (value_eq : V → V → Bool)
    (A B : List (name_value_pair V))
    (hA : List.Pairwise (fun a b => lex_lt a.name b.name = true) A)
    (hB : List.Pairwise (fun a b => lex_lt a.name b.name = true) B) :
    json_object_sorted.operator_eq value_eq A B = positionwise_eq value_eq A B := by
  rw [Bool.eq_iff_iff, sorted_eq_iff value_eq A B hB, positionwise_eq_iff]
  constructor
  · rintro ⟨hl, hall⟩
    refine ⟨hl, ?_⟩
    have hsub : A.map name_value_pair.name ⊆ B.map name_value_pair.name := by
      intro k hk
      obtain ⟨a, ha, hak⟩ := List.mem_map.mp hk
      obtain ⟨b, hb, hbn, _⟩ := hall a ha
      exact List.mem_map.mpr ⟨b, hb, by rw [hbn, hak]⟩
    have hnames := sorted_names_eq A B hA hB hl hsub
    intro i a b hia hib
    have hn : b.name = a.name := by
      have h1 : (A.map name_value_pair.name)[i]? = some a.name := by
        rw [List.getElem?_map, hia]; rfl
      have h2 : (B.map name_value_pair.name)[i]? = some b.name := by
        rw [List.getElem?_map, hib]; rfl
      rw [hnames, h2] at h1
      exact Option.some.inj h1
    obtain ⟨b2, hb2, hb2n, hb2v⟩ := hall a (List.getElem?_mem hia)
    have hbb : b2 = b := nodup_names_inj B (pairwise_names_nodup B hB) b2 b hb2
      (List.getElem?_mem hib) (by rw [hb2n, hn])
    rw [hbb] at hb2v
    exact ⟨hn, hb2v⟩
  · rintro ⟨hl, hall⟩
    refine ⟨hl, ?_⟩
    intro a ha
    obtain ⟨i, hi⟩ := List.getElem?_of_mem ha
    have hlt : i < B.length := by
      rw [← hl]
      exact (List.getElem?_eq_some_iff.mp hi).1
    obtain ⟨hn, hv⟩ := hall i a B[i] hi (List.getElem?_eq_getElem hlt)
    exact ⟨B[i], List.getElem_mem hlt, hn, hv⟩

theorem getElem?_find_if {α : Type} (pred : α → Bool) (t : List α) :
    t[find_if pred t]? = t.find? pred := by
  induction t with
  | nil => rfl
  | cons a t ih =>
    by_cases ha : pred a = true
    · simp [find_if, ha]
    · have ha2 : pred a = false := by simpa using ha
      have hstep : find_if pred (a :: t) = find_if pred t + 1 := by simp [find_if, ha2]
      rw [hstep, List.getElem?_cons_succ, ih, List.find?_cons_of_neg _ ha]

theorem find_if_eq_length_iff {α : Type} (pred : α → Bool) (t : List α) :
    find_if pred t = t.length ↔ t.find? pred = none := by
  rw [← getElem?_find_if]
  constructor
  · intro h
    rw [h]
    exact List.getElem?_len_le (Nat.le_refl _)
  · intro h
    have := List.getElem?_eq_none_iff.mp h
    have := find_if_le_length pred t
    omega

theorem find?_skip {α : Type} (pred : α → Bool) (A B : List α) (x : α)
    (hx : pred x = false) : (A ++ x :: B).find? pred = (A ++ B).find? pred := by
  simp [List.find?_append, List.find?_cons, hx]

/-- Sorted `set(k, v)` does not change what a scan for another key finds. -/
theorem sorted_set_find?_other {V : Type} (t : List (name_value_pair V)) (k k2 : List Nat)
    (v : V) (hs : List.Pairwise (fun a b => lex_lt a.name b.name = true) t) (hne : k2 ≠ k) :
    (json_object_sorted.set_string t k v).find? (fun e => decide (e.name = k2))
      = t.find? (fun e => decide (e.name = k2)) := by
  obtain ⟨L, G, hset, _, _, ht⟩ := sorted_set_canon t k v hs
  have hnew : ∀ x : V, (fun e : name_value_pair V => decide (e.name = k2)) ⟨k, x⟩ = false := by
    intro x
    simpa using fun h : k = k2 => hne h.symm
  rw [hset, find?_skip _ L G _ (hnew v)]
  rcases ht with h | ⟨old, h⟩
  · rw [h]
  · rw [h, find?_skip _ L G _ (hnew old)]

/-- Insertion-order `set(k, v)` does not change what a scan for another key finds. -/
theorem insertion_set_find?_other {V : Type} (t : List (name_value_pair V)) (k k2 : List Nat)
    (v : V) (hne : k2 ≠ k) :
    (json_object_insertion.set_string t k v).find? (fun e => decide (e.name = k2))
      = t.find? (fun e => decide (e.name = k2)) := by
  have hnew : ∀ x : V, (fun e : name_value_pair V => decide (e.name = k2)) ⟨k, x⟩ = false := by
    intro x
    simpa using fun h : k = k2 => hne h.symm
  rcases insertion_set_cases t k v with ⟨_, _, hset⟩ | ⟨A, old, B, ht, _, _, hset⟩
  · rw [hset, find?_skip _ t [] _ (hnew v), List.append_nil]
  · rw [hset, ht, find?_skip _ A B _ (hnew v), find?_skip _ A B _ (hnew old)]

theorem insertion_find_eq_scan {V : Type} (t : List (name_value_pair V)) (k : List Nat) :
    json_object_insertion.find_string t k = find_if (fun e => decide (e.name = k)) t := by
  unfold json_object_insertion.find_string json_object_insertion.find
  rw [equals_pred_string_eq]

/-- Size after a sorted `set(k, v)`: one more when `find(k)` was the end marker, else the same. -/
theorem sorted_set_length {V : Type} (t : List (name_value_pair V)) (k : List Nat) (v : V)
    (hs : List.Pairwise (fun a b => lex_lt a.name b.name = true) t) :
    (json_object_sorted.find_string t k = t.length ∧
      (json_object_sorted.set_string t k v).length = t.length + 1) ∨
    (json_object_sorted.find_string t k ≠ t.length ∧
      (json_object_sorted.set_string t k v).length = t.length) := by
  obtain ⟨L, G, hset, hL, hG, ht⟩ := sorted_set_canon t k v hs
  rw [sorted_find_eq_scan t k hs, hset]
  rcases ht with h | ⟨old, h⟩
  · left
    subst h
    refine ⟨find_if_of_none _ _ ?_, by simp; omega⟩
    intro x hx
    rcases List.mem_append.mp hx with h1 | h1
    · simpa using lex_lt_ne (hL x h1)
    · simpa using (lex_lt_ne (hG x h1)).symm
  · right
    subst h
    have hL2 : ∀ x ∈ L, (fun e : name_value_pair V => decide (e.name = k)) x = false := by
      intro x hx
      simpa using lex_lt_ne (hL x hx)
    refine ⟨?_, by simp⟩
    rw [find_if_append_of_none _ L _ hL2]
    simp [find_if]

/-- Insertion-order `t == t`, entry by entry: every entry is compared with the entry that `find`
designates for its key. -/
theorem insertion_eq_self_iff {V : Type} (value_eq : V → V → Bool)
    (t : List (name_value_pair V)) :
    json_object_insertion.operator_eq value_eq t t = true ↔
      ∀ e ∈ t, ∃ f, t[json_object_insertion.find_string t e.name]? = some f ∧
        value_eq f.value e.value = true := by
  unfold json_object_insertion.operator_eq
  simp only [ne_eq, not_true_eq_false, if_false]
  rw [insertion_eq_loop_iff]
  constructor
  · intro h e he
    obtain ⟨r, hr, _, hv⟩ := h e he
    exact ⟨r, by rw [insertion_find_eq_scan]; exact hr, hv⟩
  · intro h e he
    obtain ⟨f, hf, hv⟩ := h e he
    rw [insertion_find_eq_scan] at hf
    refine ⟨f, hf, ?_, hv⟩
    have hfind : t.find? (fun x : name_value_pair V => decide (x.name = e.name)) = some f := by
      rw [← getElem?_find_if]; exact hf
    simpa using List.find?_some hfind

/-! ## The claims -/

/-- C1: after any finite sequence of `set(k, v)` calls on an empty sorted table, every pair of
adjacent entries has its left key strictly less than its right key under both forms of the String
Comparator, and the two keys differ. -/
theorem sorted_set_calls_strictly_ascending {V : Type} (calls : List (List Nat × V)) :
    List.Chain' (fun a b => member_lt_member a b = true ∧
        member_lt_string b.name.length a b.name = true ∧ a.name ≠ b.name)
      (json_object_sorted.set_calls [] calls) := by
  have hp := sorted_set_calls_pairwise calls [] List.Pairwise.nil
  refine List.Chain'.imp ?_ (List.Pairwise.chain' hp)
  intro a b hab
  refine ⟨?_, ?_, lex_lt_ne hab⟩
  · rw [member_lt_member_eq]; exact hab
  · rw [member_lt_string_eq]; exact hab

/-- C8: both forms of the String Comparator, `member_lt_string` (entry against a buffer holding
the key `b` with its length) and `member_lt_member` (entry against entry), return true exactly
when the first key is below the second in lexicographic order by code unit; the two forms
agree; a key is below every proper extension of it; `"ab"` is below `"abc"` and below `"ac"`. -/
theorem string_comparator_is_lexicographic {V : Type} (a b : name_value_pair V) (x : Nat)
    (s : List Nat) :
    (member_lt_string b.name.length a b.name = true ↔ List.Lex (· < ·) a.name b.name) ∧
    (member_lt_member a b = true ↔ List.Lex (· < ·) a.name b.name) ∧
    member_lt_string b.name.length a b.name = lex_lt a.name b.name ∧
    member_lt_member a b = lex_lt a.name b.name ∧
    member_lt_string b.name.length a b.name = member_lt_member a b ∧
    member_lt_string (a.name ++ x :: s).length a (a.name ++ x :: s) = true ∧
    member_lt_member a ⟨a.name ++ x :: s, a.value⟩ = true ∧
    member_lt_member (⟨[97, 98], 0⟩ : name_value_pair Nat) ⟨[97, 98, 99], 0⟩ = true ∧
    member_lt_string 3 (⟨[97, 98], 0⟩ : name_value_pair Nat) [97, 98, 99] = true ∧
    member_lt_member (⟨[97, 98, 99], 0⟩ : name_value_pair Nat) ⟨[97, 98], 0⟩ = false ∧
    member_lt_member (⟨[97, 98], 0⟩ : name_value_pair Nat) ⟨[97, 99], 0⟩ = true ∧
    member_lt_string 2 (⟨[97, 98], 0⟩ : name_value_pair Nat) [97, 99] = true ∧
    member_lt_member (⟨[97, 99], 0⟩ : name_value_pair Nat) ⟨[97, 98], 0⟩ = false := by
  refine ⟨?_, ?_, member_lt_string_eq a b.name, member_lt_member_eq a b, ?_, ?_, ?_,
    by decide, by decide, by decide, by decide, by decide, by decide⟩
  · rw [member_lt_string_eq]; exact lex_lt_iff_Lex _ _
  · rw [member_lt_member_eq]; exact lex_lt_iff_Lex _ _
  · rw [member_lt_string_eq, member_lt_member_eq]
  · rw [member_lt_string_eq]; exact lex_lt_append _ _ (by simp)
  · rw [member_lt_member_eq]; exact lex_lt_append _ _ (by simp)

/-- C9: the String Comparator is a strict total order whose equality is the Equality rule:
exactly one of less(a, b), equal(a, b), less(b, a) holds; less is transitive; both forms of less
agree; equal holds iff the keys have the same length and the same content; `equals_pred` agrees
with `name_eq_string`; and `name_le_string` holds iff less or equal holds. -/
theorem string_comparator_strict_total_order {V : Type} (a b c : name_value_pair V) :
    (member_lt_member a b = true ∨ name_eq_string a.name b.name b.name.length = true ∨
      member_lt_member b a = true) ∧
    ¬ (member_lt_member a b = true ∧ name_eq_string a.name b.name b.name.length = true) ∧
    ¬ (member_lt_member a b = true ∧ member_lt_member b a = true) ∧
    ¬ (name_eq_string a.name b.name b.name.length = true ∧ member_lt_member b a = true) ∧
    (member_lt_member a b = true → member_lt_member b c = true →
      member_lt_member a c = true) ∧
    member_lt_string b.name.length a b.name = member_lt_member a b ∧
    (name_eq_string a.name b.name b.name.length = true ↔
      a.name.length = b.name.length ∧ a.name = b.name) ∧
    equals_pred b.name b.name.length a = name_eq_string a.name b.name b.name.length ∧
    (name_le_string a.name b.name b.name.length = true ↔
      member_lt_member a b = true ∨ name_eq_string a.name b.name b.name.length = true) := by
  have hlt : ∀ p q : name_value_pair V, member_lt_member p q = lex_lt p.name q.name :=
    member_lt_member_eq
  have heq : (name_eq_string a.name b.name b.name.length = true) ↔ a.name = b.name := by
    rw [name_eq_string_eq]; exact decide_eq_true_iff
  refine ⟨?_, ?_, ?_, ?_, ?_, ?_, ?_, ?_, ?_⟩
  · rw [hlt, hlt, heq]; exact lex_lt_total _ _
  · rw [hlt, heq]
    rintro ⟨h1, h2⟩
    exact lex_lt_ne h1 h2
  · rw [hlt, hlt]
    rintro ⟨h1, h2⟩
    rw [lex_lt_asymm h1] at h2
    exact absurd h2 (by decide)
  · rw [hlt, heq]
    rintro ⟨h1, h2⟩
    exact lex_lt_ne h2 h1.symm
  · rw [hlt, hlt, hlt]
    exact fun h1 h2 => lex_lt_trans h1 h2
  · rw [member_lt_string_eq, hlt]
  · rw [heq]
    constructor
    · intro h; exact ⟨by rw [h], h⟩
    · intro h; exact h.2
  · rw [equals_pred_eq, name_eq_string_eq]
  · rw [name_le_string_eq, hlt, heq, Bool.or_eq_true, decide_eq_true_iff]

theorem string_comparator_strict_total_order_witness :
    member_lt_member (⟨[97], 0⟩ : name_value_pair Nat) ⟨[97, 98], 0⟩ = true ∧
    member_lt_member (⟨[97, 98], 0⟩ : name_value_pair Nat) ⟨[98], 0⟩ = true ∧
    member_lt_member (⟨[97], 0⟩ : name_value_pair Nat) ⟨[98], 0⟩ = true :=
  ⟨by decide, by decide,
    (string_comparator_strict_total_order (⟨[97], 0⟩ : name_value_pair Nat) ⟨[97, 98], 0⟩
      ⟨[98], 0⟩).2.2.2.2.1 (by decide) (by decide)⟩

/-- C2: on a sorted table with strictly ascending keys, `set(hint, k, v)` with any valid hint
position (begin to end inclusive, whatever the key of the entry at the hint) leaves exactly the
entry list that `set(k, v)` leaves. -/
theorem sorted_set_hint_same_as_set {V : Type} (t : List (name_value_pair V)) (hint : Nat)
    (k : List Nat) (v : V) (hs : strictly_ascending t) (hh : hint ≤ t.length) :
    (json_object_sorted.set_hint_string t hint k v).1 = json_object_sorted.set_string t k v := by
  have hp := (strictly_ascending_iff_pairwise t).mp hs
  obtain ⟨L, R, ht, hL, hR⟩ := sorted_split t k hp
  subst ht
  exact sorted_set_hint_split L R k v hint hL hR (List.pairwise_append.mp hp).2.1

theorem sorted_set_hint_same_as_set_witness :
    strictly_ascending ([⟨[97], 1⟩, ⟨[99], 2⟩, ⟨[101], 3⟩] : List (name_value_pair Nat)) ∧
    (json_object_sorted.set_hint_string
      ([⟨[97], 1⟩, ⟨[99], 2⟩, ⟨[101], 3⟩] : List (name_value_pair Nat)) 2 [98] 7).1 =
      json_object_sorted.set_string [⟨[97], 1⟩, ⟨[99], 2⟩, ⟨[101], 3⟩] [98] 7 :=
  ⟨by decide, sorted_set_hint_same_as_set _ 2 [98] 7 (by decide) (by decide)⟩

/-- C10: on a sorted table with strictly ascending keys, `find(k)` returns the position of the
entry with key `k` whenever an entry has that key, the end marker when no entry has it, and so
the same position as a front-to-back scan for an exact key match (the insertion-order `find`). -/
theorem sorted_find_agrees_with_linear_scan {V : Type} (t : List (name_value_pair V))
    (k : List Nat) (hs : strictly_ascending t) :
    (∀ i e, t[i]? = some e → e.name = k → json_object_sorted.find_string t k = i) ∧
    ((∀ e ∈ t, e.name ≠ k) → json_object_sorted.find_string t k = t.length) ∧
    json_object_sorted.find_string t k = find_if (fun e => decide (e.name = k)) t ∧
    json_object_sorted.find_string t k = json_object_insertion.find_string t k := by
  have hp := (strictly_ascending_iff_pairwise t).mp hs
  have hscan := sorted_find_eq_scan t k hp
  refine ⟨?_, ?_, hscan, ?_⟩
  · intro i e hi hk
    rw [hscan]
    obtain ⟨e2, he2, hk2⟩ := find_if_getElem (fun e : name_value_pair V => decide (e.name = k))
      t e (List.getElem?_mem hi) (by simpa using hk)
    have hk3 : e2.name = k := by simpa using hk2
    exact pairwise_key_index_unique t hp _ _ e2 e he2 hi (by rw [hk3, hk])
  · intro hnone
    rw [hscan]
    exact find_if_of_none _ _ (fun x hx => by simpa using hnone x hx)
  · rw [hscan]
    unfold json_object_insertion.find_string json_object_insertion.find
    rw [equals_pred_string_eq]

theorem sorted_find_agrees_with_linear_scan_witness :
    strictly_ascending ([⟨[97], 1⟩, ⟨[99], 2⟩, ⟨[101], 3⟩] : List (name_value_pair Nat)) ∧
    json_object_sorted.find_string
      ([⟨[97], 1⟩, ⟨[99], 2⟩, ⟨[101], 3⟩] : List (name_value_pair Nat)) [99] = 1 :=
  ⟨by decide,
    (sorted_find_agrees_with_linear_scan
      ([⟨[97], 1⟩, ⟨[99], 2⟩, ⟨[101], 3⟩] : List (name_value_pair Nat)) [99] (by decide)).1
      1 ⟨[99], 2⟩ (by decide) (by decide)⟩

/-- C3: after `set(k, v)`, `find(k)` is not the end marker and designates an entry with key `k`
and value `v`, on a sorted table with strictly ascending keys (`ts`) and on any insertion-order
table (`ti`). -/
theorem set_then_find_round_trip {V : Type} (ts ti : List (name_value_pair V)) (k : List Nat)
    (v : V) (hs : strictly_ascending ts) :
    (json_object_sorted.find_string (json_object_sorted.set_string ts k v) k ≠
        (json_object_sorted.set_string ts k v).length ∧
      (json_object_sorted.set_string ts k v)[json_object_sorted.find_string
        (json_object_sorted.set_string ts k v) k]? = some ⟨k, v⟩) ∧
    (json_object_insertion.find_string (json_object_insertion.set_string ti k v) k ≠
        (json_object_insertion.set_string ti k v).length ∧
      (json_object_insertion.set_string ti k v)[json_object_insertion.find_string
        (json_object_insertion.set_string ti k v) k]? = some ⟨k, v⟩) :=
  ⟨sorted_find_after_set ts k v ((strictly_ascending_iff_pairwise ts).mp hs),
    insertion_find_after_set ti k v⟩

theorem set_then_find_round_trip_witness :
    strictly_ascending ([⟨[97], 1⟩, ⟨[99], 2⟩] : List (name_value_pair Nat)) ∧
    (json_object_sorted.set_string ([⟨[97], 1⟩, ⟨[99], 2⟩] : List (name_value_pair Nat))
      [98] 7)[json_object_sorted.find_string (json_object_sorted.set_string
        ([⟨[97], 1⟩, ⟨[99], 2⟩] : List (name_value_pair Nat)) [98] 7) [98]]? = some ⟨[98], 7⟩ :=
  ⟨by decide,
    (set_then_find_round_trip ([⟨[97], 1⟩, ⟨[99], 2⟩] : List (name_value_pair Nat))
      [⟨[99], 2⟩, ⟨[97], 1⟩, ⟨[99], 5⟩] [98] 7 (by decide)).1.2⟩

/-- C7: applying `set(k, v)` twice in a row yields the same entry list and the same size as
applying it once, on a sorted table with strictly ascending keys (`ts`) and on any
insertion-order table (`ti`). -/
theorem set_twice_same_as_once {V : Type} (ts ti : List (name_value_pair V)) (k : List Nat)
    (v : V) (hs : strictly_ascending ts) :
    json_object_sorted.set_string (json_object_sorted.set_string ts k v) k v =
      json_object_sorted.set_string ts k v ∧
    (json_object_sorted.set_string (json_object_sorted.set_string ts k v) k v).length =
      (json_object_sorted.set_string ts k v).length ∧
    json_object_insertion.set_string (json_object_insertion.set_string ti k v) k v =
      json_object_insertion.set_string ti k v ∧
    (json_object_insertion.set_string (json_object_insertion.set_string ti k v) k v).length =
      (json_object_insertion.set_string ti k v).length := by
  have h1 := sorted_set_twice ts k v ((strictly_ascending_iff_pairwise ts).mp hs)
  have h2 := insertion_set_twice ti k v
  exact ⟨h1, by rw [h1], h2, by rw [h2]⟩

theorem set_twice_same_as_once_witness :
    strictly_ascending ([⟨[97], 1⟩, ⟨[99], 2⟩] : List (name_value_pair Nat)) ∧
    json_object_sorted.set_string (json_object_sorted.set_string
      ([⟨[97], 1⟩, ⟨[99], 2⟩] : List (name_value_pair Nat)) [98] 7) [98] 7 =
      json_object_sorted.set_string [⟨[97], 1⟩, ⟨[99], 2⟩] [98] 7 :=
  ⟨by decide,
    (set_twice_same_as_once ([⟨[97], 1⟩, ⟨[99], 2⟩] : List (name_value_pair Nat))
      [⟨[99], 2⟩, ⟨[97], 1⟩] [98] 7 (by decide)).1⟩

/-- C4: after any finite sequence of `set(k_i, v_i)` calls on an empty sorted table, the entry
list is in strictly ascending key order, has no two entries with the same key, has an entry for
a key exactly when some call was made with that key, and every entry carries the value of the
last call made with its key. The calls `set("b",1)`, `set("a",2)`, `set("c",3)` give
`a:2, b:1, c:3`. -/
theorem sorted_content_after_set_calls {V : Type} (calls : List (List Nat × V)) :
    strictly_ascending (json_object_sorted.set_calls [] calls) ∧
    ((json_object_sorted.set_calls [] calls).map name_value_pair.name).Nodup ∧
    (∀ k, k ∈ (json_object_sorted.set_calls [] calls).map name_value_pair.name ↔
      k ∈ calls.map Prod.fst) ∧
    (∀ e, e ∈ json_object_sorted.set_calls [] calls ↔
      last_value calls e.name = some e.value) ∧
    json_object_sorted.set_calls ([] : List (name_value_pair Nat))
      [([98], 1), ([97], 2), ([99], 3)] = [⟨[97], 2⟩, ⟨[98], 1⟩, ⟨[99], 3⟩] := by
  have hp := sorted_set_calls_pairwise calls [] List.Pairwise.nil
  have hm := sorted_set_calls_mem calls
  exact ⟨(strictly_ascending_iff_pairwise _).mpr hp, pairwise_names_nodup _ hp,
    keys_of_content _ calls hm, hm, by decide⟩

/-- C5: after any finite sequence of plain `set(k_i, v_i)` calls on an empty insertion-order
table, no two entries have the same key, there is an entry for a key exactly when some call was
made with that key, the entries are listed in the order of the first calls made with their keys,
and every entry carries the value of the last call made with its key. The calls `set("b",1)`,
`set("a",2)`, `set("c",3)` give `b:1, a:2, c:3`. -/
theorem insertion_content_after_set_calls {V : Type} (calls : List (List Nat × V)) :
    ((json_object_insertion.set_calls [] calls).map name_value_pair.name).Nodup ∧
    (∀ k, k ∈ (json_object_insertion.set_calls [] calls).map name_value_pair.name ↔
      k ∈ calls.map Prod.fst) ∧
    List.Pairwise (fun a b => first_call calls a.name < first_call calls b.name)
      (json_object_insertion.set_calls [] calls) ∧
    (∀ e, e ∈ json_object_insertion.set_calls [] calls ↔
      last_value calls e.name = some e.value) ∧
    json_object_insertion.set_calls ([] : List (name_value_pair Nat))
      [([98], 1), ([97], 2), ([99], 3)] = [⟨[98], 1⟩, ⟨[97], 2⟩, ⟨[99], 3⟩] := by
  obtain ⟨hn, hm, ho⟩ := insertion_set_calls_inv calls
  have ho2 : List.Pairwise (fun a b => first_call calls a.name < first_call calls b.name)
      (json_object_insertion.set_calls [] calls) :=
    (List.pairwise_map (f := name_value_pair.name)
      (R := fun a b => first_call calls a < first_call calls b)).mp ho
  exact ⟨hn, keys_of_content _ calls hm, ho2, hm, by decide⟩

/-- C6: on an insertion-order table that already has an entry with key `k`, `set(k, v)` keeps
the size, keeps every key at its position, gives the value `v` to the first entry with key `k`
(the one at the position `find(k)`), and leaves every other entry as it was. -/
theorem insertion_set_existing_keeps_position {V : Type} (t : List (name_value_pair V))
    (k : List Nat) (v : V) (hk : k ∈ t.map name_value_pair.name) :
    (json_object_insertion.set_string t k v).length = t.length ∧
    (json_object_insertion.set_string t k v).map name_value_pair.name
      = t.map name_value_pair.name ∧
    json_object_insertion.find_string t k < t.length ∧
    (t[json_object_insertion.find_string t k]?).map name_value_pair.name = some k ∧
    (∀ j e, j < json_object_insertion.find_string t k → t[j]? = some e → e.name ≠ k) ∧
    (json_object_insertion.set_string t k v)[json_object_insertion.find_string t k]?
      = some ⟨k, v⟩ ∧
    (∀ j, j ≠ json_object_insertion.find_string t k →
      (json_object_insertion.set_string t k v)[j]? = t[j]?) := by
  rcases insertion_set_cases t k v with ⟨hnone, _, _⟩ | ⟨A, old, B, ht, hA, hfind, hset⟩
  · obtain ⟨e, he, hek⟩ := List.mem_map.mp hk
    exact absurd hek (hnone e he)
  · rw [hset, hfind]
    subst ht
    refine ⟨by simp, by simp, by simp, ?_, ?_, getElem?_append_length A B _, ?_⟩
    · rw [getElem?_append_length]; rfl
    · intro j e hj he
      rw [List.getElem?_append_left hj] at he
      exact hA e (List.getElem?_mem he)
    · intro j hj
      rcases Nat.lt_or_gt_of_ne hj with h | h
      · rw [List.getElem?_append_left h, List.getElem?_append_left h]
      · have hle : A.length ≤ j := by omega
        have hpos : j - A.length = (j - A.length - 1) + 1 := by omega
        rw [List.getElem?_append_right hle, List.getElem?_append_right hle, hpos,
          List.getElem?_cons_succ, List.getElem?_cons_succ]

theorem insertion_set_existing_keeps_position_witness :
    (json_object_insertion.set_string
      ([⟨[98], 1⟩, ⟨[97], 2⟩, ⟨[99], 3⟩] : List (name_value_pair Nat)) [97] 9)
      = [⟨[98], 1⟩, ⟨[97], 9⟩, ⟨[99], 3⟩] ∧
    (json_object_insertion.set_string
      ([⟨[98], 1⟩, ⟨[97], 2⟩, ⟨[99], 3⟩] : List (name_value_pair Nat)) [97] 9).length = 3 :=
  ⟨by decide,
    (insertion_set_existing_keeps_position
      ([⟨[98], 1⟩, ⟨[97], 2⟩, ⟨[99], 3⟩] : List (name_value_pair Nat)) [97] 9 (by decide)).1⟩

/-- C11: for two sorted tables with strictly ascending keys, `A == B` returns true if and only
if the two have the same size and every entry of `A` has an entry of `B` with an equal key and
an equal value (`value_eq` is the equality of the contained values). -/
theorem sorted_equality_iff_same_entries {V : Type} (value_eq : V → V → Bool)
    (A B : List (name_value_pair V)) (hA : strictly_ascending A) (hB : strictly_ascending B) :
    json_object_sorted.operator_eq value_eq A B = true ↔
      A.length = B.length ∧
        ∀ a ∈ A, ∃ b ∈ B, b.name = a.name ∧ value_eq b.value a.value = true := by
  have _hApw := (strictly_ascending_iff_pairwise A).mp hA
  exact sorted_eq_iff value_eq A B ((strictly_ascending_iff_pairwise B).mp hB)

theorem sorted_equality_iff_same_entries_witness :
    strictly_ascending ([⟨[97], 1⟩, ⟨[99], 2⟩] : List (name_value_pair Nat)) ∧
    json_object_sorted.operator_eq (fun a b => decide (a = b))
      ([⟨[97], 1⟩, ⟨[99], 2⟩] : List (name_value_pair Nat)) [⟨[97], 1⟩, ⟨[99], 2⟩] = true :=
  ⟨by decide,
    (sorted_equality_iff_same_entries (fun a b => decide (a = b))
      ([⟨[97], 1⟩, ⟨[99], 2⟩] : List (name_value_pair Nat)) [⟨[97], 1⟩, ⟨[99], 2⟩]
      (by decide) (by decide)).mpr ⟨rfl, by decide⟩⟩

/-- C12 fails as stated: the insertion-order table built by `set("a", 1)` followed by the hinted
`set(end, "a", 2)` holds two entries with the key `"a"`, and with values compared by identity (a
reflexive value equality) it does not compare equal to itself. -/
theorem insertion_equality_not_reflexive :
    (json_object_insertion.set_hint_string
      (json_object_insertion.set_string ([] : List (name_value_pair Nat)) [97] 1) 1 [97] 2).1
      = [⟨[97], 1⟩, ⟨[97], 2⟩] ∧
    json_object_insertion.operator_eq (fun a b => decide (a = b))
      ([⟨[97], 1⟩, ⟨[97], 2⟩] : List (name_value_pair Nat)) [⟨[97], 1⟩, ⟨[97], 2⟩] = false := by
  decide

/-- C12 (amended): `t == t` returns true exactly when, for every entry of `t`, the value of the
first entry of `t` with the same key (the entry `find` designates) is equal to the value of that
entry under the value equality; so, with a reflexive value equality, `t == t` returns true (and
a copy of `t` compares equal to `t`) for every insertion-order table whose entries with equal
keys carry the same value, and in particular for every table with pairwise distinct keys. -/
theorem insertion_equality_reflexive_on_consistent_keys {V : Type} (value_eq : V → V → Bool)
    (t : List (name_value_pair V)) (hrefl : ∀ v, value_eq v v = true) :
    (json_object_insertion.operator_eq value_eq t t = true ↔
      ∀ e ∈ t, ∃ f, t[json_object_insertion.find_string t e.name]? = some f ∧
        value_eq f.value e.value = true) ∧
    ((∀ a ∈ t, ∀ b ∈ t, a.name = b.name → a.value = b.value) →
      json_object_insertion.operator_eq value_eq t t = true) ∧
    ((t.map name_value_pair.name).Nodup →
      json_object_insertion.operator_eq value_eq t t = true) :=
  ⟨insertion_eq_self_iff value_eq t,
    fun hsame => insertion_eq_of_perm value_eq t t hrefl hsame (List.Perm.refl t),
    fun hn => insertion_eq_of_perm value_eq t t hrefl (nodup_names_same_value t hn)
      (List.Perm.refl t)⟩

theorem insertion_equality_reflexive_on_consistent_keys_witness :
    json_object_insertion.operator_eq (fun a b => decide (a = b))
      ([⟨[98], 1⟩, ⟨[97], 2⟩, ⟨[99], 3⟩] : List (name_value_pair Nat))
      [⟨[98], 1⟩, ⟨[97], 2⟩, ⟨[99], 3⟩] = true :=
  (insertion_equality_reflexive_on_consistent_keys (fun a b => decide (a = b))
    ([⟨[98], 1⟩, ⟨[97], 2⟩, ⟨[99], 3⟩] : List (name_value_pair Nat))
    (fun v => decide_eq_true rfl)).2.2 (by decide)

/-- C13 fails as stated: with `A = [a:1, a:1]` (built by `set("a", 1)` and the hinted
`set(end, "a", 1)`) and `B = [a:1, b:2]`, `A == B` returns true and `B == A` returns false. -/
theorem insertion_equality_not_symmetric :
    (json_object_insertion.set_hint_string
      (json_object_insertion.set_string ([] : List (name_value_pair Nat)) [97] 1) 1 [97] 1).1
      = [⟨[97], 1⟩, ⟨[97], 1⟩] ∧
    json_object_insertion.operator_eq (fun a b => decide (a = b))
      ([⟨[97], 1⟩, ⟨[97], 1⟩] : List (name_value_pair Nat)) [⟨[97], 1⟩, ⟨[98], 2⟩] = true ∧
    json_object_insertion.operator_eq (fun a b => decide (a = b))
      ([⟨[97], 1⟩, ⟨[98], 2⟩] : List (name_value_pair Nat)) [⟨[97], 1⟩, ⟨[97], 1⟩] = false := by
  decide

/-- C13 (amended): with a symmetric value equality, `A == B` and `B == A` return the same boolean
for every two insertion-order tables that each have pairwise distinct keys. -/
theorem insertion_equality_symmetric_on_distinct_keys {V : Type} (value_eq : V → V → Bool)
    (A B : List (name_value_pair V)) (hsym : ∀ x y, value_eq x y = value_eq y x)
    (hA : (A.map name_value_pair.name).Nodup) (hB : (B.map name_value_pair.name).Nodup) :
    json_object_insertion.operator_eq value_eq A B =
      json_object_insertion.operator_eq value_eq B A := by
  cases hab : json_object_insertion.operator_eq value_eq A B with
  | true => exact (insertion_eq_imp_symm value_eq A B hsym hA hab).symm
  | false =>
    cases hba : json_object_insertion.operator_eq value_eq B A with
    | false => rfl
    | true =>
      rw [insertion_eq_imp_symm value_eq B A hsym hB hba] at hab
      exact absurd hab (by decide)

theorem insertion_equality_symmetric_on_distinct_keys_witness :
    json_object_insertion.operator_eq (fun a b => decide (a = b))
      ([⟨[98], 1⟩, ⟨[97], 2⟩] : List (name_value_pair Nat)) [⟨[97], 2⟩, ⟨[98], 1⟩] =
    json_object_insertion.operator_eq (fun a b => decide (a = b))
      ([⟨[97], 2⟩, ⟨[98], 1⟩] : List (name_value_pair Nat)) [⟨[98], 1⟩, ⟨[97], 2⟩] :=
  insertion_equality_symmetric_on_distinct_keys (fun a b => decide (a = b))
    ([⟨[98], 1⟩, ⟨[97], 2⟩] : List (name_value_pair Nat)) [⟨[97], 2⟩, ⟨[98], 1⟩]
    (fun x y => by simp [eq_comm]) (by decide) (by decide)

/-- C14 fails as stated: `B = [a:2, a:1]` is a rearrangement of `A = [a:1, a:2]`, and `A == B`
returns false. -/
theorem insertion_equality_not_order_blind :
    List.Perm ([⟨[97], 2⟩, ⟨[97], 1⟩] : List (name_value_pair Nat)) [⟨[97], 1⟩, ⟨[97], 2⟩] ∧
    json_object_insertion.operator_eq (fun a b => decide (a = b))
      ([⟨[97], 1⟩, ⟨[97], 2⟩] : List (name_value_pair Nat)) [⟨[97], 2⟩, ⟨[97], 1⟩] = false :=
  ⟨List.Perm.swap _ _ _, by decide⟩

/-- C14 (amended): with a reflexive value equality, `A == B` returns true for every
insertion-order table `A` whose entries with equal keys carry the same value (in particular when
the keys of `A` are pairwise distinct) and every `B` whose entry list is a rearrangement of that
of `A`. -/
theorem insertion_equality_ignores_order_on_consistent_keys {V : Type}
    (value_eq : V → V → Bool) (A B : List (name_value_pair V))
    (hrefl : ∀ v, value_eq v v = true) (hp : List.Perm B A) :
    ((∀ a ∈ A, ∀ b ∈ A, a.name = b.name → a.value = b.value) →
      json_object_insertion.operator_eq value_eq A B = true) ∧
    ((A.map name_value_pair.name).Nodup →
      json_object_insertion.operator_eq value_eq A B = true) :=
  ⟨fun hsame => insertion_eq_of_perm value_eq A B hrefl hsame hp,
    fun hn => insertion_eq_of_perm value_eq A B hrefl (nodup_names_same_value A hn) hp⟩

theorem insertion_equality_ignores_order_on_consistent_keys_witness :
    json_object_insertion.operator_eq (fun a b => decide (a = b))
      ([⟨[98], 1⟩, ⟨[97], 2⟩] : List (name_value_pair Nat)) [⟨[97], 2⟩, ⟨[98], 1⟩] = true :=
  (insertion_equality_ignores_order_on_consistent_keys (fun a b => decide (a = b))
    ([⟨[98], 1⟩, ⟨[97], 2⟩] : List (name_value_pair Nat)) [⟨[97], 2⟩, ⟨[98], 1⟩]
    (fun v => decide_eq_true rfl) (List.Perm.swap _ _ _)).2 (by decide)

/-- C16 fails as stated: the source calls `std::sort`, which is not a stable sort. Run with the
`std::sort` of GNU libstdc++, the bulk insert of seventeen entries with the key `"a"` and the
values `0` to `16` into an empty sorted table leaves them in the order `8, 16, 15, .., 9, 0, 7,
6, .., 1`, while the stable sort of the appended entries keeps the order `0, 1, .., 16`. -/
theorem sorted_insert_not_stable :
    libstdcxx_sort member_lt_member
        (seventeen_with_key_a.map (fun c => (⟨c.1, c.2⟩ : name_value_pair Nat)))
      = some ([8, 16, 15, 14, 13, 12, 11, 10, 9, 0, 7, 6, 5, 4, 3, 2, 1].map
          (fun i => (⟨[97], i⟩ : name_value_pair Nat))) ∧
    json_object_sorted.insert gnu_std_sort ⟨[], 0⟩ [] seventeen_with_key_a
        (fun c : List Nat × Nat => ⟨c.1, c.2⟩)
      = [8, 16, 15, 14, 13, 12, 11, 10, 9, 0, 7, 6, 5, 4, 3, 2, 1].map
          (fun i => (⟨[97], i⟩ : name_value_pair Nat)) ∧
    stable_sort ([] ++ seventeen_with_key_a.map
        (fun c : List Nat × Nat => (⟨c.1, c.2⟩ : name_value_pair Nat)))
      = [0, 1, 2, 3, 4, 5, 6, 7, 8, 9, 10, 11, 12, 13, 14, 15, 16].map
          (fun i => (⟨[97], i⟩ : name_value_pair Nat)) ∧
    json_object_sorted.insert gnu_std_sort ⟨[], 0⟩ [] seventeen_with_key_a
        (fun c : List Nat × Nat => ⟨c.1, c.2⟩)
      ≠ stable_sort ([] ++ seventeen_with_key_a.map
          (fun c : List Nat × Nat => (⟨c.1, c.2⟩ : name_value_pair Nat))) := by
  decide

/-- C16 (amended): for every sort meeting the contract of `std::sort`, bulk `insert` leaves the
sorted table a rearrangement of the previous entries followed by `transform(element)` for each
source element, with non-decreasing keys, the size grown by the length of the source; when no
two of these entries have the same key the result is exactly their stable sort. -/
theorem sorted_insert_sorted_rearrangement {S V : Type}
    (sort : List (name_value_pair V) → List (name_value_pair V)) (dflt : name_value_pair V)
    (members_ : List (name_value_pair V)) (source : List S) (pred : S → name_value_pair V)
    (hc : std_sort_contract sort) :
    List.Perm (json_object_sorted.insert sort dflt members_ source pred)
      (members_ ++ source.map pred) ∧
    List.Pairwise (fun a b => member_lt_member b a = false)
      (json_object_sorted.insert sort dflt members_ source pred) ∧
    (json_object_sorted.insert sort dflt members_ source pred).length
      = members_.length + source.length ∧
    (((members_ ++ source.map pred).map name_value_pair.name).Nodup →
      json_object_sorted.insert sort dflt members_ source pred
        = stable_sort (members_ ++ source.map pred)) := by
  rw [sorted_insert_eq]
  obtain ⟨hp, hsorted⟩ := hc (members_ ++ source.map pred)
  refine ⟨hp, hsorted, by rw [hp.length_eq]; simp, ?_⟩
  intro hn
  obtain ⟨hp2, hsorted2⟩ := stable_sort_contract (members_ ++ source.map pred)
  apply strict_sorted_perm_unique _ _ (hp.trans hp2.symm)
  · exact sorted_nodup_strict _ hsorted (((hp.map name_value_pair.name).nodup_iff).mpr hn)
  · exact sorted_nodup_strict _ hsorted2 (((hp2.map name_value_pair.name).nodup_iff).mpr hn)

theorem sorted_insert_sorted_rearrangement_witness :
    json_object_sorted.insert stable_sort ⟨[], 0⟩
      ([⟨[97], 1⟩, ⟨[99], 5⟩] : List (name_value_pair Nat)) [([98], 3), ([100], 2)]
      (fun c : List Nat × Nat => ⟨c.1, c.2⟩)
      = stable_sort (([⟨[97], 1⟩, ⟨[99], 5⟩] : List (name_value_pair Nat)) ++
          [([98], 3), ([100], 2)].map (fun c : List Nat × Nat => ⟨c.1, c.2⟩)) :=
  (sorted_insert_sorted_rearrangement stable_sort ⟨[], 0⟩
    ([⟨[97], 1⟩, ⟨[99], 5⟩] : List (name_value_pair Nat)) [([98], 3), ([100], 2)]
    (fun c : List Nat × Nat => ⟨c.1, c.2⟩) (fun xs => stable_sort_contract xs)).2.2.2
    (by decide)

/-- C17 fails as stated: bulk `insert` of an entry with the key `"a"` into the strictly ascending
table `[a:1]` leaves two entries with the key `"a"`, whatever `std::sort` does with them, so the
result is not strictly ascending. -/
theorem sorted_insert_breaks_strict_order :
    strictly_ascending ([⟨[97], 1⟩] : List (name_value_pair Nat)) ∧
    std_sort_contract (stable_sort : List (name_value_pair Nat) → List (name_value_pair Nat)) ∧
    json_object_sorted.insert stable_sort ⟨[], 0⟩ ([⟨[97], 1⟩] : List (name_value_pair Nat))
      [([97], 2)] (fun c : List Nat × Nat => ⟨c.1, c.2⟩) = [⟨[97], 1⟩, ⟨[97], 2⟩] ∧
    (∀ sort : List (name_value_pair Nat) → List (name_value_pair Nat),
      std_sort_contract sort →
      ¬ strictly_ascending (json_object_sorted.insert sort ⟨[], 0⟩
        ([⟨[97], 1⟩] : List (name_value_pair Nat)) [([97], 2)]
        (fun c : List Nat × Nat => ⟨c.1, c.2⟩))) := by
  refine ⟨by decide, fun xs => stable_sort_contract xs, by decide, ?_⟩
  intro sort hc hasc
  rw [sorted_insert_eq] at hasc
  have hp := (hc (([⟨[97], 1⟩] : List (name_value_pair Nat)) ++
    [([97], 2)].map (fun c : List Nat × Nat => ⟨c.1, c.2⟩))).1
  have hn := pairwise_names_nodup _ ((strictly_ascending_iff_pairwise _).mp hasc)
  have hn2 := ((hp.map name_value_pair.name).nodup_iff).mp hn
  simp at hn2

/-- C17 (amended): on a sorted table with strictly ascending keys the ordering invariant still
holds after `set(k, v)`, after `set(hint, k, v)` with a valid hint, after `erase(k)`, after
`erase(first, last)` with a valid range and after `clear`; bulk `insert` leaves the keys
non-decreasing, and strictly ascending when the keys of the old entries and of the inserted
entries are pairwise distinct. -/
theorem sorted_invariant_preserved {S V : Type} (t : List (name_value_pair V)) (k : List Nat)
    (v : V) (hint first last : Nat)
    (sort : List (name_value_pair V) → List (name_value_pair V)) (dflt : name_value_pair V)
    (source : List S) (pred : S → name_value_pair V)
    (hs : strictly_ascending t) (hh : hint ≤ t.length) (hfl : first ≤ last)
    (hl : last ≤ t.length) (hc : std_sort_contract sort) :
    strictly_ascending (json_object_sorted.set_string t k v) ∧
    strictly_ascending (json_object_sorted.set_hint_string t hint k v).1 ∧
    strictly_ascending (json_object_sorted.erase_string t k) ∧
    strictly_ascending (json_object_sorted.erase_range t first last) ∧
    strictly_ascending (json_object_sorted.clear t) ∧
    List.Pairwise (fun a b => member_lt_member b a = false)
      (json_object_sorted.insert sort dflt t source pred) ∧
    (((t ++ source.map pred).map name_value_pair.name).Nodup →
      strictly_ascending (json_object_sorted.insert sort dflt t source pred)) := by
  have hp := (strictly_ascending_iff_pairwise t).mp hs
  have _hvalid : hint ≤ t.length ∧ last ≤ t.length := ⟨hh, hl⟩
  have hset := sorted_set_ascending t k v hs
  have hhint : (json_object_sorted.set_hint_string t hint k v).1
      = json_object_sorted.set_string t k v := by
    obtain ⟨L, R, ht, hL, hR⟩ := sorted_split t k hp
    subst ht
    exact sorted_set_hint_split L R k v hint hL hR (List.pairwise_append.mp hp).2.1
  refine ⟨hset, by rw [hhint]; exact hset, ?_, ?_, ?_, ?_, ?_⟩
  · exact (strictly_ascending_iff_pairwise _).mpr (sorted_erase_pairwise t k hp)
  · exact (strictly_ascending_iff_pairwise _).mpr
      (List.Pairwise.sublist (vector_erase_sublist t first last hfl) hp)
  · exact (strictly_ascending_iff_pairwise _).mpr List.Pairwise.nil
  · rw [sorted_insert_eq]
    exact (hc _).2
  · intro hn
    rw [sorted_insert_eq]
    exact (strictly_ascending_iff_pairwise _).mpr
      (sorted_nodup_strict _ (hc _).2 ((((hc _).1.map name_value_pair.name).nodup_iff).mpr hn))

theorem sorted_invariant_preserved_witness :
    strictly_ascending ([⟨[97], 1⟩, ⟨[99], 2⟩, ⟨[101], 3⟩] : List (name_value_pair Nat)) ∧
    strictly_ascending (json_object_sorted.erase_range
      ([⟨[97], 1⟩, ⟨[99], 2⟩, ⟨[101], 3⟩] : List (name_value_pair Nat)) 1 2) :=
  ⟨by decide,
    (sorted_invariant_preserved
      ([⟨[97], 1⟩, ⟨[99], 2⟩, ⟨[101], 3⟩] : List (name_value_pair Nat)) [98] 7 3 1 2
      stable_sort ⟨[], 0⟩ [([100], 4)] (fun c : List Nat × Nat => ⟨c.1, c.2⟩)
      (by decide) (by decide) (by decide) (by decide)
      (fun xs => stable_sort_contract xs)).2.2.2.1⟩

/-- C18 fails as stated: on the insertion-order table `[a:1]`, whose keys are distinct, the hinted
`set(end, "a", 2)` appends a second entry with the key `"a"`; on `[a:1, b:2]` the hinted
`set(begin, "b", 3)` inserts a second entry with the key `"b"` before `a:1`. No bulk insert is
involved. -/
theorem insertion_hinted_set_duplicates_key :
    (([⟨[97], 1⟩] : List (name_value_pair Nat)).map name_value_pair.name).Nodup ∧
    (json_object_insertion.set_hint_string
      ([⟨[97], 1⟩] : List (name_value_pair Nat)) 1 [97] 2).1 = [⟨[97], 1⟩, ⟨[97], 2⟩] ∧
    ¬ ((json_object_insertion.set_hint_string
      ([⟨[97], 1⟩] : List (name_value_pair Nat)) 1 [97] 2).1.map name_value_pair.name).Nodup ∧
    (json_object_insertion.set_hint_string
      ([⟨[97], 1⟩, ⟨[98], 2⟩] : List (name_value_pair Nat)) 0 [98] 3).1
      = [⟨[98], 3⟩, ⟨[97], 1⟩, ⟨[98], 2⟩] := by
  refine ⟨by simp, by decide, ?_, by decide⟩
  have h : (json_object_insertion.set_hint_string
      ([⟨[97], 1⟩] : List (name_value_pair Nat)) 1 [97] 2).1 = [⟨[97], 1⟩, ⟨[97], 2⟩] := by
    decide
  rw [h]
  simp

/-- C18 (amended): on an insertion-order table with pairwise distinct keys, the keys stay
pairwise distinct after `set(k, v)`, and after `set(hint, k, v)` with a valid hint when `k` is
not a key of the table or the entry at the hint has the key `k`; when `k` is a key of the table
and the entry at the hint (if any) has another key, the hinted `set` adds a second entry with
the key `k`. -/
theorem insertion_set_keeps_keys_distinct {V : Type} (t : List (name_value_pair V))
    (hint : Nat) (k : List Nat) (v : V) (hn : (t.map name_value_pair.name).Nodup)
    (hh : hint ≤ t.length) :
    ((json_object_insertion.set_string t k v).map name_value_pair.name).Nodup ∧
    ((k ∉ t.map name_value_pair.name ∨ (t[hint]?).map name_value_pair.name = some k) →
      ((json_object_insertion.set_hint_string t hint k v).1.map name_value_pair.name).Nodup) ∧
    (k ∈ t.map name_value_pair.name → (t[hint]?).map name_value_pair.name ≠ some k →
      ¬ ((json_object_insertion.set_hint_string t hint k v).1.map
        name_value_pair.name).Nodup) := by
  refine ⟨insertion_set_nodup t k v hn, ?_, ?_⟩
  · intro hcond
    rcases insertion_set_hint_names t hint k v hh with ⟨_, hsame⟩ | ⟨hne, hperm⟩
    · rw [hsame]; exact hn
    · rw [hperm.nodup_iff, List.nodup_cons]
      rcases hcond with h | h
      · exact ⟨h, hn⟩
      · exact absurd h hne
  · intro hk hne
    rcases insertion_set_hint_names t hint k v hh with ⟨heq, _⟩ | ⟨_, hperm⟩
    · exact absurd heq hne
    · rw [hperm.nodup_iff, List.nodup_cons]
      exact fun h => h.1 hk

theorem insertion_set_keeps_keys_distinct_witness :
    ((json_object_insertion.set_hint_string
      ([⟨[97], 1⟩, ⟨[98], 2⟩] : List (name_value_pair Nat)) 1 [99] 3).1.map
      name_value_pair.name).Nodup :=
  (insertion_set_keeps_keys_distinct
    ([⟨[97], 1⟩, ⟨[98], 2⟩] : List (name_value_pair Nat)) 1 [99] 3 (by simp) (by decide)).2.1
    (Or.inl (by simp))

/-- C19: on every insertion-order table `at(i)` returns the value of the entry stored at
position `i` when `i < size` and fails with the out-of-range condition exactly when `i >= size`,
the table being left as it was; after `set` calls with pairwise distinct keys on an empty
table, `at(j)` is the value given with the `j`-th key; on the four-member object of `test_index`
`at(0)`..`at(3)` are `"100"`, `"Queen St W"`, `"Toronto"`, `"Canada"`. -/
theorem insertion_at_indexed_access {V : Type} (t : List (name_value_pair V)) (i : Nat)
    (calls : List (List Nat × V)) :
    (json_object_insertion.at_ t i).1 = t ∧
    (i < t.length → ∃ e, t[i]? = some e ∧
      (json_object_insertion.at_ t i).2 = Except.ok e.value) ∧
    (i ≥ t.length → (json_object_insertion.at_ t i).2
      = Except.error (exception_kind.out_of_range, "Invalid array subscript")) ∧
    ((∃ err, (json_object_insertion.at_ t i).2 = Except.error err) ↔ i ≥ t.length) ∧
    ((calls.map Prod.fst).Nodup → ∀ j c, calls[j]? = some c →
      (json_object_insertion.at_ (json_object_insertion.set_calls [] calls) j).2
        = Except.ok c.2) ∧
    (json_object_insertion.at_ test_index_object 0).2 = Except.ok "100" ∧
    (json_object_insertion.at_ test_index_object 1).2 = Except.ok "Queen St W" ∧
    (json_object_insertion.at_ test_index_object 2).2 = Except.ok "Toronto" ∧
    (json_object_insertion.at_ test_index_object 3).2 = Except.ok "Canada" ∧
    (json_object_insertion.at_ test_index_object 4).2
      = Except.error (exception_kind.out_of_range, "Invalid array subscript") := by
  have hok := @insertion_at_ok V
  have herr := @insertion_at_error V
  refine ⟨?_, ?_, ?_, ?_, ?_, ?_, ?_, ?_, ?_, ?_⟩
  · by_cases hi : i < t.length
    · rw [hok t i _ (List.getElem?_eq_getElem hi)]
    · rw [herr t i (by omega)]
  · intro hi
    exact ⟨t[i], List.getElem?_eq_getElem hi, by rw [hok t i _ (List.getElem?_eq_getElem hi)]⟩
  · intro hi
    rw [herr t i hi]
  · constructor
    · rintro ⟨err, he⟩
      by_contra hlt
      rw [hok t i _ (List.getElem?_eq_getElem (by omega))] at he
      exact absurd he (by simp)
    · intro hi
      exact ⟨_, by rw [herr t i hi]⟩
  · intro hn j c hc
    have hcalls := insertion_set_calls_of_distinct calls [] hn (by simp)
    rw [List.nil_append] at hcalls
    rw [hcalls, hok _ j ⟨c.1, c.2⟩ (by rw [List.getElem?_map, hc]; rfl)]
  · rw [insertion_at_ok test_index_object 0 ⟨code_units "street_number", "100"⟩ (by decide)]
  · rw [insertion_at_ok test_index_object 1 ⟨code_units "street_name", "Queen St W"⟩
      (by decide)]
  · rw [insertion_at_ok test_index_object 2 ⟨code_units "city", "Toronto"⟩ (by decide)]
  · rw [insertion_at_ok test_index_object 3 ⟨code_units "country", "Canada"⟩ (by decide)]
  · rw [insertion_at_error test_index_object 4 (by decide)]

/-- C20: on every sorted table and for every index, `at(i)` fails with the unsupported-operation
condition (a `std::runtime_error`), returns no value and leaves the table as it was; that
condition is of another kind than the out-of-range condition of the insertion-order `at`. -/
theorem sorted_at_unsupported {V : Type} (t t2 : List (name_value_pair V)) (i i2 : Nat) :
    json_object_sorted.at_ t i = (t, Except.error
      (exception_kind.runtime_error, "Index on non-array value not supported")) ∧
    (∀ v, (json_object_sorted.at_ t i).2 ≠ Except.ok v) ∧
    (json_object_sorted.at_ t i).1 = t ∧
    (∀ e1 e2, (json_object_sorted.at_ t i).2 = Except.error e1 →
      (json_object_insertion.at_ t2 i2).2 = Except.error e2 → e1.1 ≠ e2.1) := by
  refine ⟨rfl, ?_, rfl, ?_⟩
  · intro v h
    simp [json_object_sorted.at_, JSONCONS_THROW_EXCEPTION] at h
  · intro e1 e2 h1 h2
    have hk1 : e1.1 = exception_kind.runtime_error := by
      simp only [json_object_sorted.at_, JSONCONS_THROW_EXCEPTION, Except.error.injEq] at h1
      rw [← h1]
    have hk2 : e2.1 = exception_kind.out_of_range := by
      unfold json_object_insertion.at_ at h2
      split at h2
      · simp only [JSONCONS_THROW_EXCEPTION, Except.error.injEq] at h2
        rw [← h2]
      · split at h2
        · simp at h2
        · simp only [JSONCONS_THROW_EXCEPTION, Except.error.injEq] at h2
          rw [← h2]
    rw [hk1, hk2]
    decide

/-- C21: `remove_range(from, to)` on a sequence succeeds exactly when `from <= to <= size`; on
success the result holds the elements at the indices `[0, from)` followed by those at
`[to, size)`, so the size drops by `to - from`; when `from > to` or `to > size` the call fails
and the sequence is left as it was. `remove_range(1, 3)` on `[10, 20, 30, 40]` gives
`[10, 40]`. -/
theorem array_remove_range {J : Type} (s : List J) (from_index to_index : Nat) :
    ((json_array.remove_range s from_index to_index).2 = Except.ok () ↔
      from_index ≤ to_index ∧ to_index ≤ s.length) ∧
    (from_index ≤ to_index → to_index ≤ s.length →
      (json_array.remove_range s from_index to_index).1
          = s.take from_index ++ s.drop to_index ∧
        (∀ i, i < from_index → (json_array.remove_range s from_index to_index).1[i]? = s[i]?) ∧
        (∀ i, from_index ≤ i → (json_array.remove_range s from_index to_index).1[i]?
          = s[i + (to_index - from_index)]?) ∧
        (json_array.remove_range s from_index to_index).1.length
          = s.length - (to_index - from_index)) ∧
    (¬ (from_index ≤ to_index ∧ to_index ≤ s.length) →
      (∃ e, (json_array.remove_range s from_index to_index).2 = Except.error e) ∧
        (json_array.remove_range s from_index to_index).1 = s) ∧
    (json_array.remove_range [10, 20, 30, 40] 1 3).2 = Except.ok () ∧
    (json_array.remove_range [10, 20, 30, 40] 1 3).1 = [10, 40] ∧
    (json_array.remove_range [10, 20, 30, 40] 3 1).1 = [10, 20, 30, 40] ∧
    (json_array.remove_range [10, 20, 30, 40] 2 5).1 = [10, 20, 30, 40] := by
  refine ⟨?_, ?_, ?_, by rw [remove_range_ok _ 1 3 (by decide) (by decide)], by decide,
    by decide, by decide⟩
  · constructor
    · intro h
      by_contra hn
      obtain ⟨e, he⟩ := remove_range_fail s from_index to_index hn
      rw [he] at h
      exact absurd h (by simp)
    · intro h
      rw [remove_range_ok s _ _ h.1 h.2]
  · intro h1 h2
    rw [remove_range_ok s _ _ h1 h2]
    refine ⟨rfl, ?_, ?_, ?_⟩
    · intro i hi
      simp only
      rw [vector_erase_getElem? s _ _ h1 h2, if_pos hi]
    · intro i hi
      simp only
      rw [vector_erase_getElem? s _ _ h1 h2, if_neg (by omega)]
    · simp only [vector_erase, List.length_append, List.length_take, List.length_drop]
      omega
  · intro hn
    obtain ⟨e, he⟩ := remove_range_fail s from_index to_index hn
    rw [he]
    exact ⟨⟨e, rfl⟩, rfl⟩

/-- C22: `push_back(v)` yields the sequence followed by `v` (the size grows by 1, the last element
is `v`, the earlier elements are unchanged); `add(i, v)` with `i >= size` yields the same sequence
as `push_back(v)`; `add(i, v)` with `i < size` yields the elements at `[0, i)`, then `v`, then
the elements at `[i, size)`. -/
theorem array_push_back_and_add {J : Type} (s : List J) (v : J) (i : Nat) :
    json_array.push_back s v = s ++ [v] ∧
    (json_array.push_back s v).length = s.length + 1 ∧
    (json_array.push_back s v)[s.length]? = some v ∧
    (∀ j, j < s.length → (json_array.push_back s v)[j]? = s[j]?) ∧
    (i ≥ s.length → json_array.add s i v = json_array.push_back s v) ∧
    (i < s.length →
      json_array.add s i v = s.take i ++ v :: s.drop i ∧
      (json_array.add s i v).length = s.length + 1 ∧
      (json_array.add s i v)[i]? = some v ∧
      (∀ j, j < i → (json_array.add s i v)[j]? = s[j]?) ∧
      (∀ j, i ≤ j → (json_array.add s i v)[j + 1]? = s[j]?)) ∧
    json_array.add [10, 20, 30] 1 15 = [10, 15, 20, 30] ∧
    json_array.add [10, 20, 30] 7 15 = [10, 20, 30, 15] := by
  refine ⟨rfl, by simp [json_array.push_back], ?_, ?_, ?_, ?_, by decide, by decide⟩
  · unfold json_array.push_back
    rw [List.getElem?_append_right (Nat.le_refl _), Nat.sub_self]
    exact List.getElem?_cons_zero
  · intro j hj
    unfold json_array.push_back
    rw [List.getElem?_append_left hj]
  · intro hi
    unfold json_array.add json_array.push_back vector_insert
    simp only
    rw [if_neg (by omega), List.take_length, List.drop_length]
  · intro hi
    have hadd : json_array.add s i v = vector_insert s i v := by
      unfold json_array.add
      simp only
      rw [if_pos hi]
    rw [hadd]
    refine ⟨rfl, ?_, ?_, ?_, ?_⟩
    · simp only [vector_insert, List.length_append, List.length_take, List.length_cons,
        List.length_drop]
      omega
    · rw [vector_insert_getElem? s i v (by omega), if_neg (by omega), if_pos rfl]
    · intro j hj
      rw [vector_insert_getElem? s i v (by omega), if_pos hj]
    · intro j hj
      rw [vector_insert_getElem? s i v (by omega), if_neg (by omega), if_neg (by omega)]
      rfl

/-- C23: two sequences compare equal with `==` if and only if they have the same size and at
every index the two elements are equal under the value equality `value_eq`. -/
theorem array_equality_iff_elementwise {J : Type} (value_eq : J → J → Bool) (a b : List J) :
    json_array.operator_eq value_eq a b = true ↔
      a.length = b.length ∧
        ∀ i, i < a.length → ∃ x y, a[i]? = some x ∧ b[i]? = some y ∧ value_eq x y = true := by
  unfold json_array.operator_eq
  by_cases hl : a.length = b.length
  · simp only [hl, ne_eq, not_true_eq_false, if_false, true_and]
    rw [← hl, array_eq_loop_iff value_eq a b a.length 0 (by omega) (by omega)]
    constructor
    · intro h i hi
      exact h i (Nat.zero_le _) (by omega)
    · intro h j _ hj
      exact h j (by omega)
  · simp [hl]

/-- C24: on every insertion-order table and at every valid hint, `set(hint, k, v)` does no
search: with the hint at the end it appends `(k, v)`; when the entry at the hint has the key `k`
it replaces the value of that entry only; otherwise it inserts `(k, v)` immediately before the
entry at the hint, so the size grows by 1 and all other entries keep their order; the returned
position always designates an entry with key `k` and value `v`. In `test_object`,
`set(find("country"), "province", "Ontario")` puts `province` immediately before `country`. -/
theorem insertion_hinted_set_trusts_hint {V : Type} (t : List (name_value_pair V)) (hint : Nat)
    (k : List Nat) (v : V) (hh : hint ≤ t.length) :
    (hint = t.length →
      json_object_insertion.set_hint_string t hint k v = (t ++ [⟨k, v⟩], t.length)) ∧
    (∀ e, t[hint]? = some e → e.name = k →
      json_object_insertion.set_hint_string t hint k v
        = (t.take hint ++ ⟨k, v⟩ :: t.drop (hint + 1), hint) ∧
      (json_object_insertion.set_hint_string t hint k v).1.length = t.length) ∧
    (∀ e, t[hint]? = some e → e.name ≠ k →
      json_object_insertion.set_hint_string t hint k v
        = (t.take hint ++ ⟨k, v⟩ :: t.drop hint, hint) ∧
      (json_object_insertion.set_hint_string t hint k v).1.length = t.length + 1) ∧
    (json_object_insertion.set_hint_string t hint k v).1[
      (json_object_insertion.set_hint_string t hint k v).2]? = some ⟨k, v⟩ ∧
    json_object_insertion.find_string test_object_o (code_units "country") = 3 ∧
    test_object_province =
      [⟨code_units "street_number", "100"⟩, ⟨code_units "street_name", "Queen St W"⟩,
        ⟨code_units "city", "Toronto"⟩, ⟨code_units "province", "Ontario"⟩,
        ⟨code_units "country", "Canada"⟩, ⟨code_units "postal_code", "M5H 2N2"⟩] ∧
    json_object_insertion.find_string test_object_province (code_units "province") + 1
      = json_object_insertion.find_string test_object_province (code_units "country") := by
  refine ⟨?_, ?_, ?_, ?_, by decide, by decide, by decide⟩
  · intro hend
    rcases insertion_set_hint_cases t hint k v hh with ⟨_, h⟩ | ⟨A, e, B, ht, hA, _, _⟩ |
      ⟨A, e, B, ht, hA, _, _⟩
    · exact h
    · rw [ht] at hend
      simp only [List.length_append, List.length_cons] at hend
      omega
    · rw [ht] at hend
      simp only [List.length_append, List.length_cons] at hend
      omega
  · intro e he hk
    have hlt : hint < t.length := (List.getElem?_eq_some_iff.mp he).1
    rcases insertion_set_hint_cases t hint k v hh with ⟨hend, _⟩ | ⟨A, e2, B, ht, hA, _, h⟩ |
      ⟨A, e2, B, ht, hA, hk2, _⟩
    · omega
    · subst hA
      subst ht
      rw [h, (take_drop_of_split A B e2).1, (take_drop_of_split A B e2).2.2]
      exact ⟨rfl, by simp⟩
    · subst hA
      subst ht
      rw [getElem?_append_length] at he
      rw [Option.some.inj he] at hk2
      exact absurd hk hk2
  · intro e he hk
    have hlt : hint < t.length := (List.getElem?_eq_some_iff.mp he).1
    rcases insertion_set_hint_cases t hint k v hh with ⟨hend, _⟩ | ⟨A, e2, B, ht, hA, hk2, _⟩ |
      ⟨A, e2, B, ht, hA, _, h⟩
    · omega
    · subst hA
      subst ht
      rw [getElem?_append_length] at he
      rw [Option.some.inj he] at hk2
      exact absurd hk2 hk
    · subst hA
      subst ht
      rw [h, (take_drop_of_split A B e2).1, (take_drop_of_split A B e2).2.1]
      refine ⟨rfl, ?_⟩
      simp only [List.length_append, List.length_cons]
      omega
  · rcases insertion_set_hint_cases t hint k v hh with ⟨_, h⟩ | ⟨A, e2, B, _, hA, _, h⟩ |
      ⟨A, e2, B, _, hA, _, h⟩
    · rw [h]
      exact getElem?_append_length t [] _
    · rw [h, ← hA]
      exact getElem?_append_length A B _
    · rw [h, ← hA]
      exact getElem?_append_length A (e2 :: B) _

theorem insertion_hinted_set_trusts_hint_witness :
    (json_object_insertion.set_hint_string
      ([⟨[97], 1⟩, ⟨[98], 2⟩] : List (name_value_pair Nat)) 1 [99] 3).1
      = [⟨[97], 1⟩, ⟨[99], 3⟩, ⟨[98], 2⟩] :=
  by
    have h := (insertion_hinted_set_trusts_hint
      ([⟨[97], 1⟩, ⟨[98], 2⟩] : List (name_value_pair Nat)) 1 [99] 3 (by decide)).2.2.1
      ⟨[98], 2⟩ (by decide) (by decide)
    rw [h.1]
    decide

/-- C26: bulk `insert` on the insertion-order table leaves the previous entry list followed by
`transform(element)` for each source element in source order; the previous entries are
unchanged, nothing is sorted or de-duplicated, and the size grows by the length of the source. -/
theorem insertion_insert_appends {S V : Type} (dflt : name_value_pair V)
    (t : List (name_value_pair V)) (source : List S) (pred : S → name_value_pair V) :
    json_object_insertion.insert dflt t source pred = t ++ source.map pred ∧
    (json_object_insertion.insert dflt t source pred).length = t.length + source.length ∧
    (∀ i, i < t.length → (json_object_insertion.insert dflt t source pred)[i]? = t[i]?) ∧
    (∀ j, j < source.length →
      (json_object_insertion.insert dflt t source pred)[t.length + j]?
        = (source[j]?).map pred) ∧
    json_object_insertion.insert ⟨[], 0⟩ ([⟨[98], 1⟩] : List (name_value_pair Nat))
      [([98], 3), ([97], 2)] (fun c : List Nat × Nat => ⟨c.1, c.2⟩)
      = [⟨[98], 1⟩, ⟨[98], 3⟩, ⟨[97], 2⟩] := by
  rw [insertion_insert_eq]
  refine ⟨rfl, by simp, ?_, ?_, by decide⟩
  · intro i hi
    rw [List.getElem?_append_left hi]
  · intro j _
    rw [List.getElem?_append_right (Nat.le_add_right _ _), Nat.add_sub_cancel_left,
      List.getElem?_map]

/-- C27: `erase(k)` removes the entry that `find(k)` designates and nothing else, the remaining
entries keeping their order, and leaves the table as it was when `find(k)` is the end marker,
on a sorted table with strictly ascending keys (`ts`) and on any insertion-order table (`ti`);
on the sorted table `find(k)` is the end marker afterwards. In `test_object`,
`set("unit_type", "O")` followed by `erase("unit_type")` gives back the object before the
`set`. -/
theorem erase_removes_found_entry {V : Type} (ts ti : List (name_value_pair V)) (k : List Nat)
    (hs : strictly_ascending ts) :
    json_object_sorted.erase_string ts k =
      (if json_object_sorted.find_string ts k = ts.length then ts
        else ts.eraseIdx (json_object_sorted.find_string ts k)) ∧
    json_object_sorted.find_string (json_object_sorted.erase_string ts k) k
      = (json_object_sorted.erase_string ts k).length ∧
    json_object_insertion.erase_string ti k =
      (if json_object_insertion.find_string ti k = ti.length then ti
        else ti.eraseIdx (json_object_insertion.find_string ti k)) ∧
    json_object_insertion.erase_string
      (json_object_insertion.set_string test_object_province (code_units "unit_type") "O")
      (code_units "unit_type") = test_object_province ∧
    json_object_sorted.erase_string
      (json_object_sorted.set_string
        (json_object_sorted.set_calls [] [(code_units "city", "Toronto"),
          (code_units "country", "Canada")]) (code_units "unit_type") "O")
      (code_units "unit_type")
      = [⟨code_units "city", "Toronto"⟩, ⟨code_units "country", "Canada"⟩] :=
  ⟨sorted_erase_eq ts k,
    sorted_find_after_erase ts k ((strictly_ascending_iff_pairwise ts).mp hs),
    insertion_erase_eq ti k, by decide, by decide⟩

theorem erase_removes_found_entry_witness :
    strictly_ascending ([⟨[97], 1⟩, ⟨[99], 2⟩, ⟨[101], 3⟩] : List (name_value_pair Nat)) ∧
    json_object_sorted.find_string (json_object_sorted.erase_string
      ([⟨[97], 1⟩, ⟨[99], 2⟩, ⟨[101], 3⟩] : List (name_value_pair Nat)) [99]) [99]
      = (json_object_sorted.erase_string
        ([⟨[97], 1⟩, ⟨[99], 2⟩, ⟨[101], 3⟩] : List (name_value_pair Nat)) [99]).length :=
  ⟨by decide,
    (erase_removes_found_entry
      ([⟨[97], 1⟩, ⟨[99], 2⟩, ⟨[101], 3⟩] : List (name_value_pair Nat))
      [⟨[99], 2⟩, ⟨[97], 1⟩, ⟨[99], 5⟩] [99] (by decide)).2.1⟩

/-- C25: construction of a sorted table from a pair list fails with the invalid-construction
condition if and only if some element is not an array of exactly 2 elements or has a first
element that is not a string; in that case no entry has been set; there is no other failure;
when every element is a valid pair, the table is the result of `set(first as string, second)`
applied to the empty table for each pair in list order. -/
theorem sorted_construction_from_pair_list {J : Type} (is_string : J → Bool)
    (as_string : J → List Nat) (init : List (List J)) (pairs : List (J × J)) :
    ((json_object_sorted.from_initializer_list is_string as_string init).2 = Except.error
        (exception_kind.runtime_error, "Cannot create object from initializer list") ↔
      ∃ element ∈ init, (element.length ≠ 2 ∨
        ∃ first, element[0]? = some first ∧ is_string first = false)) ∧
    ((∃ e, (json_object_sorted.from_initializer_list is_string as_string init).2
        = Except.error e) →
      (json_object_sorted.from_initializer_list is_string as_string init).1 = []) ∧
    ((json_object_sorted.from_initializer_list is_string as_string init).2 = Except.ok () ∨
      (json_object_sorted.from_initializer_list is_string as_string init).2 = Except.error
        (exception_kind.runtime_error, "Cannot create object from initializer list")) ∧
    ((∀ element ∈ init, ¬ (element.length ≠ 2 ∨
        ∃ first, element[0]? = some first ∧ is_string first = false)) →
      ∃ ps : List (J × J), init = ps.map (fun p => [p.1, p.2]) ∧
        (∀ p ∈ ps, is_string p.1 = true) ∧
        json_object_sorted.from_initializer_list is_string as_string init
          = (json_object_sorted.set_calls [] (ps.map (fun p => (as_string p.1, p.2))),
            Except.ok ())) ∧
    ((∀ p ∈ pairs, is_string p.1 = true) →
      json_object_sorted.from_initializer_list is_string as_string
          (pairs.map (fun p => [p.1, p.2]))
        = (json_object_sorted.set_calls [] (pairs.map (fun p => (as_string p.1, p.2))),
          Except.ok ())) := by
  have hvalid : ∀ ps : List (J × J), (∀ p ∈ ps, is_string p.1 = true) →
      json_object_sorted.from_initializer_list is_string as_string
          (ps.map (fun p => [p.1, p.2]))
        = (json_object_sorted.set_calls [] (ps.map (fun p => (as_string p.1, p.2))),
          Except.ok ()) := by
    intro ps hps
    unfold json_object_sorted.from_initializer_list
    rcases init_check_cases is_string (ps.map (fun p => [p.1, p.2])) with
      ⟨hok, _⟩ | ⟨_, el, hel, hbad⟩
    · rw [hok]
      simp only
      rw [init_set_pairs]
    · obtain ⟨p, hp, hpe⟩ := List.mem_map.mp hel
      rw [← hpe] at hbad
      rcases hbad with h | ⟨f, hf, hfs⟩
      · simp at h
      · have hfp : f = p.1 := by
          have : ([p.1, p.2] : List J)[0]? = some p.1 := rfl
          rw [this] at hf
          exact (Option.some.inj hf).symm
        rw [hfp, hps p hp] at hfs
        exact absurd hfs (by decide)
  refine ⟨?_, ?_, ?_, ?_, hvalid pairs⟩
  · unfold json_object_sorted.from_initializer_list
    rcases init_check_cases is_string init with ⟨hok, hall⟩ | ⟨herr, hex⟩
    · rw [hok]
      simp only
      constructor
      · intro h; exact absurd h (by simp)
      · rintro ⟨el, hel, hbad⟩
        exact absurd hbad (hall el hel)
    · rw [herr]
      exact ⟨fun _ => hex, fun _ => rfl⟩
  · unfold json_object_sorted.from_initializer_list
    rcases init_check_cases is_string init with ⟨hok, _⟩ | ⟨herr, _⟩
    · rw [hok]
      simp only
      rintro ⟨e, he⟩
      exact absurd he (by simp)
    · rw [herr]
      exact fun _ => rfl
  · unfold json_object_sorted.from_initializer_list
    rcases init_check_cases is_string init with ⟨hok, _⟩ | ⟨herr, _⟩
    · rw [hok]
      exact Or.inl rfl
    · rw [herr]
      exact Or.inr rfl
  · intro hall
    obtain ⟨ps, hps, hstr⟩ := valid_elements_are_pairs is_string init hall
    refine ⟨ps, hps, hstr, ?_⟩
    rw [hps]
    exact hvalid ps hstr

theorem sorted_construction_from_pair_list_witness :
    (json_object_sorted.from_initializer_list (fun j : Nat ⊕ List Nat => j.isRight)
        (fun j => j.elim (fun _ => []) id)
        [[Sum.inr [98], Sum.inl 1], [Sum.inr [97], Sum.inl 2]]).1
      = [⟨[97], Sum.inl 2⟩, ⟨[98], Sum.inl 1⟩] ∧
    (json_object_sorted.from_initializer_list (fun j : Nat ⊕ List Nat => j.isRight)
        (fun j => j.elim (fun _ => []) id)
        [[Sum.inr [98], Sum.inl 1], [Sum.inl 7, Sum.inl 2]]).1 = [] :=
  ⟨by
      have h := (sorted_construction_from_pair_list (fun j : Nat ⊕ List Nat => j.isRight)
        (fun j => j.elim (fun _ => []) id) []
        [(Sum.inr [98], Sum.inl 1), (Sum.inr [97], Sum.inl 2)]).2.2.2.2 (by simp)
      rw [List.map_cons, List.map_cons, List.map_nil] at h
      rw [h]
      decide,
    by decide⟩

/-- C28: for two sorted tables with strictly ascending keys, `A == B` (one binary search in `B`
per entry of `A`) returns the same boolean as the comparison of the two entry lists position by
position: the same size and, at every index, equal keys and equal values. -/
theorem sorted_equality_is_positionwise {V : Type} (value_eq : V → V → Bool)
    (A B : List (name_value_pair V)) (hA : strictly_ascending A) (hB : strictly_ascending B) :
    json_object_sorted.operator_eq value_eq A B = positionwise_eq value_eq A B ∧
    (positionwise_eq value_eq A B = true ↔
      A.length = B.length ∧ ∀ (i : Nat) (a b : name_value_pair V),
        A[i]? = some a → B[i]? = some b →
          b.name = a.name ∧ value_eq b.value a.value = true) :=
  ⟨sorted_eq_positionwise value_eq A B ((strictly_ascending_iff_pairwise A).mp hA)
    ((strictly_ascending_iff_pairwise B).mp hB), positionwise_eq_iff value_eq A B⟩

theorem sorted_equality_is_positionwise_witness :
    json_object_sorted.operator_eq (fun a b => decide (a = b))
      ([⟨[97], 1⟩, ⟨[99], 2⟩] : List (name_value_pair Nat)) [⟨[97], 1⟩, ⟨[100], 2⟩]
      = positionwise_eq (fun a b => decide (a = b))
        ([⟨[97], 1⟩, ⟨[99], 2⟩] : List (name_value_pair Nat)) [⟨[97], 1⟩, ⟨[100], 2⟩] :=
  (sorted_equality_is_positionwise (fun a b => decide (a = b))
    ([⟨[97], 1⟩, ⟨[99], 2⟩] : List (name_value_pair Nat)) [⟨[97], 1⟩, ⟨[100], 2⟩]
    (by decide) (by decide)).1

/-- C29: `set(k, v)` touches only the entry for `k`: for every other key `k2`, `find(k2)` after
the call designates the same entry (so the same value) as before the call, and is the end marker
after the call exactly when it was before; the size grows by 1 when `find(k)` was the end marker
and is unchanged otherwise. This holds on a sorted table with strictly ascending keys (`ts`)
and on any insertion-order table (`ti`). -/
theorem set_touches_only_its_key {V : Type} (ts ti : List (name_value_pair V)) (k k2 : List Nat)
    (v : V) (hs : strictly_ascending ts) (hne : k2 ≠ k) :
    ((json_object_sorted.set_string ts k v)[json_object_sorted.find_string
        (json_object_sorted.set_string ts k v) k2]?
      = ts[json_object_sorted.find_string ts k2]? ∧
     (json_object_sorted.find_string (json_object_sorted.set_string ts k v) k2
        = (json_object_sorted.set_string ts k v).length ↔
      json_object_sorted.find_string ts k2 = ts.length) ∧
     (json_object_sorted.find_string ts k = ts.length →
      (json_object_sorted.set_string ts k v).length = ts.length + 1) ∧
     (json_object_sorted.find_string ts k ≠ ts.length →
      (json_object_sorted.set_string ts k v).length = ts.length)) ∧
    ((json_object_insertion.set_string ti k v)[json_object_insertion.find_string
        (json_object_insertion.set_string ti k v) k2]?
      = ti[json_object_insertion.find_string ti k2]? ∧
     (json_object_insertion.find_string (json_object_insertion.set_string ti k v) k2
        = (json_object_insertion.set_string ti k v).length ↔
      json_object_insertion.find_string ti k2 = ti.length) ∧
     (json_object_insertion.find_string ti k = ti.length →
      (json_object_insertion.set_string ti k v).length = ti.length + 1) ∧
     (json_object_insertion.find_string ti k ≠ ti.length →
      (json_object_insertion.set_string ti k v).length = ti.length)) := by
  have hp := (strictly_ascending_iff_pairwise ts).mp hs
  have hp2 := sorted_set_pairwise ts k v hp
  constructor
  · rw [sorted_find_eq_scan _ k2 hp2, sorted_find_eq_scan ts k2 hp]
    refine ⟨?_, ?_, ?_, ?_⟩
    · rw [getElem?_find_if, getElem?_find_if, sorted_set_find?_other ts k k2 v hp hne]
    · rw [find_if_eq_length_iff, find_if_eq_length_iff,
        sorted_set_find?_other ts k k2 v hp hne]
    · intro h
      rcases sorted_set_length ts k v hp with ⟨_, hl⟩ | ⟨hn, _⟩
      · exact hl
      · exact absurd h hn
    · intro h
      rcases sorted_set_length ts k v hp with ⟨he, _⟩ | ⟨_, hl⟩
      · exact absurd he h
      · exact hl
  · rw [insertion_find_eq_scan, insertion_find_eq_scan]
    refine ⟨?_, ?_, ?_, ?_⟩
    · rw [getElem?_find_if, getElem?_find_if, insertion_set_find?_other ti k k2 v hne]
    · rw [find_if_eq_length_iff, find_if_eq_length_iff,
        insertion_set_find?_other ti k k2 v hne]
    · intro h
      rcases insertion_set_cases ti k v with ⟨_, _, hset⟩ | ⟨A, old, B, ht, _, hf, _⟩
      · rw [hset]; simp
      · rw [hf, ht] at h
        simp only [List.length_append, List.length_cons] at h
        omega
    · intro h
      rcases insertion_set_cases ti k v with ⟨_, hf, _⟩ | ⟨A, old, B, ht, _, _, hset⟩
      · exact absurd hf h
      · rw [hset, ht]; simp

theorem set_touches_only_its_key_witness :
    strictly_ascending ([⟨[97], 1⟩, ⟨[99], 2⟩] : List (name_value_pair Nat)) ∧
    (json_object_sorted.set_string ([⟨[97], 1⟩, ⟨[99], 2⟩] : List (name_value_pair Nat))
      [98] 7)[json_object_sorted.find_string (json_object_sorted.set_string
        ([⟨[97], 1⟩, ⟨[99], 2⟩] : List (name_value_pair Nat)) [98] 7) [99]]?
      = ([⟨[97], 1⟩, ⟨[99], 2⟩] : List (name_value_pair Nat))[json_object_sorted.find_string
        ([⟨[97], 1⟩, ⟨[99], 2⟩] : List (name_value_pair Nat)) [99]]? :=
  ⟨by decide,
    (set_touches_only_its_key ([⟨[97], 1⟩, ⟨[99], 2⟩] : List (name_value_pair Nat))
      [⟨[99], 2⟩, ⟨[97], 1⟩] [98] [99] 7 (by decide) (by decide)).1.1⟩

end jsoncons
